import Mathlib

/-! # Word wrapping with minimal raggedness (`wrap.go`)

A shallow embedding of `WrapString` and `WrapWords` from `wrap.go`, followed by
theorems about them.

Modelling conventions

* A Go `string` is modelled by the list of its runes (`Str`); the texts covered
  are the valid UTF-8 ones.
* Go's `int` is the 64-bit two's complement integer: every `+`, `-`, `*` of the
  source is followed by `wrapInt`.
* `runewidth.StringWidth` and `unicode.Is(unicode.Han, ·)` come from outside the
  package; they are the parameters `width` and `isHan`.
* `strings.Replace(·, "\n", " ", -1)`, `strings.Split(·, " ")` and
  `strings.Join(·, "")` are modelled by `replaceNl`, `splitSp` and `List.flatten`.
* The `for i < n` loop at the end of `WrapWords` has no syntactic bound, so it
  is run with a fuel argument, one unit per pass; a run ends in one of three ways
  (`Outcome`). The other loops are bounded `for` loops and are folds.
* The table `length` is the function giving its entries; allocation (`make`,
  `append`) always succeeds.
-/

namespace Wrap

/-- A Go string, seen as the sequence of its runes. -/
abbrev Str := List Char

/-- How a call ends: it returns a value, it panics on a slice expression whose
bounds are out of range, or the loop is still running when the fuel is spent. -/
inductive Outcome (α : Type) where
  | done (a : α)
  | outOfRange
  | outOfFuel
  deriving DecidableEq, Repr

/-- Two's complement reduction of an integer to the range of a 64-bit `int`. -/
def wrapInt (x : Int) : Int :=
  (x + 9223372036854775808) % 18446744073709551616 - 9223372036854775808

/-- The constant `math.MaxInt32`. -/
def MaxInt32 : Int := 2147483647

/-- The constant `defaultPenalty = 1e5`. -/
def defaultPenalty : Int := 100000

/-! ## `WrapWords` -/

/-- Entry `length[i][i+k]` of the table built at lines 94-101: the width of the
words `i .. i+k` laid on one line, `spc` between neighbours. -/
def lengthFrom (width : Str → Int) (words : List Str) (spc : Int) (i : Nat) : Nat → Int
  | 0 => width (words.getD i [])
  | k + 1 =>
    wrapInt (wrapInt (lengthFrom width words spc i k + spc) + width (words.getD (i + k + 1) []))

/-- Entry `length[i][j]` of the table; entries below the diagonal keep the zero
that `make` put there. -/
def length (width : Str → Int) (words : List Str) (spc : Int) (i j : Nat) : Int :=
  if i ≤ j then lengthFrom width words spc i (j - i) else 0

/-- The two slices `cost` and `nbrk`. -/
structure Tables where
  cost : List Int
  nbrk : List Nat
  deriving DecidableEq, Repr

/-- The candidate cost `c` computed at lines 113-117 for a break before word `j`
of a line starting at word `i`, `cj` being the current `cost[j]`. -/
def candidate (len : Nat → Nat → Int) (lim pen : Int) (i j : Nat) (cj : Int) : Int :=
  let d := wrapInt (lim - len i (j - 1))
  let c := wrapInt (wrapInt (d * d) + cj)
  if len i (j - 1) > lim then wrapInt (c + pen) else c

/-- One pass through the body of the inner loop (lines 113-121). -/
def innerStep (len : Nat → Nat → Int) (lim pen : Int) (i : Nat) (t : Tables) (j : Nat) :
    Tables :=
  let c := candidate len lim pen i j (t.cost.getD j 0)
  if c < t.cost.getD i 0 then ⟨t.cost.set i c, t.nbrk.set i j⟩ else t

/-- One pass through the body of the outer loop (lines 108-123). -/
def outerStep (len : Nat → Nat → Int) (lim pen : Int) (n : Nat) (t : Tables) (i : Nat) :
    Tables :=
  if len i (n - 1) ≤ lim then ⟨t.cost.set i 0, t.nbrk.set i n⟩
  else (List.range' (i + 1) (n - (i + 1))).foldl (innerStep len lim pen i) t

/-- The tables after lines 102-124: `cost` starts at `MaxInt32` everywhere, `nbrk`
at zero, and `i` runs from `n - 1` down to `0`. -/
def fillTables (len : Nat → Nat → Int) (lim pen : Int) (n : Nat) : Tables :=
  (List.range n).reverse.foldl (outerStep len lim pen n)
    ⟨List.replicate n MaxInt32, List.replicate n 0⟩

/-- The slice expression `words[i:j]`. -/
def slice (words : List Str) (i j : Nat) : List Str :=
  (words.drop i).take (j - i)

/-- The loop of lines 126-130, from the state `(i, lines)`. The slice expression
`words[i:nbrk[i]]` panics unless `i ≤ nbrk[i] ≤ cap(words)`. -/
def collect (words : List Str) (nbrk : List Nat) :
    Nat → Nat → List (List Str) → Outcome (List (List Str))
  | fuel, i, lines =>
    if i < words.length then
      match fuel with
      | 0 => Outcome.outOfFuel
      | fuel + 1 =>
        let j := nbrk.getD i 0
        if j < i ∨ words.length < j then Outcome.outOfRange
        else collect words nbrk fuel j (lines ++ [slice words i j])
    else Outcome.done lines

/-- The function `WrapWords(words, spc, lim, pen)`. -/
def WrapWords (width : Str → Int) (fuel : Nat) (words : List Str) (spc lim pen : Int) :
    Outcome (List (List Str)) :=
  let n := words.length
  let t := fillTables (length width words spc) lim pen n
  collect words t.nbrk fuel 0 []

/-! ## `WrapString` -/

/-- The body of the loop over the runes of `s` (lines 29-43). -/
def segStep (isHan : Char → Bool) (strs : List Str) (r : Char) : List Str :=
  let n := strs.length
  if isHan r then
    (if n = 0 ∨ strs.getD (n - 1) [] ≠ [] then strs ++ [[r]] else strs.set (n - 1) [r]) ++ [[]]
  else
    if n = 0 then strs ++ [[r]] else strs.set (n - 1) (strs.getD (n - 1) [] ++ [r])

/-- The slice `strs` after lines 27-47. -/
def segments (isHan : Char → Bool) (s : Str) : List Str :=
  let strs := s.foldl (segStep isHan) []
  if strs.length > 0 ∧ strs.getD (strs.length - 1) [] = [] then strs.take (strs.length - 1)
  else strs

/-- Model of `strings.Replace(str, "\n", " ", -1)`. -/
def replaceNl (str : Str) : Str :=
  str.map fun c => if c = '\n' then ' ' else c

/-- Model of `strings.Split(str, " ")`: the pieces between the spaces, empty
pieces included; a string without a space is one piece. -/
def splitSp : Str → List Str
  | [] => [[]]
  | c :: cs =>
    if c = ' ' then [] :: splitSp cs
    else
      match splitSp cs with
      | [] => [[c]]
      | w :: ws => (c :: w) :: ws

/-- The slice `words` after lines 49-52. -/
def tokenize (isHan : Char → Bool) (s : Str) : List Str :=
  (segments isHan s).foldl (fun words str => words ++ splitSp (replaceNl str)) []

/-- The value of `lim` after the loop of lines 55-61. -/
def raiseLimit (width : Str → Int) (words : List Str) (lim : Int) : Int :=
  words.foldl (fun lim v => if width v > lim then width v else lim) lim

/-- The value of `line[i]` after lines 65-72. -/
def renderWord (isHan : Char → Bool) (word : Str) : Str :=
  let n := word.length
  let out := if n > 0 ∧ ¬ isHan (word.getD (n - 1) ' ') then word ++ [' '] else word
  if n = 0 then [' '] else out

/-- The string appended to `lines` at line 75. -/
def renderLine (isHan : Char → Bool) (line : List Str) : Str :=
  (line.map (renderWord isHan)).flatten

/-- The function `WrapString(s, lim)`. -/
def WrapString (width : Str → Int) (isHan : Char → Bool) (fuel : Nat) (s : Str) (lim : Int) :
    Outcome (List Str × Int) :=
  let words := tokenize isHan s
  let lim := raiseLimit width words lim
  match WrapWords width fuel words 1 lim defaultPenalty with
  | Outcome.done lines => Outcome.done (lines.map (renderLine isHan), lim)
  | Outcome.outOfRange => Outcome.outOfRange
  | Outcome.outOfFuel => Outcome.outOfFuel

/-! ## Concrete collaborators used in examples -/

/-- Width of a text all of whose runes are one cell wide, as `runewidth` reports
for printable ASCII: the number of runes. -/
def runeCount (s : Str) : Int := s.length

/-- The main block of the Han script, CJK Unified Ideographs U+4E00..U+9FFF. -/
def hanBlock (c : Char) : Bool := 0x4E00 ≤ c.toNat && c.toNat ≤ 0x9FFF

/-- Width with two cells for each rune of `hanBlock` and one for any other. -/
def cellWidth (s : Str) : Int :=
  (s.map fun c => if hanBlock c then (2 : Int) else 1).sum

/-- The width that gives `k` to the word "b" and its number of runes to any other
word: the widths of a word list in which "b" stands for a word of `k` runes. -/
def standInWidth (k : Int) (w : Str) : Int := if w = ['b'] then k else runeCount w

/-- A piece of text is a single Han rune or holds no Han rune at all. -/
def HanOrPlain (isHan : Char → Bool) (g : Str) : Prop :=
  (∃ c, isHan c = true ∧ g = [c]) ∨ ∀ c ∈ g, isHan c = false

/-- The rendering of a word in the words of the specification: an empty word is
a single space, a word whose last rune is Han is left bare, and any other word
gets one space after it. -/
def renderBySpec (isHan : Char → Bool) (word : Str) : Str :=
  match word.getLast? with
  | none => [' ']
  | some c => if isHan c then word else word ++ [' ']

/-- The words of the text `a` standing before a word: those of `a`, the empty piece
that follows a final space or newline left out, since the word that follows takes
its place. -/
def wordsBefore (isHan : Char → Bool) (a : Str) : List Str :=
  match a.getLast? with
  | none => []
  | some c => if c = ' ' ∨ c = '\n' then (tokenize isHan a).dropLast else tokenize isHan a

/-- The words of the text `b` standing after a word: those of `b`, the empty piece
that precedes a leading space or newline left out, since the word before takes its
place. -/
def wordsAfter (isHan : Char → Bool) (b : Str) : List Str :=
  match b.head? with
  | none => []
  | some c => if c = ' ' ∨ c = '\n' then (tokenize isHan b).tail else tokenize isHan b

/-! ## Vocabulary of the statements -/

/-- The pair `(cost[i], nbrk[i])` after one more pass of the inner loop, `cand j`
being the candidate cost of a break before word `j`. -/
def scanStep (cand : Nat → Int) (p : Int × Nat) (j : Nat) : Int × Nat :=
  if cand j < p.1 then (cand j, j) else p

/-- The tables once the outer loop has handled the indices `n - 1` down to `m`. -/
def tablesFrom (len : Nat → Nat → Int) (lim pen : Int) (n m : Nat) : Tables :=
  (List.range' m (n - m)).reverse.foldl (outerStep len lim pen n)
    ⟨List.replicate n MaxInt32, List.replicate n 0⟩

/-- The error of one line of width `x`: the square of its distance to `lim`, plus
`pen` when the line is wider than `lim`. -/
def lineError (lim pen x : Int) : Int :=
  (lim - x) * (lim - x) + if x > lim then pen else 0

/-- The natural width of a line: the widths of its words plus `spc` between
neighbours. -/
def lineWidth (width : Str → Int) (spc : Int) : List Str → Int
  | [] => 0
  | w :: rest => width w + (rest.map fun v => spc + width v).sum

/-- The sum of the errors of the given lines. -/
def raggedness (width : Str → Int) (spc lim pen : Int) (lines : List (List Str)) : Int :=
  (lines.map fun l => lineError lim pen (lineWidth width spc l)).sum

/-- The lines are non-empty and, put end to end, give back the words. -/
def IsPartition (words : List Str) (lines : List (List Str)) : Prop :=
  lines.flatten = words ∧ ∀ l ∈ lines, l ≠ []

/-- The final line, if there is one, is not wider than `lim`. -/
def LastFits (width : Str → Int) (spc lim : Int) (lines : List (List Str)) : Prop :=
  ∀ l ∈ lines.getLast?, lineWidth width spc l ≤ lim

/-- The natural widths of all candidate lines, computed without reduction, lie
within `2^61` of zero, so that the table `length` holds them exactly. -/
def WidthsInRange (width : Str → Int) (words : List Str) (spc : Int) : Prop :=
  ∀ i j, i ≤ j → j < words.length →
    -2305843009213693952 ≤ lineWidth width spc (slice words i (j + 1)) ∧
      lineWidth width spc (slice words i (j + 1)) ≤ 2305843009213693952

/-- The lines obtained by following `nbrk` from word `i` to the end of the words,
each link going forward. -/
inductive Chain (words : List Str) (b : Nat → Nat) : Nat → List (List Str) → Prop where
  | stop (i : Nat) (h : words.length ≤ i) : Chain words b i []
  | line (i : Nat) (R : List (List Str)) (h : i < words.length) (h1 : i < b i)
      (h2 : b i ≤ words.length) (hr : Chain words b (b i) R) :
      Chain words b i (slice words i (b i) :: R)

/-- The arithmetic of the candidate costs stays inside the 64-bit range: the
penalty is non-negative and below `2^62`, and every candidate line is within
`2^30` of the limit. -/
def Tame (len : Nat → Nat → Int) (lim pen : Int) (n : Nat) : Prop :=
  0 ≤ pen ∧ pen < 4611686018427387904 ∧
    ∀ i j, i < j → j < n →
      -1073741824 ≤ lim - len i (j - 1) ∧ lim - len i (j - 1) ≤ 1073741824

/-- The entry `cost[k]` of the tables. -/
def costAt (t : Tables) (k : Nat) : Int := t.cost.getD k 0

/-- The entry `nbrk[k]` of the tables. -/
def nbrkAt (t : Tables) (k : Nat) : Nat := t.nbrk.getD k 0

/-- What the outer loop leaves in `cost[k]` and `nbrk[k]`, in terms of the final
values `c` of `cost` and `b` of `nbrk`: either the words from `k` on fit on one
line, or `cost[k]` is the least candidate below `MaxInt32` and `nbrk[k]` the
first break that reaches it, or no candidate is below `MaxInt32` and both entries
keep their initial value. -/
def Entry (len : Nat → Nat → Int) (lim pen : Int) (n : Nat) (c : Nat → Int) (b : Nat → Nat)
    (k : Nat) : Prop :=
  (len k (n - 1) ≤ lim → c k = 0 ∧ b k = n) ∧
  (¬ len k (n - 1) ≤ lim →
    c k ≤ MaxInt32 ∧
    (∀ j, k < j → j < n → c k ≤ candidate len lim pen k j (c j)) ∧
    ((c k = MaxInt32 ∧ b k = 0) ∨
      ∃ j, k < j ∧ j < n ∧ b k = j ∧ c k = candidate len lim pen k j (c j) ∧
        c k < MaxInt32 ∧ ∀ j2, k < j2 → j2 < j → c k < candidate len lim pen k j2 (c j2)))

/-- The cost of a break before word `j` of a line starting at word `i` as the
specification writes it, over the integers: the square of `lim - length[i][j-1]`,
plus `cost[j]`, plus `pen` when `length[i][j-1] > lim`. -/
def breakCostBySpec (len : Nat → Nat → Int) (lim pen : Int) (cost : Nat → Int) (i j : Nat) :
    Int :=
  (lim - len i (j - 1)) * (lim - len i (j - 1)) + cost j +
    if len i (j - 1) > lim then pen else 0

/-! ## Machine integers and slices -/

theorem wrapInt_eq (x : Int) (h1 : -9223372036854775808 ≤ x) (h2 : x < 9223372036854775808) :
    wrapInt x = x := by
  unfold wrapInt
  rw [Int.emod_eq_of_lt (by omega) (by omega)]
  omega

theorem getD_set {α : Type} (l : List α) (i k : Nat) (a d : α) (hi : i < l.length) :
    (l.set i a).getD k d = if k = i then a else l.getD k d := by
  simp only [List.getD_eq_getElem?_getD, List.getElem?_set]
  by_cases h : k = i
  · subst h
    simp [hi]
  · have h2 : ¬ i = k := fun e => h e.symm
    simp [h, h2]

theorem set_getD_self {α : Type} (l : List α) (i : Nat) (d : α) (hi : i < l.length) :
    l.set i (l.getD i d) = l := by
  apply List.ext_getElem?
  intro k
  simp only [List.getElem?_set, List.getD_eq_getElem?_getD]
  by_cases h : i = k
  · subst h
    simp [hi]
  · simp [h]

/-! ## The inner loop -/

theorem scan_spec (cand : Nat → Int) (js : List Nat) (hs : js.Pairwise (· < ·))
    (acc : Int × Nat) :
    (js.foldl (scanStep cand) acc).1 ≤ acc.1 ∧
    (∀ j ∈ js, (js.foldl (scanStep cand) acc).1 ≤ cand j) ∧
    (js.foldl (scanStep cand) acc = acc ∨
      ∃ j ∈ js, js.foldl (scanStep cand) acc = (cand j, j) ∧ cand j < acc.1 ∧
        ∀ j2 ∈ js, j2 < j → cand j < cand j2) := by
  induction js generalizing acc with
  | nil => simp
  | cons x xs ih =>
    rw [List.pairwise_cons] at hs
    obtain ⟨h1, h2, h3⟩ := ih hs.2 (scanStep cand acc x)
    have hstep : (scanStep cand acc x).1 ≤ acc.1 ∧ (scanStep cand acc x).1 ≤ cand x := by
      unfold scanStep
      split_ifs with h
      · exact ⟨le_of_lt h, le_refl _⟩
      · exact ⟨le_refl _, not_lt.mp h⟩
    simp only [List.foldl_cons]
    refine ⟨le_trans h1 hstep.1, ?_, ?_⟩
    · intro j hj
      rcases List.mem_cons.mp hj with rfl | hj
      · exact le_trans h1 hstep.2
      · exact h2 j hj
    · rcases h3 with h3 | ⟨j, hj, he, hlt, hmin⟩
      · by_cases hc : cand x < acc.1
        · right
          refine ⟨x, List.mem_cons_self _ _, ?_, hc, ?_⟩
          · rw [h3]
            simp [scanStep, hc]
          · intro j2 hj2 hlt2
            rcases List.mem_cons.mp hj2 with rfl | hj2
            · exact absurd hlt2 (lt_irrefl _)
            · exact absurd (hs.1 j2 hj2) (not_lt.mpr (le_of_lt hlt2))
        · left
          rw [h3]
          simp [scanStep, hc]
      · right
        refine ⟨j, List.mem_cons_of_mem _ hj, he, lt_of_lt_of_le hlt hstep.1, ?_⟩
        intro j2 hj2 hlt2
        rcases List.mem_cons.mp hj2 with rfl | hj2
        · exact lt_of_lt_of_le hlt hstep.2
        · exact hmin j2 hj2 hlt2

theorem scan_congr (f g : Nat → Int) (js : List Nat) (h : ∀ j ∈ js, f j = g j)
    (acc : Int × Nat) :
    js.foldl (scanStep f) acc = js.foldl (scanStep g) acc := by
  induction js generalizing acc with
  | nil => rfl
  | cons x xs ih =>
    simp only [List.foldl_cons]
    have hx : scanStep f acc x = scanStep g acc x := by
      simp [scanStep, h x (List.mem_cons_self _ _)]
    rw [hx]
    exact ih (fun j hj => h j (List.mem_cons_of_mem _ hj)) _

theorem innerLoop_eq (len : Nat → Nat → Int) (lim pen : Int) (i : Nat) (js : List Nat)
    (t : Tables) (hc : i < t.cost.length) (hb : i < t.nbrk.length) (hjs : ∀ j ∈ js, j ≠ i) :
    js.foldl (innerStep len lim pen i) t =
      ⟨t.cost.set i (js.foldl (scanStep fun j => candidate len lim pen i j (t.cost.getD j 0))
          (t.cost.getD i 0, t.nbrk.getD i 0)).1,
        t.nbrk.set i (js.foldl (scanStep fun j => candidate len lim pen i j (t.cost.getD j 0))
          (t.cost.getD i 0, t.nbrk.getD i 0)).2⟩ := by
  induction js generalizing t with
  | nil =>
    simp only [List.foldl_nil]
    rw [set_getD_self _ _ _ hc, set_getD_self _ _ _ hb]
  | cons x xs ih =>
    simp only [List.foldl_cons]
    have hx : x ≠ i := hjs x (List.mem_cons_self _ _)
    have hxs : ∀ j ∈ xs, j ≠ i := fun j hj => hjs j (List.mem_cons_of_mem _ hj)
    by_cases hlt : candidate len lim pen i x (t.cost.getD x 0) < t.cost.getD i 0
    · have e1 : innerStep len lim pen i t x =
          ⟨t.cost.set i (candidate len lim pen i x (t.cost.getD x 0)), t.nbrk.set i x⟩ := by
        unfold innerStep
        exact if_pos hlt
      have e2 : scanStep (fun j => candidate len lim pen i j (t.cost.getD j 0))
          (t.cost.getD i 0, t.nbrk.getD i 0) x =
          (candidate len lim pen i x (t.cost.getD x 0), x) := by
        unfold scanStep
        exact if_pos hlt
      rw [e1, e2, ih _ (by simpa using hc) (by simpa using hb) hxs]
      simp only [List.set_set]
      rw [getD_set _ _ _ _ _ hc, getD_set _ _ _ _ _ hb]
      simp only [if_true]
      rw [scan_congr _ (fun j => candidate len lim pen i j (t.cost.getD j 0)) xs]
      intro j hj
      rw [getD_set _ _ _ _ _ hc]
      simp [hxs j hj]
    · have e1 : innerStep len lim pen i t x = t := by
        unfold innerStep
        exact if_neg hlt
      have e2 : scanStep (fun j => candidate len lim pen i j (t.cost.getD j 0))
          (t.cost.getD i 0, t.nbrk.getD i 0) x = (t.cost.getD i 0, t.nbrk.getD i 0) := by
        unfold scanStep
        exact if_neg hlt
      rw [e1, e2, ih _ hc hb hxs]

/-! ## The outer loop -/

theorem tablesFrom_self (len : Nat → Nat → Int) (lim pen : Int) (n : Nat) :
    tablesFrom len lim pen n n = ⟨List.replicate n MaxInt32, List.replicate n 0⟩ := by
  simp [tablesFrom]

theorem tablesFrom_step (len : Nat → Nat → Int) (lim pen : Int) (n m : Nat) (h : m < n) :
    tablesFrom len lim pen n m = outerStep len lim pen n (tablesFrom len lim pen n (m + 1)) m := by
  unfold tablesFrom
  have e : n - m = (n - (m + 1)) + 1 := by omega
  rw [e, List.range'_succ, List.reverse_cons, List.foldl_append]
  rfl

theorem fillTables_eq (len : Nat → Nat → Int) (lim pen : Int) (n : Nat) :
    fillTables len lim pen n = tablesFrom len lim pen n 0 := by
  simp [fillTables, tablesFrom, List.range_eq_range']

theorem Entry_congr (len : Nat → Nat → Int) (lim pen : Int) (n : Nat) (c c2 : Nat → Int)
    (b b2 : Nat → Nat) (k : Nat) (hc : ∀ j, k ≤ j → c2 j = c j) (hb : b2 k = b k)
    (h : Entry len lim pen n c b k) : Entry len lim pen n c2 b2 k := by
  unfold Entry at h ⊢
  rw [hc k (le_refl _), hb]
  refine ⟨h.1, fun hn => ?_⟩
  obtain ⟨h1, h2, h3⟩ := h.2 hn
  refine ⟨h1, ?_, ?_⟩
  · intro j hkj hjn
    rw [hc j (le_of_lt hkj)]
    exact h2 j hkj hjn
  · rcases h3 with h3 | ⟨j, hkj, hjn, e1, e2, e3, e4⟩
    · exact Or.inl h3
    · right
      refine ⟨j, hkj, hjn, e1, ?_, e3, ?_⟩
      · rw [hc j (le_of_lt hkj)]
        exact e2
      · intro j2 h1 h2
        rw [hc j2 (le_of_lt h1)]
        exact e4 j2 h1 h2

theorem outerStep_spec (len : Nat → Nat → Int) (lim pen : Int) (n m : Nat) (t : Tables)
    (hm : m < n) (hc : t.cost.length = n) (hb : t.nbrk.length = n)
    (h0 : costAt t m = MaxInt32) (h1 : nbrkAt t m = 0) :
    (outerStep len lim pen n t m).cost.length = n ∧
    (outerStep len lim pen n t m).nbrk.length = n ∧
    (∀ k, k ≠ m → costAt (outerStep len lim pen n t m) k = costAt t k ∧
      nbrkAt (outerStep len lim pen n t m) k = nbrkAt t k) ∧
    Entry len lim pen n (costAt (outerStep len lim pen n t m))
      (nbrkAt (outerStep len lim pen n t m)) m := by
  have hcm : m < t.cost.length := by omega
  have hbm : m < t.nbrk.length := by omega
  by_cases hfit : len m (n - 1) ≤ lim
  · have e : outerStep len lim pen n t m = ⟨t.cost.set m 0, t.nbrk.set m n⟩ := by
      unfold outerStep
      exact if_pos hfit
    rw [e]
    refine ⟨by simpa using hc, by simpa using hb, ?_, ?_⟩
    · intro k hk
      simp only [costAt, nbrkAt]
      rw [getD_set _ _ _ _ _ hcm, getD_set _ _ _ _ _ hbm]
      simp [hk]
    · unfold Entry
      simp only [costAt, nbrkAt]
      rw [getD_set _ _ _ _ _ hcm, getD_set _ _ _ _ _ hbm]
      simp [hfit]
  · have hmem : ∀ j ∈ List.range' (m + 1) (n - (m + 1)), m < j ∧ j < n := by
      intro j hj
      rw [List.mem_range'] at hj
      obtain ⟨i, hi, rfl⟩ := hj
      omega
    have e : outerStep len lim pen n t m =
        (List.range' (m + 1) (n - (m + 1))).foldl (innerStep len lim pen m) t := by
      unfold outerStep
      exact if_neg hfit
    rw [e, innerLoop_eq len lim pen m _ t hcm hbm (fun j hj => by
      have := hmem j hj
      omega)]
    have hsort : (List.range' (m + 1) (n - (m + 1))).Pairwise (· < ·) :=
      List.pairwise_lt_range' _ _
    obtain ⟨s1, s2, s3⟩ := scan_spec (fun j => candidate len lim pen m j (t.cost.getD j 0))
      _ hsort (t.cost.getD m 0, t.nbrk.getD m 0)
    have hother : ∀ (x : Int) (y : Nat) (k : Nat), k ≠ m →
        costAt ⟨t.cost.set m x, t.nbrk.set m y⟩ k = t.cost.getD k 0 := by
      intro x y k hk
      simp only [costAt]
      rw [getD_set _ _ _ _ _ hcm]
      simp [hk]
    refine ⟨by simpa using hc, by simpa using hb, ?_, ?_⟩
    · intro k hk
      simp only [costAt, nbrkAt]
      rw [getD_set _ _ _ _ _ hcm, getD_set _ _ _ _ _ hbm]
      simp [hk]
    · have hcand : ∀ j, m < j → (x : Int) → (y : Nat) →
          candidate len lim pen m j (costAt ⟨t.cost.set m x, t.nbrk.set m y⟩ j) =
          candidate len lim pen m j (t.cost.getD j 0) := by
        intro j hj x y
        rw [hother x y j (by omega)]
      have hinit : t.cost.getD m 0 = MaxInt32 := h0
      have hinit2 : t.nbrk.getD m 0 = 0 := h1
      unfold Entry
      refine ⟨fun hf => absurd hf hfit, fun _ => ?_⟩
      simp only [costAt, nbrkAt] at hcand ⊢
      rw [getD_set _ _ _ _ _ hcm, getD_set _ _ _ _ _ hbm]
      simp only [if_true]
      refine ⟨?_, ?_, ?_⟩
      · rw [← hinit]
        exact s1
      · intro j hmj hjn
        rw [hcand j hmj _ 0]
        apply s2
        rw [List.mem_range']
        exact ⟨j - (m + 1), by omega, by omega⟩
      · rcases s3 with s3 | ⟨j, hj, e1, e2, e3⟩
        · left
          rw [s3]
          exact ⟨hinit, hinit2⟩
        · right
          obtain ⟨hmj, hjn⟩ := hmem j hj
          refine ⟨j, hmj, hjn, ?_, ?_, ?_, ?_⟩
          · rw [e1]
          · rw [hcand j hmj _ 0, e1]
          · rw [e1]
            rw [← hinit]
            exact e2
          · intro j2 h2 h3
            rw [hcand j2 h2 _ 0, e1]
            apply e3 j2 _ h3
            rw [List.mem_range']
            exact ⟨j2 - (m + 1), by omega, by omega⟩

theorem tablesFrom_inv (len : Nat → Nat → Int) (lim pen : Int) (n : Nat) :
    ∀ d m, m + d = n →
      (tablesFrom len lim pen n m).cost.length = n ∧
      (tablesFrom len lim pen n m).nbrk.length = n ∧
      (∀ k, k < m → costAt (tablesFrom len lim pen n m) k = MaxInt32 ∧
        nbrkAt (tablesFrom len lim pen n m) k = 0) ∧
      (∀ k, m ≤ k → k < n →
        Entry len lim pen n (costAt (tablesFrom len lim pen n m))
          (nbrkAt (tablesFrom len lim pen n m)) k) := by
  intro d
  induction d with
  | zero =>
    intro m hm
    have e : m = n := by omega
    subst e
    rw [tablesFrom_self]
    refine ⟨by simp, by simp, ?_, ?_⟩
    · intro k hk
      simp [costAt, nbrkAt, List.getD_eq_getElem?_getD, List.getElem?_replicate, hk]
    · intro k h1 h2
      omega
  | succ d ih =>
    intro m hm
    have hlt : m < n := by omega
    obtain ⟨i1, i2, i3, i4⟩ := ih (m + 1) (by omega)
    obtain ⟨o1, o2, o3, o4⟩ := outerStep_spec len lim pen n m _ hlt i1 i2
      (i3 m (by omega)).1 (i3 m (by omega)).2
    rw [tablesFrom_step len lim pen n m hlt]
    refine ⟨o1, o2, ?_, ?_⟩
    · intro k hk
      rw [(o3 k (by omega)).1, (o3 k (by omega)).2]
      exact i3 k (by omega)
    · intro k h1 h2
      rcases Nat.eq_or_lt_of_le h1 with rfl | h3
      · exact o4
      · apply Entry_congr len lim pen n _ _ _ _ k _ _ (i4 k h3 h2)
        · intro j hj
          exact (o3 j (by omega)).1
        · exact (o3 k (by omega)).2

/-- Every entry of the tables built by `WrapWords` is as `Entry` describes. -/
theorem fillTables_entry (len : Nat → Nat → Int) (lim pen : Int) (n k : Nat) (hk : k < n) :
    Entry len lim pen n (costAt (fillTables len lim pen n)) (nbrkAt (fillTables len lim pen n))
      k := by
  rw [fillTables_eq]
  exact (tablesFrom_inv len lim pen n n 0 (by omega)).2.2.2 k (Nat.zero_le _) hk

/-! ## Candidate costs without overflow -/

theorem lineError_nonneg (lim pen x : Int) (hpen : 0 ≤ pen) : 0 ≤ lineError lim pen x := by
  unfold lineError
  have h := mul_self_nonneg (lim - x)
  split_ifs <;> omega

theorem candidate_eq (len : Nat → Nat → Int) (lim pen : Int) (n i j : Nat) (cj : Int)
    (ht : Tame len lim pen n) (hij : i < j) (hjn : j < n) (h0 : 0 ≤ cj) (h1 : cj ≤ MaxInt32) :
    candidate len lim pen i j cj = lineError lim pen (len i (j - 1)) + cj := by
  obtain ⟨hp0, hp1, hd⟩ := ht
  obtain ⟨d1, d2⟩ := hd i j hij hjn
  unfold candidate lineError
  unfold MaxInt32 at h1
  have e1 : wrapInt (lim - len i (j - 1)) = lim - len i (j - 1) :=
    wrapInt_eq _ (by omega) (by omega)
  have hsq0 : 0 ≤ (lim - len i (j - 1)) * (lim - len i (j - 1)) := mul_self_nonneg _
  have hsq1 : (lim - len i (j - 1)) * (lim - len i (j - 1)) ≤ 1152921504606846976 := by
    nlinarith
  simp only [e1]
  have e2 : wrapInt ((lim - len i (j - 1)) * (lim - len i (j - 1))) =
      (lim - len i (j - 1)) * (lim - len i (j - 1)) := wrapInt_eq _ (by omega) (by omega)
  rw [e2]
  have e3 : wrapInt ((lim - len i (j - 1)) * (lim - len i (j - 1)) + cj) =
      (lim - len i (j - 1)) * (lim - len i (j - 1)) + cj := wrapInt_eq _ (by omega) (by omega)
  rw [e3]
  split_ifs with h
  · rw [wrapInt_eq _ (by omega) (by omega)]
    ring
  · omega

/-- Under `Tame`, every entry of `cost` lies between `0` and `MaxInt32`. -/
theorem cost_range (len : Nat → Nat → Int) (lim pen : Int) (n : Nat)
    (ht : Tame len lim pen n) :
    ∀ d k, k + d = n → k < n →
      0 ≤ costAt (fillTables len lim pen n) k ∧
        costAt (fillTables len lim pen n) k ≤ MaxInt32 := by
  intro d
  induction d using Nat.strong_induction_on with
  | _ d ih =>
    intro k hkd hk
    have he := fillTables_entry len lim pen n k hk
    by_cases hfit : len k (n - 1) ≤ lim
    · rw [(he.1 hfit).1]
      exact ⟨le_refl _, by decide⟩
    · obtain ⟨h1, _, h3⟩ := he.2 hfit
      refine ⟨?_, h1⟩
      rcases h3 with ⟨h3, _⟩ | ⟨j, hkj, hjn, _, e2, _, _⟩
      · rw [h3]
        decide
      · obtain ⟨c0, c1⟩ := ih (n - j) (by omega) j (by omega) hjn
        rw [e2, candidate_eq len lim pen n k j _ ht hkj hjn c0 c1]
        have := lineError_nonneg lim pen (len k (j - 1)) ht.1
        omega

/-! ## Slices and natural widths -/

theorem lineWidth_eq_sum (width : Str → Int) (spc : Int) (l : List Str) (h : l ≠ []) :
    lineWidth width spc l = (l.map fun v => spc + width v).sum - spc := by
  cases l with
  | nil => exact absurd rfl h
  | cons w rest =>
    simp only [lineWidth, List.map_cons, List.sum_cons]
    ring

theorem lineWidth_snoc (width : Str → Int) (spc : Int) (l : List Str) (v : Str) (h : l ≠ []) :
    lineWidth width spc (l ++ [v]) = lineWidth width spc l + spc + width v := by
  rw [lineWidth_eq_sum _ _ _ (by simp), lineWidth_eq_sum _ _ _ h]
  simp only [List.map_append, List.sum_append, List.map_cons, List.map_nil, List.sum_cons,
    List.sum_nil]
  ring

theorem slice_length (words : List Str) (i j : Nat) (hj : j ≤ words.length) :
    (slice words i j).length = j - i := by
  simp only [slice, List.length_take, List.length_drop]
  omega

theorem slice_one (words : List Str) (i : Nat) (hi : i < words.length) :
    slice words i (i + 1) = [words.getD i []] := by
  unfold slice
  rw [List.drop_eq_getElem_cons hi]
  have e : i + 1 - i = 1 := by omega
  rw [e, List.take_succ_cons, List.take_zero]
  simp [List.getD_eq_getElem?_getD, List.getElem?_eq_getElem hi]

theorem slice_succ (words : List Str) (i j : Nat) (hij : i ≤ j) (hj : j < words.length) :
    slice words i (j + 1) = slice words i j ++ [words.getD j []] := by
  unfold slice
  have e : j + 1 - i = (j - i) + 1 := by omega
  rw [e, List.take_succ]
  congr 1
  have e2 : i + (j - i) = j := by omega
  simp [List.getD_eq_getElem?_getD, List.getElem?_eq_getElem hj, List.getElem?_drop, e2]

theorem slice_ne_nil (words : List Str) (i j : Nat) (hij : i < j) (hj : j ≤ words.length) :
    slice words i j ≠ [] := by
  intro h
  have := slice_length words i j hj
  rw [h] at this
  simp at this
  omega

theorem slice_append_drop (words : List Str) (i j : Nat) (hij : i ≤ j) :
    slice words i j ++ words.drop j = words.drop i := by
  unfold slice
  have e : words.drop j = (words.drop i).drop (j - i) := by
    rw [List.drop_drop]
    congr 1
    omega
  rw [e, List.take_append_drop]

/-- Within range, the table entry `length[i][j]` is the natural width of the
words `i .. j`. -/
theorem length_eq_lineWidth (width : Str → Int) (words : List Str) (spc : Int)
    (hr : WidthsInRange width words spc) (i : Nat) :
    ∀ k, i + k < words.length →
      lengthFrom width words spc i k = lineWidth width spc (slice words i (i + k + 1)) := by
  intro k
  induction k with
  | zero =>
    intro hk
    simp only [lengthFrom, Nat.add_zero]
    rw [slice_one words i (by omega)]
    simp [lineWidth]
  | succ k ih =>
    intro hk
    have e := slice_succ words i (i + k + 1) (by omega) (by omega)
    have hne : slice words i (i + k + 1) ≠ [] := slice_ne_nil words i _ (by omega) (by omega)
    have hw := lineWidth_snoc width spc _ (words.getD (i + k + 1) []) hne
    have r1 := hr i (i + k) (by omega) (by omega)
    have r2 := hr i (i + k + 1) (by omega) (by omega)
    have r3 := hr (i + k + 1) (i + k + 1) (le_refl _) (by omega)
    rw [slice_one words (i + k + 1) (by omega)] at r3
    simp only [lineWidth, List.map_nil, List.sum_nil, add_zero] at r3
    rw [e, hw] at r2
    simp only [lengthFrom]
    rw [ih (by omega)]
    have e3 : i + (k + 1) + 1 = i + k + 1 + 1 := by omega
    rw [e3, e, hw]
    have w1 : wrapInt (lineWidth width spc (slice words i (i + k + 1)) + spc) =
        lineWidth width spc (slice words i (i + k + 1)) + spc :=
      wrapInt_eq _ (by omega) (by omega)
    rw [w1, wrapInt_eq _ (by omega) (by omega)]

theorem length_eq (width : Str → Int) (words : List Str) (spc : Int)
    (hr : WidthsInRange width words spc) (i j : Nat) (hij : i ≤ j) (hj : j < words.length) :
    length width words spc i j = lineWidth width spc (slice words i (j + 1)) := by
  unfold length
  rw [if_pos hij, length_eq_lineWidth width words spc hr i (j - i) (by omega)]
  have e : i + (j - i) + 1 = j + 1 := by omega
  rw [e]

/-! ## The reconstruction loop -/

theorem collect_stuck (words : List Str) (nbrk : List Nat) (h0 : 0 < words.length)
    (hn : nbrk.getD 0 0 = 0) (fuel : Nat) (lines : List (List Str)) :
    collect words nbrk fuel 0 lines = Outcome.outOfFuel := by
  induction fuel generalizing lines with
  | zero => simp [collect, h0]
  | succ f ih => 
    rw [collect]
    simp only [h0, if_true, hn]
    simp [ih]

theorem collect_chain (words : List Str) (nbrk : List Nat) (i : Nat) (R : List (List Str))
    (hc : Chain words (fun k => nbrk.getD k 0) i R) :
    ∀ fuel, R.length ≤ fuel → ∀ lines,
      collect words nbrk fuel i lines = Outcome.done (lines ++ R) := by
  induction hc with
  | stop i h =>
    intro fuel _ lines
    unfold collect
    simp [not_lt.mpr h]
  | line i R h h1 h2 _ ih =>
    intro fuel hf lines
    cases fuel with
    | zero => simp at hf
    | succ f =>
      rw [collect]
      simp only [h, if_true]
      have hno : ¬ (nbrk.getD i 0 < i ∨ words.length < nbrk.getD i 0) := by
        simp only [not_or, not_lt]
        exact ⟨le_of_lt h1, h2⟩
      simp only [hno, if_false]
      rw [ih f (by simpa using hf)]
      simp

theorem chain_partition (words : List Str) (b : Nat → Nat) (i : Nat) (R : List (List Str))
    (hc : Chain words b i R) (hi : i ≤ words.length) :
    R.flatten = words.drop i ∧ (∀ l ∈ R, l ≠ []) ∧ R.length + i ≤ words.length := by
  induction hc with
  | stop i h =>
    have e : i = words.length := by omega
    subst e
    simp
  | line i R h h1 h2 _ ih =>
    obtain ⟨i1, i2, i3⟩ := ih h2
    refine ⟨?_, ?_, ?_⟩
    · rw [List.flatten_cons, i1]
      exact slice_append_drop words i _ (le_of_lt h1)
    · intro l hl
      rcases List.mem_cons.mp hl with rfl | hl
      · exact slice_ne_nil words i _ h1 h2
      · exact i2 l hl
    · simp only [List.length_cons]
      omega

theorem chain_at_end (words : List Str) (b : Nat → Nat) (i : Nat) (R : List (List Str))
    (hc : Chain words b i R) (hi : words.length ≤ i) : R = [] := by
  cases hc with
  | stop _ _ => rfl
  | line _ _ h _ _ _ => omega

theorem chain_before_end (words : List Str) (b : Nat → Nat) (i : Nat) (R : List (List Str))
    (hc : Chain words b i R) (hi : i < words.length) : R ≠ [] := by
  cases hc with
  | stop _ h => omega
  | line _ _ _ _ _ _ => simp

/-! ## The tables of `WrapWords`, within range -/

/-- A `cost[i]` below `MaxInt32` starts a chain of breaks that reaches the end of
the words. -/
theorem chain_exists (len : Nat → Nat → Int) (lim pen : Int) (words : List Str)
    (ht : Tame len lim pen words.length) :
    ∀ d i, i + d = words.length →
      (i < words.length → costAt (fillTables len lim pen words.length) i < MaxInt32) →
      ∃ R, Chain words (nbrkAt (fillTables len lim pen words.length)) i R := by
  intro d
  induction d using Nat.strong_induction_on with
  | _ d ih =>
    intro i hid hcost
    by_cases hi : i < words.length
    · have he := fillTables_entry len lim pen words.length i hi
      by_cases hfit : len i (words.length - 1) ≤ lim
      · obtain ⟨_, e2⟩ := he.1 hfit
        refine ⟨[slice words i (nbrkAt (fillTables len lim pen words.length) i)], ?_⟩
        apply Chain.line i [] hi (by omega) (by omega)
        rw [e2]
        exact Chain.stop _ (le_refl _)
      · obtain ⟨_, _, h3⟩ := he.2 hfit
        rcases h3 with ⟨h3, _⟩ | ⟨j, hij, hjn, e1, e2, e3, _⟩
        · exact absurd (hcost hi) (by rw [h3]; exact lt_irrefl _)
        · obtain ⟨c0, c1⟩ := cost_range len lim pen words.length ht (words.length - j) j
            (by omega) hjn
          rw [candidate_eq len lim pen words.length i j _ ht hij hjn c0 c1] at e2
          have hle := lineError_nonneg lim pen (len i (j - 1)) ht.1
          obtain ⟨R, hR⟩ := ih (words.length - j) (by omega) j (by omega) (fun _ => by omega)
          refine ⟨slice words i (nbrkAt (fillTables len lim pen words.length) i) :: R, ?_⟩
          apply Chain.line i R hi (by omega) (by omega)
          rw [e1]
          exact hR
    · exact ⟨[], Chain.stop _ (by omega)⟩

theorem raggedness_nonneg (width : Str → Int) (spc lim pen : Int) (hpen : 0 ≤ pen)
    (P : List (List Str)) : 0 ≤ raggedness width spc lim pen P := by
  unfold raggedness
  apply List.sum_nonneg
  intro x hx
  obtain ⟨l, _, rfl⟩ := List.mem_map.mp hx
  exact lineError_nonneg _ _ _ hpen

theorem raggedness_dropLast_cons (width : Str → Int) (spc lim pen : Int) (l : List Str)
    (P : List (List Str)) (hP : P ≠ []) :
    raggedness width spc lim pen (l :: P).dropLast =
      lineError lim pen (lineWidth width spc l) + raggedness width spc lim pen P.dropLast := by
  rw [List.dropLast_cons_of_ne_nil hP]
  simp [raggedness]

theorem lastFits_cons (width : Str → Int) (spc lim : Int) (l : List Str)
    (P : List (List Str)) (hP : P ≠ []) :
    LastFits width spc lim (l :: P) ↔ LastFits width spc lim P := by
  unfold LastFits
  obtain ⟨x, xs, rfl⟩ := List.exists_cons_of_ne_nil hP
  rw [List.getLast?_cons_cons]

theorem lastFits_single (width : Str → Int) (spc lim : Int) (l : List Str) :
    LastFits width spc lim [l] ↔ lineWidth width spc l ≤ lim := by
  simp [LastFits]

/-- Along a chain of breaks, the final line fits and the errors of the other lines
add up to `cost[i]`. -/
theorem chain_cost (width : Str → Int) (words : List Str) (spc lim pen : Int)
    (hr : WidthsInRange width words spc)
    (ht : Tame (length width words spc) lim pen words.length) (i : Nat) (R : List (List Str))
    (hc : Chain words
      (nbrkAt (fillTables (length width words spc) lim pen words.length)) i R) :
    i < words.length →
      LastFits width spc lim R ∧
      raggedness width spc lim pen R.dropLast =
        costAt (fillTables (length width words spc) lim pen words.length) i := by
  induction hc with
  | stop i h =>
    intro hi
    omega
  | line i R h h1 h2 hR ih =>
    intro _
    have he := fillTables_entry (length width words spc) lim pen words.length i h
    by_cases hfit : length width words spc i (words.length - 1) ≤ lim
    · obtain ⟨e1, e2⟩ := he.1 hfit
      rw [e2] at hR ⊢
      have hnil := chain_at_end words _ _ R hR (le_refl _)
      subst hnil
      rw [length_eq width words spc hr i _ (by omega) (by omega)] at hfit
      have e : words.length - 1 + 1 = words.length := by omega
      rw [e] at hfit
      rw [lastFits_single, e1]
      exact ⟨hfit, by simp [raggedness]⟩
    · obtain ⟨_, _, h3⟩ := he.2 hfit
      rcases h3 with ⟨_, h3⟩ | ⟨j, hij, hjn, e1, e2, _, _⟩
      · omega
      · rw [e1] at hR ih ⊢
        have hne := chain_before_end words _ _ R hR hjn
        obtain ⟨f1, f2⟩ := ih hjn
        obtain ⟨c0, c1⟩ := cost_range (length width words spc) lim pen words.length ht
          (words.length - j) j (by omega) hjn
        rw [candidate_eq _ lim pen words.length i j _ ht hij hjn c0 c1,
          length_eq width words spc hr i _ (by omega) (by omega)] at e2
        have e : j - 1 + 1 = j := by omega
        rw [e] at e2
        rw [lastFits_cons _ _ _ _ _ hne, raggedness_dropLast_cons _ _ _ _ _ _ hne, f2, e2]
        exact ⟨f1, rfl⟩

/-- No partition of the words from `i` on whose final line fits costs less than
`cost[i]`, unless it costs `MaxInt32` or more. -/
theorem cost_le_partition (width : Str → Int) (words : List Str) (spc lim pen : Int)
    (hr : WidthsInRange width words spc)
    (ht : Tame (length width words spc) lim pen words.length) (P : List (List Str)) :
    ∀ i, i < words.length → P.flatten = words.drop i → (∀ l ∈ P, l ≠ []) →
      LastFits width spc lim P → raggedness width spc lim pen P.dropLast < MaxInt32 →
      costAt (fillTables (length width words spc) lim pen words.length) i ≤
        raggedness width spc lim pen P.dropLast := by
  induction P with
  | nil =>
    intro i hi hflat _ _ _
    have h1 : (words.drop i).length = 0 := by rw [← hflat]; rfl
    rw [List.length_drop] at h1
    omega
  | cons l P ih =>
    intro i hi hflat hne hfits hlt
    have hl : l ≠ [] := hne l (List.mem_cons_self _ _)
    have hlpos : 0 < l.length := List.length_pos.mpr hl
    rw [List.flatten_cons] at hflat
    have hlen : l.length + P.flatten.length + i = words.length := by
      have := congrArg List.length hflat
      rw [List.length_append, List.length_drop] at this
      omega
    have hslice : slice words i (i + l.length) = l := by
      unfold slice
      rw [← hflat]
      have e : i + l.length - i = l.length := by omega
      rw [e, List.take_left]
    have hrest : P.flatten = words.drop (i + l.length) := by
      have e : words.drop (i + l.length) = (words.drop i).drop l.length := by
        rw [List.drop_drop]
      rw [e, ← hflat, List.drop_left]
    have he := fillTables_entry (length width words spc) lim pen words.length i hi
    by_cases hfit : length width words spc i (words.length - 1) ≤ lim
    · rw [(he.1 hfit).1]
      exact raggedness_nonneg _ _ _ _ ht.1 _
    · obtain ⟨_, h2, _⟩ := he.2 hfit
      by_cases hP : P = []
      · subst hP
        exfalso
        apply hfit
        rw [length_eq width words spc hr i _ (by omega) (by omega)]
        have e : words.length - 1 + 1 = i + l.length := by
          simp at hlen
          omega
        rw [e, hslice]
        exact (lastFits_single _ _ _ _).mp hfits
      · have hjn : i + l.length < words.length := by
          have h1 : P.flatten ≠ [] := by
            obtain ⟨x, xs, rfl⟩ := List.exists_cons_of_ne_nil hP
            have hx : x ≠ [] := hne x (by simp)
            simp [hx]
          have h2 : 0 < P.flatten.length := List.length_pos.mpr h1
          omega
        rw [raggedness_dropLast_cons _ _ _ _ _ _ hP] at hlt ⊢
        have n1 := lineError_nonneg lim pen (lineWidth width spc l) ht.1
        have n2 := raggedness_nonneg width spc lim pen ht.1 P.dropLast
        have hih := ih (i + l.length) hjn hrest
          (fun x hx => hne x (List.mem_cons_of_mem _ hx))
          ((lastFits_cons _ _ _ _ _ hP).mp hfits) (by omega)
        obtain ⟨c0, c1⟩ := cost_range (length width words spc) lim pen words.length ht
          (words.length - (i + l.length)) (i + l.length) (by omega) hjn
        have hc := h2 (i + l.length) (by omega) hjn
        rw [candidate_eq _ lim pen words.length i _ _ ht (by omega) hjn c0 c1,
          length_eq width words spc hr i _ (by omega) (by omega)] at hc
        have e : i + l.length - 1 + 1 = i + l.length := by omega
        rw [e, hslice] at hc
        omega

theorem mem_slice (words : List Str) (i j : Nat) (w : Str) (h : w ∈ slice words i j) :
    w ∈ words :=
  List.mem_of_mem_drop (List.mem_of_mem_take h)

theorem spaced_sum_nonneg (width : Str → Int) (spc : Int) (l : List Str)
    (hw : ∀ w ∈ l, 0 ≤ width w) (hspc : 0 ≤ spc) :
    0 ≤ (l.map fun v => spc + width v).sum := by
  apply List.sum_nonneg
  intro x hx
  obtain ⟨v, hv, rfl⟩ := List.mem_map.mp hx
  have := hw v hv
  omega

theorem lineWidth_nonneg (width : Str → Int) (spc : Int) (l : List Str)
    (hw : ∀ w ∈ l, 0 ≤ width w) (hspc : 0 ≤ spc) : 0 ≤ lineWidth width spc l := by
  cases l with
  | nil => simp [lineWidth]
  | cons w rest =>
    simp only [lineWidth]
    have h1 := hw w (List.mem_cons_self _ _)
    have h2 := spaced_sum_nonneg width spc rest
      (fun v hv => hw v (List.mem_cons_of_mem _ hv)) hspc
    omega

theorem slice_width_le (width : Str → Int) (words : List Str) (spc : Int)
    (hw : ∀ w ∈ words, 0 ≤ width w) (hspc : 0 ≤ spc) (i j : Nat) (hij : i < j)
    (hj : j ≤ words.length) :
    lineWidth width spc (slice words i j) ≤ lineWidth width spc words := by
  have hsplit : words = words.take i ++ (slice words i j ++ words.drop j) := by
    rw [slice_append_drop words i j (le_of_lt hij), List.take_append_drop]
  have hne : slice words i j ≠ [] := slice_ne_nil words i j hij hj
  have hwne : words ≠ [] := by
    intro h
    rw [h] at hj
    simp at hj
    omega
  rw [lineWidth_eq_sum _ _ _ hne, lineWidth_eq_sum _ _ _ hwne]
  have h1 := spaced_sum_nonneg width spc (words.take i)
    (fun v hv => hw v (List.mem_of_mem_take hv)) hspc
  have h2 := spaced_sum_nonneg width spc (words.drop j)
    (fun v hv => hw v (List.mem_of_mem_drop hv)) hspc
  have h3 : (words.map fun v => spc + width v).sum =
      ((words.take i).map fun v => spc + width v).sum +
        (((slice words i j).map fun v => spc + width v).sum +
          ((words.drop j).map fun v => spc + width v).sum) := by
    conv_lhs => rw [hsplit]
    simp only [List.map_append, List.sum_append]
  omega

/-- Non-negative widths and spacing, a limit between `0` and `2^30`, a total width
of at most `2^30` and a penalty between `0` and `2^62` keep all the arithmetic of
`WrapWords` inside the 64-bit range. -/
theorem ranges_of_nonneg (width : Str → Int) (words : List Str) (spc lim pen : Int)
    (hw : ∀ w ∈ words, 0 ≤ width w) (hspc : 0 ≤ spc) (hlim0 : 0 ≤ lim)
    (hlim : lim ≤ 1073741824) (htot : lineWidth width spc words ≤ 1073741824)
    (hpen0 : 0 ≤ pen) (hpen : pen < 4611686018427387904) :
    WidthsInRange width words spc ∧ Tame (length width words spc) lim pen words.length := by
  have hr : WidthsInRange width words spc := by
    intro i j hij hj
    have h1 := lineWidth_nonneg width spc (slice words i (j + 1))
      (fun w h => hw w (mem_slice words i (j + 1) w h)) hspc
    have h2 := slice_width_le width words spc hw hspc i (j + 1) (by omega) (by omega)
    omega
  refine ⟨hr, hpen0, hpen, ?_⟩
  intro i j hij hjn
  rw [length_eq width words spc hr i (j - 1) (by omega) (by omega)]
  have h1 := lineWidth_nonneg width spc (slice words i (j - 1 + 1))
    (fun w h => hw w (mem_slice words i (j - 1 + 1) w h)) hspc
  have h2 := slice_width_le width words spc hw hspc i (j - 1 + 1) (by omega) (by omega)
  omega

/-- Within range, if some partition whose final line fits costs less than
`MaxInt32`, `WrapWords` returns a partition whose final line fits and whose cost,
the errors of all lines but the final one, is the least possible. -/
theorem wrapWords_optimal (width : Str → Int) (words : List Str) (spc lim pen : Int)
    (hr : WidthsInRange width words spc)
    (ht : Tame (length width words spc) lim pen words.length)
    (P0 : List (List Str)) (hP0 : IsPartition words P0) (hfit0 : LastFits width spc lim P0)
    (hcost0 : raggedness width spc lim pen P0.dropLast < MaxInt32) :
    ∃ R, (∀ fuel, words.length ≤ fuel →
        WrapWords width fuel words spc lim pen = Outcome.done R) ∧
      IsPartition words R ∧ LastFits width spc lim R ∧
      ∀ P, IsPartition words P → LastFits width spc lim P →
        raggedness width spc lim pen R.dropLast ≤ raggedness width spc lim pen P.dropLast := by
  have hlow : ∀ P, IsPartition words P → LastFits width spc lim P → 0 < words.length →
      raggedness width spc lim pen P.dropLast < MaxInt32 →
      costAt (fillTables (length width words spc) lim pen words.length) 0 ≤
        raggedness width spc lim pen P.dropLast := by
    intro P hP hfit hn hlt
    exact cost_le_partition width words spc lim pen hr ht P 0 hn (by simpa using hP.1) hP.2
      hfit hlt
  have hc0 : 0 < words.length →
      costAt (fillTables (length width words spc) lim pen words.length) 0 < MaxInt32 :=
    fun hn => lt_of_le_of_lt (hlow P0 hP0 hfit0 hn hcost0) hcost0
  obtain ⟨R, hR⟩ := chain_exists (length width words spc) lim pen words ht words.length 0
    (by omega) hc0
  obtain ⟨p1, p2, p3⟩ := chain_partition words _ 0 R hR (Nat.zero_le _)
  refine ⟨R, ?_, ⟨by simpa using p1, p2⟩, ?_, ?_⟩
  · intro fuel hf
    unfold WrapWords
    have := collect_chain words _ 0 R hR fuel (by omega) []
    simpa using this
  · by_cases hn : 0 < words.length
    · exact (chain_cost width words spc lim pen hr ht 0 R hR hn).1
    · rw [chain_at_end words _ 0 R hR (by omega)]
      simp [LastFits]
  · intro P hP hfit
    by_cases hn : 0 < words.length
    · rw [(chain_cost width words spc lim pen hr ht 0 R hR hn).2]
      by_cases hlt : raggedness width spc lim pen P.dropLast < MaxInt32
      · exact hlow P hP hfit hn hlt
      · exact le_of_lt (lt_of_lt_of_le (hc0 hn) (not_lt.mp hlt))
    · rw [chain_at_end words _ 0 R hR (by omega)]
      exact raggedness_nonneg _ _ _ _ ht.1 _

/-! ## When the penalty dominates -/

theorem length_diag (width : Str → Int) (words : List Str) (spc : Int) (k : Nat) :
    length width words spc k k = width (words.getD k []) := by
  simp [length, lengthFrom]

theorem getD_mem (words : List Str) (k : Nat) (hk : k < words.length) :
    words.getD k [] ∈ words := by
  rw [List.getD_eq_getElem?_getD, List.getElem?_eq_getElem hk]
  exact List.getElem_mem hk

/-- When every word fits, `cost[k]` is at most the cost of one word per line. -/
theorem cost_le_one_per_line (width : Str → Int) (words : List Str) (spc lim pen : Int)
    (ht : Tame (length width words spc) lim pen words.length)
    (hw : ∀ w ∈ words, 0 ≤ width w ∧ width w ≤ lim) :
    ∀ d k, k + d + 1 = words.length →
      costAt (fillTables (length width words spc) lim pen words.length) k ≤
        (d : Int) * (lim * lim) := by
  intro d
  induction d with
  | zero =>
    intro k hk
    have he := fillTables_entry (length width words spc) lim pen words.length k (by omega)
    have hfit : length width words spc k (words.length - 1) ≤ lim := by
      have e : words.length - 1 = k := by omega
      rw [e, length_diag]
      exact (hw _ (getD_mem words k (by omega))).2
    rw [(he.1 hfit).1]
    simp
  | succ d ih =>
    intro k hk
    have he := fillTables_entry (length width words spc) lim pen words.length k (by omega)
    have hsq : 0 ≤ lim * lim := mul_self_nonneg lim
    by_cases hfit : length width words spc k (words.length - 1) ≤ lim
    · rw [(he.1 hfit).1]
      push_cast
      nlinarith
    · obtain ⟨_, h2, _⟩ := he.2 hfit
      have hc := h2 (k + 1) (by omega) (by omega)
      obtain ⟨c0, c1⟩ := cost_range (length width words spc) lim pen words.length ht
        (words.length - (k + 1)) (k + 1) (by omega) (by omega)
      rw [candidate_eq _ lim pen words.length k _ _ ht (by omega) (by omega) c0 c1] at hc
      have e : k + 1 - 1 = k := by omega
      rw [e, length_diag] at hc
      obtain ⟨w0, w1⟩ := hw _ (getD_mem words k (by omega))
      have hi := ih (k + 1) (by omega)
      have herr : lineError lim pen (width (words.getD k [])) ≤ lim * lim := by
        unfold lineError
        rw [if_neg (by omega)]
        nlinarith
      push_cast
      nlinarith

/-- When every word fits and the penalty exceeds the cost of one word per line,
no line of a chain of breaks is wider than the limit. -/
theorem chain_fits (width : Str → Int) (words : List Str) (spc lim pen : Int)
    (hr : WidthsInRange width words spc)
    (ht : Tame (length width words spc) lim pen words.length)
    (hw : ∀ w ∈ words, 0 ≤ width w ∧ width w ≤ lim)
    (hdom : ((words.length : Int) - 1) * (lim * lim) < pen) (i : Nat) (R : List (List Str))
    (hc : Chain words
      (nbrkAt (fillTables (length width words spc) lim pen words.length)) i R) :
    ∀ l ∈ R, lineWidth width spc l ≤ lim := by
  induction hc with
  | stop i h => simp
  | line i R h h1 h2 hR ih =>
    intro l hl
    rcases List.mem_cons.mp hl with rfl | hl
    · have he := fillTables_entry (length width words spc) lim pen words.length i h
      by_cases hfit : length width words spc i (words.length - 1) ≤ lim
      · rw [(he.1 hfit).2]
        rw [length_eq width words spc hr i _ (by omega) (by omega)] at hfit
        have e : words.length - 1 + 1 = words.length := by omega
        rw [e] at hfit
        exact hfit
      · obtain ⟨_, _, h3⟩ := he.2 hfit
        rcases h3 with ⟨_, h3⟩ | ⟨j, hij, hjn, e1, e2, _, _⟩
        · omega
        · rw [e1]
          obtain ⟨c0, c1⟩ := cost_range (length width words spc) lim pen words.length ht
            (words.length - j) j (by omega) hjn
          rw [candidate_eq _ lim pen words.length i j _ ht hij hjn c0 c1,
            length_eq width words spc hr i _ (by omega) (by omega)] at e2
          have e : j - 1 + 1 = j := by omega
          rw [e] at e2
          by_contra hover
          have hup := cost_le_one_per_line width words spc lim pen ht hw
            (words.length - 1 - i) i (by omega)
          have hsq : 0 ≤ lim * lim := mul_self_nonneg lim
          have hsq2 := mul_self_nonneg (lim - lineWidth width spc (slice words i j))
          have hcast : ((words.length - 1 - i : Nat) : Int) ≤ (words.length : Int) - 1 := by
            omega
          have hmul : ((words.length - 1 - i : Nat) : Int) * (lim * lim) ≤
              ((words.length : Int) - 1) * (lim * lim) :=
            mul_le_mul_of_nonneg_right hcast hsq
          unfold lineError at e2
          rw [if_pos (by omega)] at e2
          omega
    · exact ih l hl

/-- When every word fits, the penalty exceeds the cost of one word per line and
that cost is below `MaxInt32`, `WrapWords` returns a partition of the words none
of whose lines is wider than the limit. -/
theorem wrapWords_fit (width : Str → Int) (words : List Str) (spc lim pen : Int)
    (hw : ∀ w ∈ words, 0 ≤ width w ∧ width w ≤ lim) (hspc : 0 ≤ spc)
    (hlim : lim ≤ 1073741824) (htot : lineWidth width spc words ≤ 1073741824)
    (hpen : pen < 4611686018427387904)
    (hdom : ((words.length : Int) - 1) * (lim * lim) < pen)
    (hmax : ((words.length : Int) - 1) * (lim * lim) < MaxInt32) :
    ∃ R, (∀ fuel, words.length ≤ fuel →
        WrapWords width fuel words spc lim pen = Outcome.done R) ∧
      IsPartition words R ∧ ∀ l ∈ R, lineWidth width spc l ≤ lim := by
  cases hwords : words with
  | nil =>
    refine ⟨[], ?_, ⟨rfl, by simp⟩, by simp⟩
    intro fuel _
    unfold WrapWords collect
    simp
  | cons w0 rest =>
    rw [← hwords]
    have hn : 0 < words.length := by rw [hwords]; simp
    have hw0 : w0 ∈ words := by rw [hwords]; simp
    have hlim0 : 0 ≤ lim := le_trans (hw w0 hw0).1 (hw w0 hw0).2
    have hsq : 0 ≤ lim * lim := mul_self_nonneg lim
    have hpen0 : 0 ≤ pen := by
      have h1 : (0 : Int) ≤ (words.length : Int) - 1 := by omega
      have h2 := mul_nonneg h1 hsq
      omega
    obtain ⟨hr, ht⟩ := ranges_of_nonneg width words spc lim pen (fun w h => (hw w h).1) hspc
      hlim0 hlim htot hpen0 hpen
    have hc0 := cost_le_one_per_line width words spc lim pen ht hw (words.length - 1) 0
      (by omega)
    have hcast : ((words.length - 1 : Nat) : Int) = (words.length : Int) - 1 := by omega
    rw [hcast] at hc0
    obtain ⟨R, hR⟩ := chain_exists (length width words spc) lim pen words ht words.length 0
      (by omega) (fun _ => lt_of_le_of_lt hc0 hmax)
    obtain ⟨p1, p2, p3⟩ := chain_partition words _ 0 R hR (Nat.zero_le _)
    refine ⟨R, ?_, ⟨by simpa using p1, p2⟩, ?_⟩
    · intro fuel hf
      unfold WrapWords
      have := collect_chain words _ 0 R hR fuel (by omega) []
      simpa using this
    · exact chain_fits width words spc lim pen hr ht hw hdom 0 R hR

/-! ## The effective limit and the rendering of a line -/

theorem raiseLimit_spec (width : Str → Int) (words : List Str) :
    ∀ lim, lim ≤ raiseLimit width words lim ∧
      (∀ w ∈ words, width w ≤ raiseLimit width words lim) ∧
      (raiseLimit width words lim = lim ∨ ∃ w ∈ words, raiseLimit width words lim = width w) := by
  induction words with
  | nil =>
    intro lim
    simp [raiseLimit]
  | cons v vs ih =>
    intro lim
    have e : raiseLimit width (v :: vs) lim =
        raiseLimit width vs (if width v > lim then width v else lim) := rfl
    rw [e]
    by_cases hv : width v > lim
    · rw [if_pos hv]
      obtain ⟨h1, h2, h3⟩ := ih (width v)
      refine ⟨by omega, ?_, ?_⟩
      · intro w hw
        rcases List.mem_cons.mp hw with rfl | hw
        · exact h1
        · exact h2 w hw
      · rcases h3 with h3 | ⟨w, hw, h3⟩
        · exact Or.inr ⟨v, List.mem_cons_self _ _, h3⟩
        · exact Or.inr ⟨w, List.mem_cons_of_mem _ hw, h3⟩
    · rw [if_neg hv]
      obtain ⟨h1, h2, h3⟩ := ih lim
      refine ⟨h1, ?_, ?_⟩
      · intro w hw
        rcases List.mem_cons.mp hw with rfl | hw
        · omega
        · exact h2 w hw
      · rcases h3 with h3 | ⟨w, hw, h3⟩
        · exact Or.inl h3
        · exact Or.inr ⟨w, List.mem_cons_of_mem _ hw, h3⟩

theorem raiseLimit_eq_max (width : Str → Int) (words : List Str) :
    ∀ lim, raiseLimit width words lim = (words.map width).foldl max lim := by
  induction words with
  | nil =>
    intro lim
    rfl
  | cons v vs ih =>
    intro lim
    have e : raiseLimit width (v :: vs) lim =
        raiseLimit width vs (if width v > lim then width v else lim) := rfl
    rw [e, ih, List.map_cons, List.foldl_cons]
    congr 1
    split_ifs with h
    · exact (max_eq_right (le_of_lt h)).symm
    · exact (max_eq_left (not_lt.mp h)).symm

theorem WrapString_done (width : Str → Int) (isHan : Char → Bool) (fuel : Nat) (s : Str)
    (lim : Int) (R : List (List Str))
    (h : WrapWords width fuel (tokenize isHan s) 1 (raiseLimit width (tokenize isHan s) lim)
      defaultPenalty = Outcome.done R) :
    WrapString width isHan fuel s lim =
      Outcome.done (R.map (renderLine isHan), raiseLimit width (tokenize isHan s) lim) := by
  unfold WrapString
  simp only [h]

theorem WrapString_done_inv (width : Str → Int) (isHan : Char → Bool) (fuel : Nat) (s : Str)
    (lim : Int) (lines : List Str) (L : Int)
    (h : WrapString width isHan fuel s lim = Outcome.done (lines, L)) :
    L = raiseLimit width (tokenize isHan s) lim ∧
      ∃ R, WrapWords width fuel (tokenize isHan s) 1 (raiseLimit width (tokenize isHan s) lim)
          defaultPenalty = Outcome.done R ∧ lines = R.map (renderLine isHan) := by
  unfold WrapString at h
  cases hw : WrapWords width fuel (tokenize isHan s) 1
      (raiseLimit width (tokenize isHan s) lim) defaultPenalty with
  | done R =>
    simp only [hw] at h
    injection h with h
    injection h with h1 h2
    exact ⟨h2.symm, R, rfl, h1.symm⟩
  | outOfRange =>
    simp only [hw] at h
    exact Outcome.noConfusion h
  | outOfFuel =>
    simp only [hw] at h
    exact Outcome.noConfusion h

theorem width_nil (width : Str → Int) (hadd : ∀ a b, width (a ++ b) = width a + width b) :
    width [] = 0 := by
  have := hadd [] []
  simp at this
  omega

theorem width_flatten (width : Str → Int) (hadd : ∀ a b, width (a ++ b) = width a + width b)
    (L : List Str) : width L.flatten = (L.map width).sum := by
  induction L with
  | nil => simpa using width_nil width hadd
  | cons x xs ih => simp [hadd, ih]

theorem width_renderWord_le (width : Str → Int) (isHan : Char → Bool)
    (hadd : ∀ a b, width (a ++ b) = width a + width b) (hsp : width [' '] = 1) (w : Str) :
    width (renderWord isHan w) ≤ 1 + width w := by
  unfold renderWord
  by_cases h0 : w.length = 0
  · have e : w = [] := List.length_eq_zero.mp h0
    subst e
    simp [hsp, width_nil width hadd]
  · simp only [h0, if_false]
    split_ifs
    · rw [hadd, hsp]
      omega
    · omega

theorem width_renderLine_le (width : Str → Int) (isHan : Char → Bool)
    (hadd : ∀ a b, width (a ++ b) = width a + width b) (hsp : width [' '] = 1)
    (line : List Str) (hne : line ≠ []) :
    width (renderLine isHan line) ≤ lineWidth width 1 line + 1 := by
  unfold renderLine
  rw [width_flatten width hadd, lineWidth_eq_sum width 1 line hne, List.map_map]
  have h : ∀ l : List Str, ((l.map (width ∘ renderWord isHan)).sum : Int) ≤
      (l.map fun v => 1 + width v).sum := by
    intro l
    induction l with
    | nil => simp
    | cons x xs ih =>
      simp only [List.map_cons, List.sum_cons, Function.comp]
      have := width_renderWord_le width isHan hadd hsp x
      simp only [Function.comp] at ih
      omega
  have := h line
  omega

/-! ## The tokenizer -/

theorem segStep_nil (isHan : Char → Bool) (r : Char) :
    segStep isHan [] r = if isHan r then [[r], []] else [[r]] := by
  unfold segStep
  split_ifs <;> simp

theorem segStep_snoc (isHan : Char → Bool) (init : List Str) (last : Str) (r : Char) :
    segStep isHan (init ++ [last]) r =
      if isHan r then (if last ≠ [] then init ++ [last] ++ [[r]] else init ++ [[r]]) ++ [[]]
      else init ++ [last ++ [r]] := by
  have hn : (init ++ [last]).length - 1 = init.length := by simp
  have hget : (init ++ [last]).getD init.length [] = last := by
    simp [List.getD_eq_getElem?_getD]
  have hset : ∀ x : Str, (init ++ [last]).set init.length x = init ++ [x] := by
    intro x
    simp
  have hlen : (init ++ [last]).length ≠ 0 := by simp
  unfold segStep
  simp only [hn, hget, hset, hlen, false_or, if_false]

theorem tokenize_eq (isHan : Char → Bool) (s : Str) :
    tokenize isHan s = ((segments isHan s).map fun str => splitSp (replaceNl str)).flatten := by
  unfold tokenize
  have h : ∀ (l : List Str) (acc : List Str),
      l.foldl (fun words str => words ++ splitSp (replaceNl str)) acc =
        acc ++ (l.map fun str => splitSp (replaceNl str)).flatten := by
    intro l
    induction l with
    | nil => simp
    | cons x xs ih =>
      intro acc
      simp [ih]
  simpa using h (segments isHan s) []

/-- A text without Han runes stays in one piece. -/
theorem fold_noHan (isHan : Char → Bool) (s : Str) (h : ∀ c ∈ s, isHan c = false) :
    s.foldl (segStep isHan) [] = if s = [] then [] else [s] := by
  induction s using List.reverseRecOn with
  | nil => simp
  | append_singleton s r ih =>
    have hs : ∀ c ∈ s, isHan c = false := fun c hc => h c (List.mem_append_left _ hc)
    have hr : isHan r = false := h r (by simp)
    rw [List.foldl_append, ih hs]
    simp only [List.foldl_cons, List.foldl_nil]
    by_cases he : s = []
    · subst he
      simp [segStep_nil, hr]
    · simp only [he, if_false]
      have := segStep_snoc isHan [] s r
      simp only [List.nil_append] at this
      rw [this]
      simp [hr]

theorem segments_noHan (isHan : Char → Bool) (s : Str) (h : ∀ c ∈ s, isHan c = false)
    (hne : s ≠ []) : segments isHan s = [s] := by
  unfold segments
  rw [fold_noHan isHan s h]
  simp [hne]

theorem tokenize_noHan (isHan : Char → Bool) (s : Str) (h : ∀ c ∈ s, isHan c = false)
    (hne : s ≠ []) : tokenize isHan s = splitSp (replaceNl s) := by
  rw [tokenize_eq, segments_noHan isHan s h hne]
  simp

theorem splitSp_ne_nil (s : Str) : splitSp s ≠ [] := by
  induction s with
  | nil => simp [splitSp]
  | cons c cs ih =>
    unfold splitSp
    split_ifs
    · simp
    · cases h : splitSp cs with
      | nil => exact absurd h ih
      | cons w ws => simp

theorem splitSp_noSp (u : Str) (hu : ∀ c ∈ u, c ≠ ' ') : splitSp u = [u] := by
  induction u with
  | nil => rfl
  | cons c cs ih =>
    have hc : c ≠ ' ' := hu c (List.mem_cons_self _ _)
    unfold splitSp
    rw [if_neg hc, ih (fun x hx => hu x (List.mem_cons_of_mem _ hx))]

theorem splitSp_append_sp (u rest : Str) (hu : ∀ c ∈ u, c ≠ ' ') :
    splitSp (u ++ ' ' :: rest) = u :: splitSp rest := by
  induction u with
  | nil =>
    simp only [List.nil_append]
    conv_lhs => unfold splitSp
    simp
  | cons c cs ih =>
    have hc : c ≠ ' ' := hu c (List.mem_cons_self _ _)
    simp only [List.cons_append]
    conv_lhs => unfold splitSp
    rw [if_neg hc, ih (fun x hx => hu x (List.mem_cons_of_mem _ hx))]

theorem splitSp_spaces (k : Nat) (v : Str) (hv : ∀ c ∈ v, c ≠ ' ') :
    splitSp (List.replicate k ' ' ++ v) = List.replicate k [] ++ [v] := by
  induction k with
  | zero => simpa using splitSp_noSp v hv
  | succ k ih =>
    have e : List.replicate (k + 1) ' ' ++ v = [] ++ ' ' :: (List.replicate k ' ' ++ v) := by
      simp [List.replicate_succ]
    rw [e, splitSp_append_sp [] _ (by simp), ih]
    simp [List.replicate_succ]

theorem replaceNl_id (u : Str) (hu : ∀ c ∈ u, c ≠ '\n') : replaceNl u = u := by
  unfold replaceNl
  induction u with
  | nil => rfl
  | cons c cs ih =>
    have hc : c ≠ '\n' := hu c (List.mem_cons_self _ _)
    simp only [List.map_cons, if_neg hc]
    rw [ih (fun x hx => hu x (List.mem_cons_of_mem _ hx))]

theorem replaceNl_seps (seps : Str) (h : ∀ c ∈ seps, c = ' ' ∨ c = '\n') :
    replaceNl seps = List.replicate seps.length ' ' := by
  unfold replaceNl
  induction seps with
  | nil => rfl
  | cons c cs ih =>
    have hc := h c (List.mem_cons_self _ _)
    simp only [List.map_cons, List.length_cons, List.replicate_succ]
    rw [ih (fun x hx => h x (List.mem_cons_of_mem _ hx))]
    rcases hc with rfl | rfl <;> simp

theorem replaceNl_append (a b : Str) : replaceNl (a ++ b) = replaceNl a ++ replaceNl b := by
  simp [replaceNl]

/-- The words of a text `u ++ seps ++ v` without Han runes, where `seps` is a run of
spaces and newlines and neither `u` nor `v` holds a space or a newline. -/
theorem tokenize_run (isHan : Char → Bool) (u seps v : Str)
    (hsp : isHan ' ' = false) (hnl : isHan '\n' = false)
    (hu : ∀ c ∈ u, isHan c = false ∧ c ≠ ' ' ∧ c ≠ '\n')
    (hv : ∀ c ∈ v, isHan c = false ∧ c ≠ ' ' ∧ c ≠ '\n')
    (hseps : ∀ c ∈ seps, c = ' ' ∨ c = '\n') (hne : seps ≠ []) :
    tokenize isHan (u ++ seps ++ v) = u :: (List.replicate (seps.length - 1) [] ++ [v]) := by
  have hall : ∀ c ∈ u ++ seps ++ v, isHan c = false := by
    intro c hc
    simp only [List.mem_append] at hc
    rcases hc with (hc | hc) | hc
    · exact (hu c hc).1
    · rcases hseps c hc with rfl | rfl
      · exact hsp
      · exact hnl
    · exact (hv c hc).1
  have hne2 : u ++ seps ++ v ≠ [] := by
    cases seps with
    | nil => exact absurd rfl hne
    | cons x xs => simp
  rw [tokenize_noHan isHan _ hall hne2, replaceNl_append, replaceNl_append,
    replaceNl_id u (fun c hc => (hu c hc).2.2), replaceNl_id v (fun c hc => (hv c hc).2.2),
    replaceNl_seps seps hseps]
  obtain ⟨k, hk⟩ : ∃ k, seps.length = k + 1 := by
    cases seps with
    | nil => exact absurd rfl hne
    | cons x xs => exact ⟨xs.length, rfl⟩
  rw [hk]
  have e : u ++ List.replicate (k + 1) ' ' ++ v = u ++ ' ' :: (List.replicate k ' ' ++ v) := by
    simp [List.replicate_succ]
  rw [e, splitSp_append_sp u _ (fun c hc => (hu c hc).2.1),
    splitSp_spaces k v (fun c hc => (hv c hc).2.1)]
  simp

/-! ## A word too long for the sentinel -/

theorem length_congr (width width2 : Str → Int) (words words2 : List Str) (spc : Int)
    (h : ∀ i, width (words.getD i []) = width2 (words2.getD i [])) :
    length width words spc = length width2 words2 spc := by
  funext i j
  unfold length
  have hk : ∀ k, lengthFrom width words spc i k = lengthFrom width2 words2 spc i k := by
    intro k
    induction k with
    | zero =>
      simp only [lengthFrom]
      exact h i
    | succ k ih =>
      simp only [lengthFrom]
      rw [ih, h]
  rw [hk]

theorem WrapString_outOfFuel (width : Str → Int) (isHan : Char → Bool) (fuel : Nat) (s : Str)
    (lim : Int)
    (h : WrapWords width fuel (tokenize isHan s) 1 (raiseLimit width (tokenize isHan s) lim)
      defaultPenalty = Outcome.outOfFuel) :
    WrapString width isHan fuel s lim = Outcome.outOfFuel := by
  unfold WrapString
  simp only [h]

theorem long_word_tables :
    (fillTables (length (standInWidth 46342) [['a'], ['b']] 1) 46342 100000 2).nbrk.getD 0 0 = 0 := by
  decide

theorem long_word_run (B : Str) (hB : ∀ c ∈ B, c = 'b') (hlen : B.length = 46342)
    (fuel : Nat) :
    WrapString runeCount hanBlock fuel ('a' :: ' ' :: B) 0 = Outcome.outOfFuel := by
  have htok : tokenize hanBlock ('a' :: ' ' :: B) = [['a'], B] := by
    have h := tokenize_run hanBlock ['a'] [' '] B (by decide) (by decide) (by decide)
      (by
        intro c hc
        rw [hB c hc]
        decide)
      (by decide) (by decide)
    simpa using h
  have hwB : runeCount B = 46342 := by
    unfold runeCount
    rw [hlen]
    rfl
  have hlimit : raiseLimit runeCount [['a'], B] 0 = 46342 := by
    have h1 : runeCount ['a'] = 1 := rfl
    simp only [raiseLimit, List.foldl_cons, List.foldl_nil, hwB, h1]
    decide
  have hlen2 : length runeCount [['a'], B] 1 = length (standInWidth 46342) [['a'], ['b']] 1 := by
    apply length_congr
    intro i
    rcases i with _ | _ | i
    · rfl
    · simpa [standInWidth] using hwB
    · simp [standInWidth, runeCount]
  apply WrapString_outOfFuel
  rw [htok, hlimit]
  unfold WrapWords
  apply collect_stuck _ _ (by simp)
  have e : [['a'], B].length = 2 := rfl
  rw [e, hlen2]
  exact long_word_tables

/-! ## Han runes in the tokenizer -/

theorem fold_inv (isHan : Char → Bool) (s : Str) :
    (s.foldl (segStep isHan) []).flatten = s ∧
      (∀ g ∈ s.foldl (segStep isHan) [], HanOrPlain isHan g) ∧
      ∀ c ∈ (s.foldl (segStep isHan) []).getLast?.getD [], isHan c = false := by
  induction s using List.reverseRecOn with
  | nil => simp
  | append_singleton s r ih =>
    obtain ⟨i1, i2, i3⟩ := ih
    rw [List.foldl_append]
    simp only [List.foldl_cons, List.foldl_nil]
    rcases List.eq_nil_or_concat (s.foldl (segStep isHan) []) with hnil | ⟨init, last, hcat⟩
    · rw [hnil] at i1 ⊢
      have hs : s = [] := by simpa using i1.symm
      subst hs
      rw [segStep_nil]
      by_cases hr : isHan r = true
      · rw [if_pos hr]
        refine ⟨by simp, ?_, by simp⟩
        intro g hg
        simp only [List.mem_cons, List.mem_singleton, List.not_mem_nil, or_false] at hg
        rcases hg with rfl | rfl
        · exact Or.inl ⟨r, hr, rfl⟩
        · exact Or.inr (by simp)
      · rw [if_neg hr]
        have hr2 : isHan r = false := by simpa using hr
        refine ⟨by simp, ?_, by simpa using hr2⟩
        intro g hg
        simp only [List.mem_singleton] at hg
        subst hg
        exact Or.inr (by simpa using hr2)
    · rw [List.concat_eq_append] at hcat
      rw [hcat] at i1 i2 i3 ⊢
      have hlast : ∀ c ∈ last, isHan c = false := by simpa using i3
      have hinit : ∀ g ∈ init, HanOrPlain isHan g := fun g hg => i2 g (by simp [hg])
      rw [segStep_snoc]
      simp only [List.flatten_append, List.flatten_cons, List.flatten_nil, List.append_nil]
        at i1
      by_cases hr : isHan r = true
      · rw [if_pos hr]
        by_cases hl : last = []
        · subst hl
          simp only [ne_eq, not_true_eq_false, if_false]
          refine ⟨by simp [← i1], ?_, by simp⟩
          intro g hg
          simp only [List.mem_append, List.mem_singleton] at hg
          rcases hg with (hg | rfl) | rfl
          · exact hinit g hg
          · exact Or.inl ⟨r, hr, rfl⟩
          · exact Or.inr (by simp)
        · simp only [ne_eq, hl, not_false_eq_true, if_true]
          refine ⟨by simp [← i1], ?_, by simp⟩
          intro g hg
          simp only [List.mem_append, List.mem_singleton] at hg
          rcases hg with ((hg | rfl) | rfl) | rfl
          · exact hinit g hg
          · exact Or.inr hlast
          · exact Or.inl ⟨r, hr, rfl⟩
          · exact Or.inr (by simp)
      · rw [if_neg hr]
        have hr2 : isHan r = false := by simpa using hr
        have hplain : ∀ c ∈ last ++ [r], isHan c = false := by
          intro c hc
          rcases List.mem_append.mp hc with hc | hc
          · exact hlast c hc
          · simp only [List.mem_singleton] at hc
            rw [hc]
            exact hr2
        refine ⟨by simp [← i1], ?_, by simpa using hplain⟩
        intro g hg
        simp only [List.mem_append, List.mem_singleton] at hg
        rcases hg with hg | rfl
        · exact hinit g hg
        · exact Or.inr hplain

theorem segments_inv (isHan : Char → Bool) (s : Str) :
    (segments isHan s).flatten = s ∧ ∀ g ∈ segments isHan s, HanOrPlain isHan g := by
  obtain ⟨i1, i2, _⟩ := fold_inv isHan s
  unfold segments
  simp only []
  split_ifs with h
  · obtain ⟨_, h2⟩ := h
    rcases List.eq_nil_or_concat (s.foldl (segStep isHan) []) with hnil | ⟨init, last, hcat⟩
    · rw [hnil] at i1 ⊢
      simpa using i1
    · rw [List.concat_eq_append] at hcat
      rw [hcat] at i1 i2 h2 ⊢
      have hl : last = [] := by
        simpa [List.getD_eq_getElem?_getD] using h2
      subst hl
      refine ⟨by simpa using i1, ?_⟩
      intro g hg
      have hg2 : g ∈ init := by simpa using hg
      exact i2 g (by simp [hg2])
  · exact ⟨i1, i2⟩

theorem mem_splitSp (x : Str) : ∀ w ∈ splitSp x, ∀ c ∈ w, c ∈ x := by
  induction x with
  | nil =>
    intro w hw c hc
    simp only [splitSp, List.mem_singleton] at hw
    subst hw
    exact hc
  | cons a cs ih =>
    intro w hw c hc
    unfold splitSp at hw
    by_cases ha : a = ' '
    · rw [if_pos ha] at hw
      rcases List.mem_cons.mp hw with rfl | hw
      · exact absurd hc (List.not_mem_nil _)
      · exact List.mem_cons_of_mem _ (ih w hw c hc)
    · rw [if_neg ha] at hw
      cases hsp : splitSp cs with
      | nil => exact absurd hsp (splitSp_ne_nil cs)
      | cons v vs =>
        rw [hsp] at hw ih
        rcases List.mem_cons.mp hw with rfl | hw
        · rcases List.mem_cons.mp hc with rfl | hc
          · exact List.mem_cons_self _ _
          · exact List.mem_cons_of_mem _ (ih v (List.mem_cons_self _ _) c hc)
        · exact List.mem_cons_of_mem _ (ih w (List.mem_cons_of_mem _ hw) c hc)

theorem splitSp_flatten (x : Str) :
    (splitSp x).flatten = x.filter fun c => decide (c ≠ ' ') := by
  induction x with
  | nil => rfl
  | cons a cs ih =>
    unfold splitSp
    by_cases ha : a = ' '
    · rw [if_pos ha, List.flatten_cons, ih]
      simp [ha]
    · rw [if_neg ha]
      cases hsp : splitSp cs with
      | nil => exact absurd hsp (splitSp_ne_nil cs)
      | cons v vs =>
        rw [hsp] at ih
        simp only [List.flatten_cons] at ih ⊢
        rw [List.cons_append, ih]
        simp [ha]

theorem replaceNl_filter (g : Str) :
    (replaceNl g).filter (fun c => decide (c ≠ ' ')) =
      g.filter fun c => decide (c ≠ ' ') && decide (c ≠ '\n') := by
  unfold replaceNl
  induction g with
  | nil => rfl
  | cons a cs ih =>
    simp only [List.map_cons]
    by_cases ha : a = '\n'
    · subst ha
      rw [List.filter_cons, List.filter_cons, ih]
      simp
    · by_cases hb : a = ' '
      · subst hb
        rw [List.filter_cons, List.filter_cons, ih]
        simp
      · rw [List.filter_cons, List.filter_cons, ih]
        simp [ha, hb]

theorem mem_replaceNl (g : Str) (c : Char) (hc : c ∈ replaceNl g) : c ∈ g ∨ c = ' ' := by
  unfold replaceNl at hc
  obtain ⟨a, ha, rfl⟩ := List.mem_map.mp hc
  split_ifs
  · exact Or.inr rfl
  · exact Or.inl ha

theorem words_of_plain (isHan : Char → Bool) (hsp : isHan ' ' = false) (g : Str)
    (hg : ∀ c ∈ g, isHan c = false) :
    ∀ w ∈ splitSp (replaceNl g), ∀ c ∈ w, isHan c = false := by
  intro w hw c hc
  rcases mem_replaceNl g c (mem_splitSp _ w hw c hc) with h | h
  · exact hg c h
  · rw [h]
    exact hsp

theorem words_of_han (isHan : Char → Bool) (hsp : isHan ' ' = false)
    (hnl : isHan '\n' = false) (c : Char) (hc : isHan c = true) :
    splitSp (replaceNl [c]) = [[c]] := by
  have h1 : c ≠ ' ' := by
    rintro rfl
    rw [hsp] at hc
    exact Bool.noConfusion hc
  have h2 : c ≠ '\n' := by
    rintro rfl
    rw [hnl] at hc
    exact Bool.noConfusion hc
  rw [replaceNl_id [c] (by simpa using h2)]
  exact splitSp_noSp [c] (by simpa using h1)

/-- The words made from pieces each of which is a single Han rune or free of Han
runes: a word holding a Han rune is that rune alone, the words holding a Han rune
are the Han runes of the text in order, and the words put end to end are the text
without its spaces and newlines. -/
theorem words_of_pieces (isHan : Char → Bool) (hsp : isHan ' ' = false)
    (hnl : isHan '\n' = false) (segs : List Str) (h : ∀ g ∈ segs, HanOrPlain isHan g) :
    (∀ w ∈ (segs.map fun str => splitSp (replaceNl str)).flatten,
        (∃ c ∈ w, isHan c = true) → ∃ c, isHan c = true ∧ w = [c]) ∧
      (segs.map fun str => splitSp (replaceNl str)).flatten.filter (fun w => w.any isHan) =
        (segs.flatten.filter isHan).map (fun c => [c]) ∧
      (segs.map fun str => splitSp (replaceNl str)).flatten.flatten =
        segs.flatten.filter fun c => decide (c ≠ ' ') && decide (c ≠ '\n') := by
  induction segs with
  | nil => simp
  | cons g gs ih =>
    obtain ⟨i1, i2, i3⟩ := ih (fun x hx => h x (List.mem_cons_of_mem _ hx))
    have hg := h g (List.mem_cons_self _ _)
    simp only [List.map_cons, List.flatten_cons, List.filter_append, List.map_append,
      List.flatten_append]
    rw [i2, i3, splitSp_flatten, replaceNl_filter]
    refine ⟨?_, ?_, rfl⟩
    · intro w hw hex
      rcases List.mem_append.mp hw with hw | hw
      · rcases hg with ⟨c, hc, rfl⟩ | hplain
        · rw [words_of_han isHan hsp hnl c hc] at hw
          simp only [List.mem_singleton] at hw
          exact ⟨c, hc, hw⟩
        · obtain ⟨c, hcw, hc⟩ := hex
          rw [words_of_plain isHan hsp g hplain w hw c hcw] at hc
          exact Bool.noConfusion hc
      · exact i1 w hw hex
    · congr 1
      rcases hg with ⟨c, hc, rfl⟩ | hplain
      · rw [words_of_han isHan hsp hnl c hc]
        simp [hc]
      · have e1 : (splitSp (replaceNl g)).filter (fun w => w.any isHan) = [] := by
          rw [List.filter_eq_nil_iff]
          intro w hw
          simp only [List.any_eq_true, not_exists, not_and]
          intro c hcw
          rw [words_of_plain isHan hsp g hplain w hw c hcw]
          simp
        have e2 : g.filter isHan = [] := by
          rw [List.filter_eq_nil_iff]
          intro c hc
          rw [hplain c hc]
          simp
        rw [e1, e2]
        rfl

/-- When the words from the first on fit on one line, `WrapWords` returns that
line alone. -/
theorem wrapWords_one_line (width : Str → Int) (words : List Str) (spc lim pen : Int)
    (hne : words ≠ []) (hfit : length width words spc 0 (words.length - 1) ≤ lim)
    (fuel : Nat) : WrapWords width (fuel + 1) words spc lim pen = Outcome.done [words] := by
  have hn : 0 < words.length := List.length_pos.mpr hne
  have he := fillTables_entry (length width words spc) lim pen words.length 0 hn
  obtain ⟨_, e2⟩ := he.1 hfit
  have hc : Chain words (nbrkAt (fillTables (length width words spc) lim pen words.length)) 0
      [slice words 0 (nbrkAt (fillTables (length width words spc) lim pen words.length) 0)] := by
    apply Chain.line 0 [] hn (by omega) (by omega)
    rw [e2]
    exact Chain.stop _ (le_refl _)
  unfold WrapWords
  have := collect_chain words _ 0 _ hc (fuel + 1) (by simp) []
  rw [e2] at this
  simpa [slice] using this

theorem cellWidth_append (a b : Str) : cellWidth (a ++ b) = cellWidth a + cellWidth b := by
  simp [cellWidth]

theorem cellWidth_nonneg (a : Str) : 0 ≤ cellWidth a := by
  unfold cellWidth
  apply List.sum_nonneg
  intro x hx
  obtain ⟨c, _, rfl⟩ := List.mem_map.mp hx
  split_ifs <;> decide

theorem example_han_tokens (isHan : Char → Bool) (h1 : isHan '你' = true)
    (h2 : isHan '好' = true) (h3 : ∀ c ∈ "world".toList, isHan c = false) :
    tokenize isHan "你好world".toList = ["你".toList, "好".toList, "world".toList] ∧
      renderWord isHan "你".toList = "你".toList ∧
      renderWord isHan "好".toList = "好".toList ∧
      renderWord isHan "world".toList = "world ".toList := by
  have hw : isHan 'w' = false := h3 'w' (by decide)
  have ho : isHan 'o' = false := h3 'o' (by decide)
  have hr : isHan 'r' = false := h3 'r' (by decide)
  have hl : isHan 'l' = false := h3 'l' (by decide)
  have hd : isHan 'd' = false := h3 'd' (by decide)
  refine ⟨?_, ?_, ?_, ?_⟩
  · simp [tokenize, segments, segStep, h1, h2, hw, ho, hr, hl, hd, replaceNl, splitSp]
  · simp [renderWord, h1]
  · simp [renderWord, h2]
  · simp [renderWord, hd]

theorem example_han_run (width : Str → Int) (isHan : Char → Bool) (h1 : isHan '你' = true)
    (h2 : isHan '好' = true) (h3 : ∀ c ∈ "world".toList, isHan c = false)
    (w1 : 0 ≤ width "你".toList) (w2 : 0 ≤ width "好".toList) (w3 : 0 ≤ width "world".toList)
    (w4 : width "你".toList + 1 + width "好".toList + 1 + width "world".toList ≤ 20)
    (fuel : Nat) :
    WrapString width isHan (fuel + 1) "你好world".toList 20 =
      Outcome.done (["你好world ".toList], 20) := by
  obtain ⟨t1, r1, r2, r3⟩ := example_han_tokens isHan h1 h2 h3
  have hlimit : raiseLimit width ["你".toList, "好".toList, "world".toList] 20 = 20 := by
    simp only [raiseLimit, List.foldl_cons, List.foldl_nil]
    rw [if_neg (by omega), if_neg (by omega), if_neg (by omega)]
  have hfit : length width ["你".toList, "好".toList, "world".toList] 1 0
      (["你".toList, "好".toList, "world".toList].length - 1) ≤ 20 := by
    have e : length width ["你".toList, "好".toList, "world".toList] 1 0
        (["你".toList, "好".toList, "world".toList].length - 1) =
        wrapInt (wrapInt (wrapInt (wrapInt (width "你".toList + 1) + width "好".toList) + 1) +
          width "world".toList) := rfl
    rw [e, wrapInt_eq (width "你".toList + 1) (by omega) (by omega),
      wrapInt_eq (width "你".toList + 1 + width "好".toList) (by omega) (by omega),
      wrapInt_eq (width "你".toList + 1 + width "好".toList + 1) (by omega) (by omega),
      wrapInt_eq _ (by omega) (by omega)]
    exact w4
  have hrun := wrapWords_one_line width ["你".toList, "好".toList, "world".toList] 1 20
    defaultPenalty (by simp) hfit fuel
  have h := WrapString_done width isHan (fuel + 1) "你好world".toList 20
    [["你".toList, "好".toList, "world".toList]] (by rw [t1, hlimit]; exact hrun)
  rw [h, t1, hlimit]
  simp only [List.map_cons, List.map_nil, renderLine, r1, r2, r3]
  rfl

/-! ## A wide word next to a narrow one -/

theorem wide_word_tables :
    (fillTables (length (standInWidth 318) [['a'], ['b'], ['c']] 1) 318 100000 3).nbrk =
      [2, 2, 3] := by
  decide

theorem wide_word_run (B : Str) (hlen : B.length = 318) (fuel : Nat) :
    WrapWords runeCount (fuel + 2) [['a'], B, ['c']] 1 318 100000 =
      Outcome.done [[['a'], B], [['c']]] := by
  have hwB : runeCount B = 318 := by
    unfold runeCount
    rw [hlen]
    rfl
  have hlen2 : length runeCount [['a'], B, ['c']] 1 =
      length (standInWidth 318) [['a'], ['b'], ['c']] 1 := by
    apply length_congr
    intro i
    rcases i with _ | _ | _ | i
    · rfl
    · simpa [standInWidth] using hwB
    · rfl
    · simp [standInWidth, runeCount]
  unfold WrapWords
  have e : [['a'], B, ['c']].length = 3 := rfl
  rw [e, hlen2]
  simp only []
  rw [wide_word_tables]
  simp only [collect, slice]
  unfold collect
  simp

/-! ## Words and their rendering -/

theorem renderWord_eq_spec (isHan : Char → Bool) (word : Str) :
    renderWord isHan word = renderBySpec isHan word := by
  rcases List.eq_nil_or_concat word with hnil | ⟨init, c, hcat⟩
  · subst hnil
    rfl
  · rw [List.concat_eq_append] at hcat
    subst hcat
    have hlen : (init ++ [c]).length - 1 = init.length := by simp
    have hget : (init ++ [c]).getD init.length ' ' = c := by
      simp [List.getD_eq_getElem?_getD]
    have hpos : (init ++ [c]).length > 0 := by simp
    have hne : (init ++ [c]).length ≠ 0 := by simp
    unfold renderWord renderBySpec
    simp only [hlen, hget, hpos, hne, true_and, if_false, List.getLast?_append,
      List.getLast?_singleton]
    cases hc : isHan c <;> simp [hc]

theorem splitSp_no_space (x : Str) : ∀ w ∈ splitSp x, ' ' ∉ w := by
  induction x with
  | nil =>
    intro w hw
    simp only [splitSp, List.mem_singleton] at hw
    subst hw
    simp
  | cons a cs ih =>
    intro w hw
    unfold splitSp at hw
    by_cases ha : a = ' '
    · rw [if_pos ha] at hw
      rcases List.mem_cons.mp hw with rfl | hw
      · simp
      · exact ih w hw
    · rw [if_neg ha] at hw
      cases hsp : splitSp cs with
      | nil => exact absurd hsp (splitSp_ne_nil cs)
      | cons v vs =>
        rw [hsp] at hw ih
        rcases List.mem_cons.mp hw with rfl | hw
        · intro hmem
          rcases List.mem_cons.mp hmem with h | h
          · exact ha h.symm
          · exact ih v (List.mem_cons_self _ _) h
        · exact ih w (List.mem_cons_of_mem _ hw)

theorem replaceNl_no_newline (g : Str) : '\n' ∉ replaceNl g := by
  unfold replaceNl
  intro h
  obtain ⟨a, _, ha⟩ := List.mem_map.mp h
  by_cases hn : a = '\n'
  · rw [if_pos hn] at ha
    revert ha
    decide
  · rw [if_neg hn] at ha
    exact hn ha

theorem mem_tokenize (isHan : Char → Bool) (s : Str) (w : Str) (hw : w ∈ tokenize isHan s) :
    ∃ g ∈ segments isHan s, w ∈ splitSp (replaceNl g) := by
  rw [tokenize_eq] at hw
  obtain ⟨l, hl, hwl⟩ := List.mem_flatten.mp hw
  obtain ⟨g, hg, rfl⟩ := List.mem_map.mp hl
  exact ⟨g, hg, hwl⟩

/-! ## The first of the cheapest breaks -/

theorem collect_step (words : List Str) (nbrk : List Nat) (i : Nat) (hi : i < words.length)
    (h1 : i ≤ nbrk.getD i 0) (h2 : nbrk.getD i 0 ≤ words.length) (fuel : Nat)
    (lines : List (List Str)) :
    collect words nbrk (fuel + 1) i lines =
      collect words nbrk fuel (nbrk.getD i 0) (lines ++ [slice words i (nbrk.getD i 0)]) := by
  rw [collect]
  simp only [hi, if_true]
  have hno : ¬ (nbrk.getD i 0 < i ∨ words.length < nbrk.getD i 0) := by
    simp only [not_or, not_lt]
    exact ⟨h1, h2⟩
  simp only [hno, if_false]

/-- When the words from `i` on do not fit on one line and some candidate break
costs less than `MaxInt32`, `nbrk[i]` is the first break whose candidate cost is
the least, and `cost[i]` is that cost. -/
theorem earliest_break (len : Nat → Nat → Int) (lim pen : Int) (n i j1 : Nat)
    (hnofit : ¬ len i (n - 1) ≤ lim) (hij : i < j1) (hjn : j1 < n)
    (hc : candidate len lim pen i j1 (costAt (fillTables len lim pen n) j1) < MaxInt32) :
    i < nbrkAt (fillTables len lim pen n) i ∧ nbrkAt (fillTables len lim pen n) i < n ∧
      costAt (fillTables len lim pen n) i =
        candidate len lim pen i (nbrkAt (fillTables len lim pen n) i)
          (costAt (fillTables len lim pen n) (nbrkAt (fillTables len lim pen n) i)) ∧
      (∀ j, i < j → j < n → costAt (fillTables len lim pen n) i ≤
        candidate len lim pen i j (costAt (fillTables len lim pen n) j)) ∧
      (∀ j, i < j → j < nbrkAt (fillTables len lim pen n) i →
        costAt (fillTables len lim pen n) i <
          candidate len lim pen i j (costAt (fillTables len lim pen n) j)) := by
  have he := fillTables_entry len lim pen n i (by omega)
  obtain ⟨_, h2, h3⟩ := he.2 hnofit
  rcases h3 with ⟨h3, _⟩ | ⟨j, hj1, hj2, e1, e2, _, e4⟩
  · have := h2 j1 hij hjn
    rw [h3] at this
    exact absurd hc (not_lt.mpr this)
  · rw [e1]
    exact ⟨hj1, hj2, e2, h2, e4⟩

/-! ## When every word fits and one word per line stays below the sentinel -/

theorem wrapInt_range (x : Int) :
    -9223372036854775808 ≤ wrapInt x ∧ wrapInt x < 9223372036854775808 := by
  unfold wrapInt
  have h1 := Int.emod_nonneg (x + 9223372036854775808)
    (by decide : (18446744073709551616 : Int) ≠ 0)
  have h2 := Int.emod_lt_of_pos (x + 9223372036854775808)
    (by decide : (0 : Int) < 18446744073709551616)
  omega

theorem candidate_lower (len : Nat → Nat → Int) (lim pen : Int) (i j : Nat) (cj : Int) :
    -9223372036854775808 ≤ candidate len lim pen i j cj := by
  unfold candidate
  simp only []
  split_ifs
  · exact (wrapInt_range _).1
  · exact (wrapInt_range _).1

theorem cost_lower (len : Nat → Nat → Int) (lim pen : Int) (n k : Nat) (hk : k < n) :
    -9223372036854775808 ≤ costAt (fillTables len lim pen n) k := by
  have he := fillTables_entry len lim pen n k hk
  by_cases hfit : len k (n - 1) ≤ lim
  · rw [(he.1 hfit).1]
    decide
  · obtain ⟨_, _, h3⟩ := he.2 hfit
    rcases h3 with ⟨h3, _⟩ | ⟨j, _, _, _, e2, _, _⟩
    · rw [h3]
      decide
    · rw [e2]
      exact candidate_lower _ _ _ _ _ _

/-- When every word fits and one word per line costs less than `MaxInt32`,
`cost[k]` is at most the cost of one word per line, whatever the spacing and the
penalty. -/
theorem cost_le_single_words (width : Str → Int) (words : List Str) (spc lim pen : Int)
    (hw : ∀ w ∈ words, 0 ≤ width w ∧ width w ≤ lim)
    (hb : ((words.length : Int) - 1) * (lim * lim) < MaxInt32) :
    ∀ d k, k + d + 1 = words.length →
      costAt (fillTables (length width words spc) lim pen words.length) k ≤
        (d : Int) * (lim * lim) := by
  intro d
  induction d with
  | zero =>
    intro k hk
    have he := fillTables_entry (length width words spc) lim pen words.length k (by omega)
    have hfit : length width words spc k (words.length - 1) ≤ lim := by
      have e : words.length - 1 = k := by omega
      rw [e, length_diag]
      exact (hw _ (getD_mem words k (by omega))).2
    rw [(he.1 hfit).1]
    simp
  | succ d ih =>
    intro k hk
    have he := fillTables_entry (length width words spc) lim pen words.length k (by omega)
    have hsq : 0 ≤ lim * lim := mul_self_nonneg lim
    by_cases hfit : length width words spc k (words.length - 1) ≤ lim
    · rw [(he.1 hfit).1]
      push_cast
      nlinarith
    · obtain ⟨_, h2, _⟩ := he.2 hfit
      have hc := h2 (k + 1) (by omega) (by omega)
      obtain ⟨w0, w1⟩ := hw _ (getD_mem words k (by omega))
      have hi := ih (k + 1) (by omega)
      have hlow := cost_lower (length width words spc) lim pen words.length (k + 1) (by omega)
      have hlim0 : 0 ≤ lim := le_trans w0 w1
      have hcast : ((d : Int) + 1) ≤ (words.length : Int) - 1 := by omega
      have hmul : ((d : Int) + 1) * (lim * lim) ≤ ((words.length : Int) - 1) * (lim * lim) :=
        mul_le_mul_of_nonneg_right hcast hsq
      have hd0 : (0 : Int) ≤ (d : Int) := Int.natCast_nonneg d
      have hdl : 0 ≤ (d : Int) * (lim * lim) := mul_nonneg hd0 hsq
      have hll : lim * lim < 2147483647 := by
        unfold MaxInt32 at hb
        nlinarith
      have hlim1 : lim < 2147483647 := by nlinarith
      have hsq2 : (lim - width (words.getD k [])) * (lim - width (words.getD k [])) ≤
          lim * lim := by nlinarith
      have hsq3 : 0 ≤ (lim - width (words.getD k [])) * (lim - width (words.getD k [])) :=
        mul_self_nonneg _
      have e : k + 1 - 1 = k := by omega
      unfold candidate at hc
      simp only [e, length_diag] at hc
      rw [if_neg (by omega)] at hc
      rw [wrapInt_eq (lim - width (words.getD k [])) (by omega) (by omega)] at hc
      rw [wrapInt_eq ((lim - width (words.getD k [])) * (lim - width (words.getD k [])))
        (by omega) (by omega)] at hc
      unfold MaxInt32 at hb
      rw [wrapInt_eq _ (by omega) (by nlinarith)] at hc
      push_cast
      nlinarith

/-- When every entry of `cost` is below `MaxInt32`, the breaks lead from any word
to the end of the words. -/
theorem chain_total (len : Nat → Nat → Int) (lim pen : Int) (words : List Str)
    (hall : ∀ k, k < words.length →
      costAt (fillTables len lim pen words.length) k < MaxInt32) :
    ∀ d i, i + d = words.length →
      ∃ R, Chain words (nbrkAt (fillTables len lim pen words.length)) i R := by
  intro d
  induction d using Nat.strong_induction_on with
  | _ d ih =>
    intro i hid
    by_cases hi : i < words.length
    · have he := fillTables_entry len lim pen words.length i hi
      by_cases hfit : len i (words.length - 1) ≤ lim
      · obtain ⟨_, e2⟩ := he.1 hfit
        refine ⟨[slice words i (nbrkAt (fillTables len lim pen words.length) i)], ?_⟩
        apply Chain.line i [] hi (by omega) (by omega)
        rw [e2]
        exact Chain.stop _ (le_refl _)
      · obtain ⟨_, _, h3⟩ := he.2 hfit
        rcases h3 with ⟨h3, _⟩ | ⟨j, hij, hjn, e1, _, _, _⟩
        · exact absurd (hall i hi) (by rw [h3]; exact lt_irrefl _)
        · obtain ⟨R, hR⟩ := ih (words.length - j) (by omega) j (by omega)
          refine ⟨slice words i (nbrkAt (fillTables len lim pen words.length) i) :: R, ?_⟩
          apply Chain.line i R hi (by omega) (by omega)
          rw [e1]
          exact hR
    · exact ⟨[], Chain.stop _ (by omega)⟩

/-- When every word fits and one word per line costs less than `MaxInt32`,
`WrapWords` returns the lines found by following `nbrk` from the first word, and
they are a partition of the words. -/
theorem wrapWords_structure (width : Str → Int) (words : List Str) (spc lim pen : Int)
    (hw : ∀ w ∈ words, 0 ≤ width w ∧ width w ≤ lim)
    (hb : ((words.length : Int) - 1) * (lim * lim) < MaxInt32) :
    ∃ R, (∀ fuel, words.length ≤ fuel →
        WrapWords width fuel words spc lim pen = Outcome.done R) ∧
      Chain words (nbrkAt (fillTables (length width words spc) lim pen words.length)) 0 R ∧
      IsPartition words R := by
  have hall : ∀ k, k < words.length →
      costAt (fillTables (length width words spc) lim pen words.length) k < MaxInt32 := by
    intro k hk
    have h1 := cost_le_single_words width words spc lim pen hw hb (words.length - 1 - k) k
      (by omega)
    have hsq : 0 ≤ lim * lim := mul_self_nonneg lim
    have hcast : ((words.length - 1 - k : Nat) : Int) ≤ (words.length : Int) - 1 := by omega
    have hmul : ((words.length - 1 - k : Nat) : Int) * (lim * lim) ≤
        ((words.length : Int) - 1) * (lim * lim) := mul_le_mul_of_nonneg_right hcast hsq
    omega
  obtain ⟨R, hR⟩ := chain_total (length width words spc) lim pen words hall words.length 0
    (by omega)
  obtain ⟨p1, p2, p3⟩ := chain_partition words _ 0 R hR (Nat.zero_le _)
  refine ⟨R, ?_, hR, ⟨by simpa using p1, p2⟩⟩
  intro fuel hf
  unfold WrapWords
  have := collect_chain words _ 0 R hR fuel (by omega) []
  simpa using this

/-! ## The lines put end to end -/

theorem slice_all (words : List Str) : slice words 0 words.length = words := by
  simp [slice]

theorem length_total (width : Str → Int) (words : List Str) (spc : Int)
    (hr : WidthsInRange width words spc) (hne : words ≠ []) :
    length width words spc 0 (words.length - 1) = lineWidth width spc words := by
  have hn : 0 < words.length := List.length_pos.mpr hne
  rw [length_eq width words spc hr 0 _ (Nat.zero_le _) (by omega)]
  have e : words.length - 1 + 1 = words.length := by omega
  rw [e, slice_all]

theorem flatten_map_flatten {α β : Type} (f : α → List β) (R : List (List α)) :
    (R.map fun l => (l.map f).flatten).flatten = (R.flatten.map f).flatten := by
  induction R with
  | nil => rfl
  | cons l R ih => simp [ih]

theorem splitSp_spaced (x : Str) :
    ((splitSp x).map fun w => w ++ [' ']).flatten = x ++ [' '] := by
  induction x with
  | nil => rfl
  | cons a cs ih =>
    unfold splitSp
    by_cases ha : a = ' '
    · rw [if_pos ha, List.map_cons, List.flatten_cons, ih, ha]
      rfl
    · rw [if_neg ha]
      cases hsp : splitSp cs with
      | nil => exact absurd hsp (splitSp_ne_nil cs)
      | cons v vs =>
        rw [hsp] at ih
        simp only [List.map_cons, List.flatten_cons] at ih ⊢
        rw [List.cons_append, List.cons_append, List.cons_append, ih]

theorem renderWord_plain (isHan : Char → Bool) (w : Str) (hw : ∀ c ∈ w, isHan c = false) :
    renderWord isHan w = w ++ [' '] := by
  rw [renderWord_eq_spec]
  unfold renderBySpec
  cases hl : w.getLast? with
  | none =>
    have : w = [] := List.getLast?_eq_none_iff.mp hl
    subst this
    rfl
  | some c =>
    have hc : c ∈ w := List.mem_of_getLast?_eq_some hl
    simp [hw c hc]

theorem words_plain (isHan : Char → Bool) (s : Str) (hs : s ≠ [])
    (hplain : ∀ c ∈ s, isHan c = false) :
    ∀ w ∈ tokenize isHan s, ∀ c ∈ w, isHan c = false := by
  intro w hw c hc
  rw [tokenize_noHan isHan s hplain hs] at hw
  rcases mem_replaceNl s c (mem_splitSp _ w hw c hc) with h | h
  · exact hplain c h
  · rw [h] at hc
    exact absurd hc (splitSp_no_space _ w hw)

/-- With non-negative widths and spacing and a total natural width within the
range of an `int`, the first row of the table `length` holds the natural widths
exactly. -/
theorem length_row_of_nonneg (width : Str → Int) (words : List Str) (spc : Int)
    (hw : ∀ w ∈ words, 0 ≤ width w) (hspc : 0 ≤ spc)
    (htot : lineWidth width spc words < 9223372036854775808) :
    ∀ k, k < words.length →
      lengthFrom width words spc 0 k = lineWidth width spc (slice words 0 (k + 1)) := by
  intro k
  induction k with
  | zero =>
    intro hk
    simp only [lengthFrom]
    rw [slice_one words 0 hk]
    simp [lineWidth]
  | succ k ih =>
    intro hk
    have e := slice_succ words 0 (k + 1) (Nat.zero_le _) hk
    have hne : slice words 0 (k + 1) ≠ [] := slice_ne_nil words 0 _ (by omega) (by omega)
    have hsn := lineWidth_snoc width spc _ (words.getD (k + 1) []) hne
    have h0 := lineWidth_nonneg width spc (slice words 0 (k + 1))
      (fun w h => hw w (mem_slice words 0 (k + 1) w h)) hspc
    have h1 := slice_width_le width words spc hw hspc 0 (k + 1 + 1) (by omega) (by omega)
    have h2 := hw _ (getD_mem words (k + 1) hk)
    rw [e, hsn] at h1
    simp only [lengthFrom, Nat.zero_add]
    rw [ih (by omega), e, hsn]
    have w1 : wrapInt (lineWidth width spc (slice words 0 (k + 1)) + spc) =
        lineWidth width spc (slice words 0 (k + 1)) + spc :=
      wrapInt_eq _ (by omega) (by omega)
    rw [w1, wrapInt_eq _ (by omega) (by omega)]

theorem length_total_of_nonneg (width : Str → Int) (words : List Str) (spc : Int)
    (hw : ∀ w ∈ words, 0 ≤ width w) (hspc : 0 ≤ spc)
    (htot : lineWidth width spc words < 9223372036854775808) (hne : words ≠ []) :
    length width words spc 0 (words.length - 1) = lineWidth width spc words := by
  have hn : 0 < words.length := List.length_pos.mpr hne
  unfold length
  rw [if_pos (Nat.zero_le _), Nat.sub_zero,
    length_row_of_nonneg width words spc hw hspc htot _ (by omega)]
  have e : words.length - 1 + 1 = words.length := by omega
  rw [e, slice_all]

/-- The lines rendered from a partition of the words of a text without Han runes,
put end to end, are the text with a space for each newline, and one more space. -/
theorem rendered_partition (isHan : Char → Bool) (s : Str) (hs : s ≠ [])
    (hplain : ∀ c ∈ s, isHan c = false) (R : List (List Str))
    (hR : IsPartition (tokenize isHan s) R) :
    (R.map (renderLine isHan)).flatten = replaceNl s ++ [' '] := by
  have h1 : (R.map (renderLine isHan)).flatten =
      ((tokenize isHan s).map (renderWord isHan)).flatten := by
    have := flatten_map_flatten (renderWord isHan) R
    rw [hR.1] at this
    exact this
  have h2 : (tokenize isHan s).map (renderWord isHan) =
      (tokenize isHan s).map fun w => w ++ [' '] := by
    apply List.map_congr_left
    intro w hw
    exact renderWord_plain isHan w (words_plain isHan s hs hplain w hw)
  rw [h1, h2, tokenize_noHan isHan s hplain hs]
  exact splitSp_spaced _

/-! ## A limit whose square does not fit in an `int` -/

theorem square_overflow_tables :
    (fillTables (length (standInWidth 4294967294) [['a'], ['b'], ['c']] 1) 4294967297 100000
      3).nbrk = [1, 3, 3] := by
  decide

theorem square_overflow_run (B : Str) (hlen : B.length = 4294967294) (fuel : Nat) :
    WrapWords runeCount (fuel + 2) [['a'], B, ['c']] 1 4294967297 100000 =
      Outcome.done [[['a']], [B, ['c']]] := by
  have hwB : runeCount B = 4294967294 := by
    unfold runeCount
    rw [hlen]
    rfl
  have hlen2 : length runeCount [['a'], B, ['c']] 1 =
      length (standInWidth 4294967294) [['a'], ['b'], ['c']] 1 := by
    apply length_congr
    intro i
    rcases i with _ | _ | _ | i
    · rfl
    · simpa [standInWidth] using hwB
    · rfl
    · simp [standInWidth, runeCount]
  unfold WrapWords
  have e : [['a'], B, ['c']].length = 3 := rfl
  rw [e, hlen2]
  simp only []
  rw [square_overflow_tables]
  simp only [collect, slice]
  unfold collect
  simp

theorem square_overflow_costs (B : Str) (hlen : B.length = 4294967294) :
    (∀ w ∈ [['a'], B, ['c']], 0 ≤ runeCount w) ∧
      IsPartition [['a'], B, ['c']] [[['a'], B], [['c']]] ∧
      LastFits runeCount 1 4294967297 [[['a'], B], [['c']]] ∧
      raggedness runeCount 1 4294967297 100000 [[['a'], B], [['c']]].dropLast = 1 ∧
      raggedness runeCount 1 4294967297 100000 [[['a']], [B, ['c']]].dropLast =
        18446744073709551616 := by
  have hwB : runeCount B = 4294967294 := by
    unfold runeCount
    rw [hlen]
    rfl
  have hwa : runeCount ['a'] = 1 := rfl
  have hwc : runeCount ['c'] = 1 := rfl
  refine ⟨?_, ⟨rfl, ?_⟩, ?_, ?_, ?_⟩
  · intro w _
    exact Int.natCast_nonneg _
  · intro l hl
    simp only [List.mem_cons, List.mem_singleton, List.not_mem_nil, or_false] at hl
    rcases hl with rfl | rfl <;> simp
  · rw [lastFits_cons _ _ _ _ _ (by simp), lastFits_single]
    simp only [lineWidth, hwc, List.map_nil, List.sum_nil]
    decide
  · simp only [List.dropLast, raggedness, List.map_cons, List.map_nil, List.sum_cons,
      List.sum_nil, lineWidth, hwa, hwB, lineError]
    decide
  · simp only [List.dropLast, raggedness, List.map_cons, List.map_nil, List.sum_cons,
      List.sum_nil, lineWidth, hwa, lineError]
    decide

theorem tame_of_widths (width : Str → Int) (words : List Str) (spc lim pen : Int)
    (hr : WidthsInRange width words spc)
    (hd : ∀ i j, i ≤ j → j < words.length →
      -1073741824 ≤ lim - lineWidth width spc (slice words i (j + 1)) ∧
        lim - lineWidth width spc (slice words i (j + 1)) ≤ 1073741824)
    (hpen0 : 0 ≤ pen) (hpen : pen < 4611686018427387904) :
    Tame (length width words spc) lim pen words.length := by
  refine ⟨hpen0, hpen, ?_⟩
  intro i j hij hjn
  rw [length_eq width words spc hr i (j - 1) (by omega) (by omega)]
  exact hd i (j - 1) (by omega) (by omega)

theorem gaps_of_nonneg (width : Str → Int) (words : List Str) (spc lim : Int)
    (hw : ∀ w ∈ words, 0 ≤ width w) (hspc : 0 ≤ spc) (hlim0 : 0 ≤ lim)
    (hlim : lim ≤ 1073741824) (htot : lineWidth width spc words ≤ 1073741824) :
    ∀ i j, i ≤ j → j < words.length →
      -1073741824 ≤ lim - lineWidth width spc (slice words i (j + 1)) ∧
        lim - lineWidth width spc (slice words i (j + 1)) ≤ 1073741824 := by
  intro i j hij hj
  have h1 := lineWidth_nonneg width spc (slice words i (j + 1))
    (fun w h => hw w (mem_slice words i (j + 1) w h)) hspc
  have h2 := slice_width_le width words spc hw hspc i (j + 1) (by omega) (by omega)
  omega

theorem slice_to_end (words : List Str) (i : Nat) :
    slice words i words.length = words.drop i := by
  unfold slice
  apply List.take_of_length_le
  simp

/-- Within range, `cost[i]` is 0 when the words from `i` on fit on one line, is at
most the cost of any partition of these words whose final line fits and whose cost
is below `MaxInt32`, and is the cost of such a partition when it is itself below
`MaxInt32`. -/
theorem cost_is_minimum (width : Str → Int) (words : List Str) (spc lim pen : Int)
    (hr : WidthsInRange width words spc)
    (ht : Tame (length width words spc) lim pen words.length) (i : Nat)
    (hi : i < words.length) :
    (lineWidth width spc (words.drop i) ≤ lim →
        costAt (fillTables (length width words spc) lim pen words.length) i = 0) ∧
      (∀ P, IsPartition (words.drop i) P → LastFits width spc lim P →
        raggedness width spc lim pen P.dropLast < MaxInt32 →
        costAt (fillTables (length width words spc) lim pen words.length) i ≤
          raggedness width spc lim pen P.dropLast) ∧
      (costAt (fillTables (length width words spc) lim pen words.length) i < MaxInt32 →
        ∃ P, IsPartition (words.drop i) P ∧ LastFits width spc lim P ∧
          raggedness width spc lim pen P.dropLast =
            costAt (fillTables (length width words spc) lim pen words.length) i) := by
  refine ⟨?_, ?_, ?_⟩
  · intro hfit
    have he := fillTables_entry (length width words spc) lim pen words.length i hi
    apply (he.1 _).1
    rw [length_eq width words spc hr i _ (by omega) (by omega)]
    have e : words.length - 1 + 1 = words.length := by omega
    rw [e, slice_to_end]
    exact hfit
  · intro P hP hfit hlt
    exact cost_le_partition width words spc lim pen hr ht P i hi hP.1 hP.2 hfit hlt
  · intro hlt
    obtain ⟨R, hR⟩ := chain_exists (length width words spc) lim pen words ht
      (words.length - i) i (by omega) (fun _ => hlt)
    obtain ⟨p1, p2, _⟩ := chain_partition words _ i R hR (le_of_lt hi)
    obtain ⟨c1, c2⟩ := chain_cost width words spc lim pen hr ht i R hR hi
    exact ⟨R, ⟨p1, p2⟩, c1, c2⟩

/-! ## A run of separators anywhere in a text -/

theorem segStep_local (isHan : Char → Bool) (P Q : List Str) (r : Char) (hQ : Q ≠ []) :
    segStep isHan (P ++ Q) r = P ++ segStep isHan Q r ∧ segStep isHan Q r ≠ [] := by
  rcases List.eq_nil_or_concat Q with hnil | ⟨init, last, hcat⟩
  · exact absurd hnil hQ
  · rw [List.concat_eq_append] at hcat
    subst hcat
    rw [← List.append_assoc, segStep_snoc, segStep_snoc]
    by_cases hr : isHan r = true
    · rw [if_pos hr, if_pos hr]
      by_cases hl : last = []
      · simp [hl]
      · simp [hl]
    · rw [if_neg hr, if_neg hr]
      simp

theorem fold_local (isHan : Char → Bool) (P : List Str) (y : Str) :
    ∀ Q : List Str, Q ≠ [] →
      y.foldl (segStep isHan) (P ++ Q) = P ++ y.foldl (segStep isHan) Q ∧
        y.foldl (segStep isHan) Q ≠ [] := by
  induction y with
  | nil =>
    intro Q hQ
    exact ⟨rfl, hQ⟩
  | cons r rs ih =>
    intro Q hQ
    obtain ⟨h1, h2⟩ := segStep_local isHan P Q r hQ
    simp only [List.foldl_cons]
    rw [h1]
    exact ih _ h2

theorem fold_plain (isHan : Char → Bool) (init : List Str) (m : Str)
    (hm : ∀ c ∈ m, isHan c = false) :
    ∀ last : Str, m.foldl (segStep isHan) (init ++ [last]) = init ++ [last ++ m] := by
  induction m with
  | nil =>
    intro last
    simp
  | cons r rs ih =>
    intro last
    have hr : isHan r = false := hm r (List.mem_cons_self _ _)
    simp only [List.foldl_cons]
    rw [segStep_snoc, hr]
    simp only [Bool.false_eq_true, if_false]
    rw [ih (fun c hc => hm c (List.mem_cons_of_mem _ hc))]
    simp

theorem segments_of_fold_open (isHan : Char → Bool) (x : Str) (Z : List Str)
    (h : x.foldl (segStep isHan) [] = Z ++ [[]]) : segments isHan x = Z := by
  unfold segments
  simp only [h]
  simp [List.getD_eq_getElem?_getD]

theorem segments_of_fold_closed (isHan : Char → Bool) (x : Str) (Z : List Str) (l : Str)
    (hl : l ≠ []) (h : x.foldl (segStep isHan) [] = Z ++ [l]) :
    segments isHan x = Z ++ [l] := by
  unfold segments
  simp only [h]
  simp [List.getD_eq_getElem?_getD, hl]

theorem segments_nil (isHan : Char → Bool) : segments isHan [] = [] := by
  simp [segments]

theorem tokenize_nil (isHan : Char → Bool) : tokenize isHan [] = [] := by
  rw [tokenize_eq, segments_nil]
  rfl

/-- After a text that ends in a Han rune the slice `strs` ends with an empty
string, which the next rune will fill. -/
theorem fold_after_han (isHan : Char → Bool) (x : Str) (r : Char) (hr : isHan r = true) :
    (x ++ [r]).foldl (segStep isHan) [] = segments isHan (x ++ [r]) ++ [[]] := by
  have key : ∃ Z, (x ++ [r]).foldl (segStep isHan) [] = Z ++ [[]] := by
    rw [List.foldl_append]
    simp only [List.foldl_cons, List.foldl_nil]
    rcases List.eq_nil_or_concat (x.foldl (segStep isHan) []) with hnil | ⟨init, last, hcat⟩
    · rw [hnil, segStep_nil, if_pos hr]
      exact ⟨[[r]], rfl⟩
    · rw [List.concat_eq_append] at hcat
      rw [hcat, segStep_snoc, if_pos hr]
      exact ⟨_, rfl⟩
  obtain ⟨Z, hZ⟩ := key
  rw [segments_of_fold_open isHan _ Z hZ]
  exact hZ

/-- The slice `strs` after a stretch `m` without Han runes that follows the start
of the text or a Han rune. -/
theorem fold_stretch (isHan : Char → Bool) (x m : Str)
    (hx : x = [] ∨ ∃ x1 r, x = x1 ++ [r] ∧ isHan r = true)
    (hm : ∀ c ∈ m, isHan c = false) (hne : m ≠ []) :
    (x ++ m).foldl (segStep isHan) [] = segments isHan x ++ [m] := by
  rcases hx with rfl | ⟨x1, r, rfl, hr⟩
  · rw [List.nil_append, fold_noHan isHan m hm, if_neg hne, segments_nil]
    rfl
  · rw [List.foldl_append, fold_after_han isHan x1 r hr, fold_plain isHan _ m hm]
    simp

/-- The pieces of a text in which a non-empty stretch `m` without Han runes stands
between the start of the text or a Han rune and a Han rune or the end. -/
theorem segments_stretch (isHan : Char → Bool) (x m y : Str)
    (hx : x = [] ∨ ∃ x1 r, x = x1 ++ [r] ∧ isHan r = true)
    (hy : y = [] ∨ ∃ r y1, y = r :: y1 ∧ isHan r = true)
    (hm : ∀ c ∈ m, isHan c = false) (hne : m ≠ []) :
    segments isHan (x ++ m ++ y) = segments isHan x ++ [m] ++ segments isHan y := by
  have hxm := fold_stretch isHan x m hx hm hne
  rcases hy with rfl | ⟨r, y1, rfl, hr⟩
  · rw [List.append_nil, segments_nil, List.append_nil]
    exact segments_of_fold_closed isHan _ _ m hne hxm
  · have h0 : (r :: y1).foldl (segStep isHan) [] = y1.foldl (segStep isHan) [[r], []] := by
      simp only [List.foldl_cons]
      rw [segStep_nil, if_pos hr]
    have h1 : (x ++ m ++ r :: y1).foldl (segStep isHan) [] =
        (segments isHan x ++ [m]) ++ (r :: y1).foldl (segStep isHan) [] := by
      rw [List.foldl_append, hxm, h0]
      simp only [List.foldl_cons]
      rw [segStep_snoc, if_pos hr, if_pos hne]
      have e : segments isHan x ++ [m] ++ [[r]] ++ [[]] =
          (segments isHan x ++ [m]) ++ [[r], []] := by simp
      rw [e]
      exact (fold_local isHan _ y1 [[r], []] (by simp)).1
    have hne2 : (r :: y1).foldl (segStep isHan) [] ≠ [] := by
      rw [h0]
      exact (fold_local isHan [] y1 [[r], []] (by simp)).2
    rcases List.eq_nil_or_concat ((r :: y1).foldl (segStep isHan) []) with
      hnil | ⟨init, last, hcat⟩
    · exact absurd hnil hne2
    · rw [List.concat_eq_append] at hcat
      rw [hcat, ← List.append_assoc] at h1
      by_cases hl : last = []
      · subst hl
        rw [segments_of_fold_open isHan _ _ h1, segments_of_fold_open isHan _ _ hcat]
      · rw [segments_of_fold_closed isHan _ _ last hl h1,
          segments_of_fold_closed isHan _ _ last hl hcat]
        simp

theorem tokenize_stretch (isHan : Char → Bool) (x m y : Str)
    (hx : x = [] ∨ ∃ x1 r, x = x1 ++ [r] ∧ isHan r = true)
    (hy : y = [] ∨ ∃ r y1, y = r :: y1 ∧ isHan r = true)
    (hm : ∀ c ∈ m, isHan c = false) (hne : m ≠ []) :
    tokenize isHan (x ++ m ++ y) =
      tokenize isHan x ++ splitSp (replaceNl m) ++ tokenize isHan y := by
  rw [tokenize_eq, tokenize_eq, tokenize_eq, segments_stretch isHan x m y hx hy hm hne]
  simp

theorem plain_suffix (isHan : Char → Bool) (a : Str) :
    ∃ x pre, a = x ++ pre ∧ (∀ c ∈ pre, isHan c = false) ∧
      (x = [] ∨ ∃ x1 r, x = x1 ++ [r] ∧ isHan r = true) := by
  induction a using List.reverseRecOn with
  | nil => exact ⟨[], [], rfl, by simp, Or.inl rfl⟩
  | append_singleton a0 c ih =>
    by_cases hc : isHan c = true
    · exact ⟨a0 ++ [c], [], by simp, by simp, Or.inr ⟨a0, c, rfl, hc⟩⟩
    · obtain ⟨x, pre, h1, h2, h3⟩ := ih
      refine ⟨x, pre ++ [c], by rw [h1, List.append_assoc], ?_, h3⟩
      intro d hd
      rcases List.mem_append.mp hd with hd | hd
      · exact h2 d hd
      · simp only [List.mem_singleton] at hd
        rw [hd]
        simpa using hc

theorem plain_prefix (isHan : Char → Bool) (b : Str) :
    ∃ post y, b = post ++ y ∧ (∀ c ∈ post, isHan c = false) ∧
      (y = [] ∨ ∃ r y1, y = r :: y1 ∧ isHan r = true) := by
  induction b with
  | nil => exact ⟨[], [], rfl, by simp, Or.inl rfl⟩
  | cons c b0 ih =>
    by_cases hc : isHan c = true
    · exact ⟨[], c :: b0, by simp, by simp, Or.inr ⟨c, b0, rfl, hc⟩⟩
    · obtain ⟨post, y, h1, h2, h3⟩ := ih
      refine ⟨c :: post, y, by rw [h1, List.cons_append], ?_, h3⟩
      intro d hd
      rcases List.mem_cons.mp hd with hd | hd
      · rw [hd]
        simpa using hc
      · exact h2 d hd

/-- Model fact of `strings.Split`: the pieces of a text around one of its spaces are
the pieces before it followed by the pieces after it. -/
theorem splitSp_append_space (p q : Str) :
    splitSp (p ++ ' ' :: q) = splitSp p ++ splitSp q := by
  induction p with
  | nil =>
    simp only [List.nil_append]
    conv_lhs => unfold splitSp
    simp [splitSp]
  | cons c cs ih =>
    have eR : splitSp (c :: cs) =
        if c = ' ' then [] :: splitSp cs
        else
          match splitSp cs with
          | [] => [[c]]
          | w :: ws => (c :: w) :: ws := by
      conv_lhs => unfold splitSp
    simp only [List.cons_append]
    conv_lhs => unfold splitSp
    rw [eR]
    by_cases hc : c = ' '
    · rw [if_pos hc, if_pos hc, ih]
      rfl
    · rw [if_neg hc, if_neg hc, ih]
      cases hsp : splitSp cs with
      | nil => exact absurd hsp (splitSp_ne_nil cs)
      | cons w ws => rfl

theorem splitSp_replicate (k : Nat) (z : Str) :
    splitSp (List.replicate k ' ' ++ z) = List.replicate k [] ++ splitSp z := by
  induction k with
  | zero => simp
  | succ k ih =>
    have e : List.replicate (k + 1) ' ' ++ z = [] ++ ' ' :: (List.replicate k ' ' ++ z) := by
      simp [List.replicate_succ]
    rw [e, splitSp_append_sp [] _ (by simp), ih]
    simp [List.replicate_succ]

/-- The pieces of a text without Han runes around a run of separators: the pieces
before the word `u`, then `u`, an empty piece for each separator of the run but
one, the word `v`, and the pieces after `v`. -/
theorem splitSp_run (pre u seps v post : Str)
    (hpre : pre = [] ∨ ∃ p c, pre = p ++ [c] ∧ (c = ' ' ∨ c = '\n'))
    (hpost : post = [] ∨ ∃ c q, post = c :: q ∧ (c = ' ' ∨ c = '\n'))
    (hu : ∀ c ∈ u, c ≠ ' ' ∧ c ≠ '\n') (hv : ∀ c ∈ v, c ≠ ' ' ∧ c ≠ '\n')
    (hseps : ∀ c ∈ seps, c = ' ' ∨ c = '\n') (hne : seps ≠ []) :
    splitSp (replaceNl (pre ++ u ++ seps ++ v ++ post)) =
      (if pre = [] then [] else (splitSp (replaceNl pre)).dropLast) ++
        u :: (List.replicate (seps.length - 1) [] ++
          v :: (if post = [] then [] else (splitSp (replaceNl post)).tail)) := by
  have hsepc : ∀ c : Char, c = ' ' ∨ c = '\n' → replaceNl [c] = [' '] := by
    intro c hc
    rcases hc with rfl | rfl <;> rfl
  have hvq : splitSp (v ++ replaceNl post) =
      v :: (if post = [] then [] else (splitSp (replaceNl post)).tail) := by
    rcases hpost with rfl | ⟨c, q, rfl, hc⟩
    · simpa [replaceNl] using splitSp_noSp v (fun c hc => (hv c hc).1)
    · have e : replaceNl (c :: q) = ' ' :: replaceNl q := by
        have := replaceNl_append [c] q
        rw [hsepc c hc] at this
        simpa using this
      rw [e, splitSp_append_sp v _ (fun c hc => (hv c hc).1)]
      have e2 : splitSp (' ' :: replaceNl q) = [] :: splitSp (replaceNl q) := by
        conv_lhs => unfold splitSp
        simp
      rw [e2]
      simp
  obtain ⟨k, hk⟩ : ∃ k, seps.length = k + 1 := by
    cases seps with
    | nil => exact absurd rfl hne
    | cons x xs => exact ⟨xs.length, rfl⟩
  have hmid : splitSp (u ++ List.replicate (k + 1) ' ' ++ v ++ replaceNl post) =
      u :: (List.replicate k [] ++
        v :: (if post = [] then [] else (splitSp (replaceNl post)).tail)) := by
    have e : u ++ List.replicate (k + 1) ' ' ++ v ++ replaceNl post =
        u ++ ' ' :: (List.replicate k ' ' ++ (v ++ replaceNl post)) := by
      simp [List.replicate_succ]
    rw [e, splitSp_append_sp u _ (fun c hc => (hu c hc).1), splitSp_replicate, hvq]
  rw [replaceNl_append, replaceNl_append, replaceNl_append, replaceNl_append,
    replaceNl_id u (fun c hc => (hu c hc).2), replaceNl_id v (fun c hc => (hv c hc).2),
    replaceNl_seps seps hseps, hk, Nat.add_sub_cancel]
  rcases hpre with rfl | ⟨p, c, rfl, hc⟩
  · have e0 : replaceNl [] = [] := rfl
    rw [e0, List.nil_append, hmid]
    simp
  · have e1 : replaceNl (p ++ [c]) = replaceNl p ++ [' '] := by
      rw [replaceNl_append, hsepc c hc]
    have e2 : replaceNl p ++ [' '] ++ u ++ List.replicate (k + 1) ' ' ++ v ++ replaceNl post =
        replaceNl p ++ ' ' :: (u ++ List.replicate (k + 1) ' ' ++ v ++ replaceNl post) := by
      simp
    have e3 : splitSp (replaceNl p ++ [' ']) = splitSp (replaceNl p) ++ [[]] := by
      have := splitSp_append_space (replaceNl p) []
      simpa [splitSp] using this
    rw [e1, e2, splitSp_append_space, hmid, e3]
    simp

theorem wordsBefore_eq (isHan : Char → Bool) (hsp : isHan ' ' = false)
    (hnl : isHan '\n' = false) (x pre : Str)
    (hx : x = [] ∨ ∃ x1 r, x = x1 ++ [r] ∧ isHan r = true)
    (hpre : ∀ c ∈ pre, isHan c = false)
    (ha : ∀ c ∈ (x ++ pre).getLast?, c = ' ' ∨ c = '\n' ∨ isHan c = true) :
    (pre = [] ∨ ∃ p c, pre = p ++ [c] ∧ (c = ' ' ∨ c = '\n')) ∧
      wordsBefore isHan (x ++ pre) =
        tokenize isHan x ++ (if pre = [] then [] else (splitSp (replaceNl pre)).dropLast) := by
  rcases List.eq_nil_or_concat pre with hnil | ⟨p, c, hcat⟩
  · subst hnil
    refine ⟨Or.inl rfl, ?_⟩
    rw [List.append_nil]
    rcases hx with rfl | ⟨x1, r, rfl, hr⟩
    · simp [wordsBefore, tokenize_nil]
    · have h1 : r ≠ ' ' := by
        rintro rfl
        rw [hsp] at hr
        exact Bool.noConfusion hr
      have h2 : r ≠ '\n' := by
        rintro rfl
        rw [hnl] at hr
        exact Bool.noConfusion hr
      simp [wordsBefore, h1, h2]
  · rw [List.concat_eq_append] at hcat
    subst hcat
    have hc : isHan c = false := hpre c (by simp)
    have hlast : (x ++ (p ++ [c])).getLast? = some c := by
      rw [← List.append_assoc, List.getLast?_append]
      simp
    have hsepc : c = ' ' ∨ c = '\n' := by
      rcases ha c (by rw [hlast]; simp) with h | h | h
      · exact Or.inl h
      · exact Or.inr h
      · rw [hc] at h
        exact Bool.noConfusion h
    refine ⟨Or.inr ⟨p, c, rfl, hsepc⟩, ?_⟩
    have hne : p ++ [c] ≠ [] := by simp
    have htok := tokenize_stretch isHan x (p ++ [c]) [] hx (Or.inl rfl) hpre hne
    rw [List.append_nil, tokenize_nil, List.append_nil] at htok
    unfold wordsBefore
    rw [hlast]
    simp only [hsepc, if_true, hne, if_false]
    rw [htok, List.dropLast_append_of_ne_nil _ (splitSp_ne_nil _)]

theorem wordsAfter_eq (isHan : Char → Bool) (hsp : isHan ' ' = false)
    (hnl : isHan '\n' = false) (post y : Str)
    (hy : y = [] ∨ ∃ r y1, y = r :: y1 ∧ isHan r = true)
    (hpost : ∀ c ∈ post, isHan c = false)
    (hb : ∀ c ∈ (post ++ y).head?, c = ' ' ∨ c = '\n' ∨ isHan c = true) :
    (post = [] ∨ ∃ c q, post = c :: q ∧ (c = ' ' ∨ c = '\n')) ∧
      wordsAfter isHan (post ++ y) =
        (if post = [] then [] else (splitSp (replaceNl post)).tail) ++ tokenize isHan y := by
  cases post with
  | nil =>
    refine ⟨Or.inl rfl, ?_⟩
    rw [List.nil_append]
    rcases hy with rfl | ⟨r, y1, rfl, hr⟩
    · simp [wordsAfter, tokenize_nil]
    · have h1 : r ≠ ' ' := by
        rintro rfl
        rw [hsp] at hr
        exact Bool.noConfusion hr
      have h2 : r ≠ '\n' := by
        rintro rfl
        rw [hnl] at hr
        exact Bool.noConfusion hr
      simp [wordsAfter, h1, h2]
  | cons c q =>
    have hc : isHan c = false := hpost c (by simp)
    have hsepc : c = ' ' ∨ c = '\n' := by
      rcases hb c (by simp) with h | h | h
      · exact Or.inl h
      · exact Or.inr h
      · rw [hc] at h
        exact Bool.noConfusion h
    refine ⟨Or.inr ⟨c, q, rfl, hsepc⟩, ?_⟩
    have hne : c :: q ≠ [] := by simp
    have htok := tokenize_stretch isHan [] (c :: q) y (Or.inl rfl) hy hpost hne
    rw [List.nil_append, tokenize_nil, List.nil_append] at htok
    unfold wordsAfter
    simp only [List.cons_append, List.head?_cons, hsepc, if_true, hne, if_false]
    rw [← List.cons_append, htok, List.tail_append_of_ne_nil (splitSp_ne_nil _)]

/-- The words of a text around a run of separators, wherever the run stands. -/
theorem tokenize_around_run (isHan : Char → Bool) (hsp : isHan ' ' = false)
    (hnl : isHan '\n' = false) (a u seps v b : Str)
    (ha : ∀ c ∈ a.getLast?, c = ' ' ∨ c = '\n' ∨ isHan c = true)
    (hb : ∀ c ∈ b.head?, c = ' ' ∨ c = '\n' ∨ isHan c = true)
    (hu : ∀ c ∈ u, isHan c = false ∧ c ≠ ' ' ∧ c ≠ '\n')
    (hv : ∀ c ∈ v, isHan c = false ∧ c ≠ ' ' ∧ c ≠ '\n')
    (hseps : ∀ c ∈ seps, c = ' ' ∨ c = '\n') (hne : seps ≠ []) :
    tokenize isHan (a ++ u ++ seps ++ v ++ b) =
      wordsBefore isHan a ++
        u :: (List.replicate (seps.length - 1) [] ++ v :: wordsAfter isHan b) := by
  obtain ⟨x, pre, rfl, hpre, hx⟩ := plain_suffix isHan a
  obtain ⟨post, y, rfl, hpost, hy⟩ := plain_prefix isHan b
  obtain ⟨hpre2, hA⟩ := wordsBefore_eq isHan hsp hnl x pre hx hpre ha
  obtain ⟨hpost2, hB⟩ := wordsAfter_eq isHan hsp hnl post y hy hpost hb
  have hm : ∀ c ∈ pre ++ u ++ seps ++ v ++ post, isHan c = false := by
    intro c hc
    simp only [List.mem_append] at hc
    rcases hc with (((hc | hc) | hc) | hc) | hc
    · exact hpre c hc
    · exact (hu c hc).1
    · rcases hseps c hc with rfl | rfl
      · exact hsp
      · exact hnl
    · exact (hv c hc).1
    · exact hpost c hc
  have hmne : pre ++ u ++ seps ++ v ++ post ≠ [] := by
    cases seps with
    | nil => exact absurd rfl hne
    | cons s0 ss => simp
  have e : x ++ pre ++ u ++ seps ++ v ++ (post ++ y) =
      x ++ (pre ++ u ++ seps ++ v ++ post) ++ y := by
    simp only [List.append_assoc]
  rw [e, tokenize_stretch isHan x _ y hx hy hm hmne,
    splitSp_run pre u seps v post hpre2 hpost2 (fun c hc => (hu c hc).2)
      (fun c hc => (hv c hc).2) hseps hne, hA, hB]
  simp only [List.append_assoc, List.cons_append]


/-! ## The grouping returned and the table `nbrk` -/

/-- An index whose `nbrk` entry is the index itself is never left by the final
loop. -/
theorem collect_loop (words : List Str) (nbrk : List Nat) (i : Nat) (hi : i < words.length)
    (hn : nbrk.getD i 0 = i) (fuel : Nat) :
    ∀ lines, collect words nbrk fuel i lines = Outcome.outOfFuel := by
  induction fuel with
  | zero =>
    intro lines
    unfold collect
    simp [hi]
  | succ f ih =>
    intro lines
    rw [collect_step words nbrk i hi (by omega) (by omega) f lines, hn]
    exact ih _

/-- Whenever the final loop returns, the lines it has added are those found by
following `nbrk`, each link going forward. -/
theorem collect_done_chain (words : List Str) (nbrk : List Nat) (fuel : Nat) :
    ∀ i lines out, collect words nbrk fuel i lines = Outcome.done out →
      ∃ R, out = lines ++ R ∧ Chain words (fun k => nbrk.getD k 0) i R := by
  induction fuel with
  | zero =>
    intro i lines out h
    by_cases hi : i < words.length
    · unfold collect at h
      simp [hi] at h
    · unfold collect at h
      simp only [hi, if_false] at h
      injection h with h
      exact ⟨[], by simp [h], Chain.stop i (by omega)⟩
  | succ f ih =>
    intro i lines out h
    by_cases hi : i < words.length
    · by_cases hr : nbrk.getD i 0 < i ∨ words.length < nbrk.getD i 0
      · rw [collect] at h
        simp only [hi, if_true, hr] at h
        exact Outcome.noConfusion h
      · have h1 : i ≤ nbrk.getD i 0 := by omega
        have h2 : nbrk.getD i 0 ≤ words.length := by omega
        by_cases he : nbrk.getD i 0 = i
        · rw [collect_loop words nbrk i hi he (f + 1) lines] at h
          exact Outcome.noConfusion h
        · rw [collect_step words nbrk i hi h1 h2 f lines] at h
          obtain ⟨R, e, hR⟩ := ih _ _ _ h
          refine ⟨slice words i (nbrk.getD i 0) :: R, by simp [e], ?_⟩
          exact Chain.line i R hi (by omega) h2 hR
    · unfold collect at h
      simp only [hi, if_false] at h
      injection h with h
      exact ⟨[], by simp [h], Chain.stop i (by omega)⟩

/-- In the lines found by following `nbrk` from word `i0`, the line that stands
after lines holding `k` words starts at word `i0 + k` and ends at `nbrk[i0 + k]`. -/
theorem chain_line_at (words : List Str) (b : Nat → Nat) (i0 : Nat) (R : List (List Str))
    (hc : Chain words b i0 R) :
    ∀ (A : List (List Str)) (l : List Str) (B : List (List Str)), R = A ++ l :: B →
      l = slice words (i0 + A.flatten.length) (b (i0 + A.flatten.length)) ∧
        i0 + A.flatten.length < b (i0 + A.flatten.length) ∧
        b (i0 + A.flatten.length) ≤ words.length ∧
        b (i0 + A.flatten.length) = i0 + (A ++ [l]).flatten.length := by
  induction hc with
  | stop i h =>
    intro A l B e
    simp at e
  | line i R h h1 h2 _ ih =>
    intro A l B e
    cases A with
    | nil =>
      simp only [List.nil_append, List.cons.injEq] at e
      obtain ⟨e1, _⟩ := e
      subst e1
      have hz : i + ([] : List (List Str)).flatten.length = i := by simp
      rw [hz]
      refine ⟨rfl, h1, h2, ?_⟩
      simp only [List.nil_append, List.flatten_cons, List.flatten_nil, List.append_nil]
      rw [slice_length words i (b i) h2]
      omega
    | cons a A1 =>
      simp only [List.cons_append, List.cons.injEq] at e
      obtain ⟨e1, e2⟩ := e
      obtain ⟨r1, r2, r3, r4⟩ := ih A1 l B e2
      have hlen : (a :: A1).flatten.length = (b i - i) + A1.flatten.length := by
        rw [List.flatten_cons, List.length_append, ← e1, slice_length words i (b i) h2]
      have hpos : i + (a :: A1).flatten.length = b i + A1.flatten.length := by
        rw [hlen]
        omega
      have hlen2 : ((a :: A1) ++ [l]).flatten.length =
          (b i - i) + (A1 ++ [l]).flatten.length := by
        rw [List.cons_append, List.flatten_cons, List.length_append, ← e1,
          slice_length words i (b i) h2]
      rw [hpos]
      refine ⟨r1, r2, r3, ?_⟩
      rw [r4, hlen2]
      omega

/-- In the grouping that `WrapWords` returns, the line that stands after lines
holding `i` words is `words[i:nbrk[i]]`, and the next line starts at `nbrk[i]`. -/
theorem wrapWords_line_at (width : Str → Int) (fuel : Nat) (words : List Str)
    (spc lim pen : Int) (R A : List (List Str)) (l : List Str) (B : List (List Str))
    (h : WrapWords width fuel words spc lim pen = Outcome.done R) (e : R = A ++ l :: B) :
    l = slice words A.flatten.length
        (nbrkAt (fillTables (length width words spc) lim pen words.length) A.flatten.length) ∧
      nbrkAt (fillTables (length width words spc) lim pen words.length) A.flatten.length =
        (A ++ [l]).flatten.length := by
  unfold WrapWords at h
  obtain ⟨R2, e2, hR⟩ := collect_done_chain words _ fuel 0 [] R h
  rw [List.nil_append] at e2
  subst e2
  obtain ⟨r1, _, _, r4⟩ := chain_line_at words _ 0 R hR A l B e
  simp only [Nat.zero_add] at r1 r4
  exact ⟨r1, r4⟩

/-- As long as no operation overflows, the candidate cost `c` that the code
computes is the cost of the break as the specification writes it. -/
theorem candidate_eq_spec (len : Nat → Nat → Int) (lim pen : Int) (n : Nat)
    (ht : Tame len lim pen n) (i j : Nat) (hij : i < j) (hjn : j < n) :
    candidate len lim pen i j (costAt (fillTables len lim pen n) j) =
      breakCostBySpec len lim pen (costAt (fillTables len lim pen n)) i j := by
  obtain ⟨c0, c1⟩ := cost_range len lim pen n ht (n - j) j (by omega) hjn
  rw [candidate_eq len lim pen n i j _ ht hij hjn c0 c1]
  unfold lineError breakCostBySpec
  ring

/-! ## A tie hidden by an overflow -/

theorem tie_overflow_tables :
    fillTables (length (standInWidth 4294967292) [['a'], ['b'], "cccc".toList, ['d']] 1)
      4294967297 5 4 = ⟨[0, 0, 0, 0], [1, 3, 4, 4]⟩ := by
  decide

theorem tie_overflow_length (B : Str) (hlen : B.length = 4294967292) :
    length runeCount [['a'], B, "cccc".toList, ['d']] 1 =
      length (standInWidth 4294967292) [['a'], ['b'], "cccc".toList, ['d']] 1 := by
  have hwB : runeCount B = 4294967292 := by
    unfold runeCount
    rw [hlen]
    rfl
  apply length_congr
  intro i
  rcases i with _ | _ | _ | _ | i
  · rfl
  · simpa [standInWidth] using hwB
  · rfl
  · rfl
  · simp [standInWidth, runeCount]

theorem tie_overflow_run (B : Str) (hlen : B.length = 4294967292) (fuel : Nat) :
    WrapWords runeCount (fuel + 3) [['a'], B, "cccc".toList, ['d']] 1 4294967297 5 =
      Outcome.done [[['a']], [B, "cccc".toList], [['d']]] := by
  unfold WrapWords
  have e : [['a'], B, "cccc".toList, ['d']].length = 4 := rfl
  rw [e, tie_overflow_length B hlen]
  simp only []
  rw [tie_overflow_tables]
  simp only [collect, slice]
  unfold collect
  simp

theorem tie_overflow_costs (B : Str) (hlen : B.length = 4294967292) :
    ¬ length runeCount [['a'], B, "cccc".toList, ['d']] 1 0 3 ≤ 4294967297 ∧
      breakCostBySpec (length runeCount [['a'], B, "cccc".toList, ['d']] 1) 4294967297 5
        (costAt (fillTables (length runeCount [['a'], B, "cccc".toList, ['d']] 1)
          4294967297 5 4)) 0 1 = 18446744073709551616 ∧
      breakCostBySpec (length runeCount [['a'], B, "cccc".toList, ['d']] 1) 4294967297 5
        (costAt (fillTables (length runeCount [['a'], B, "cccc".toList, ['d']] 1)
          4294967297 5 4)) 0 2 = 9 ∧
      breakCostBySpec (length runeCount [['a'], B, "cccc".toList, ['d']] 1) 4294967297 5
        (costAt (fillTables (length runeCount [['a'], B, "cccc".toList, ['d']] 1)
          4294967297 5 4)) 0 3 = 9 ∧
      nbrkAt (fillTables (length runeCount [['a'], B, "cccc".toList, ['d']] 1)
        4294967297 5 4) 0 = 1 := by
  rw [tie_overflow_length B hlen, tie_overflow_tables]
  refine ⟨by decide, by decide, by decide, by decide, by decide⟩


/-! ## Worked runs -/

/-- The tables for the words "aaa", "bb", "c" with `spc = 1`, `lim = 5` and
`pen = 100000` break after the first word. -/
theorem example_run_aaa_bb_c (fuel : Nat) :
    WrapWords runeCount (fuel + 2) ["aaa".toList, "bb".toList, "c".toList] 1 5 100000 =
      Outcome.done [["aaa".toList], ["bb".toList, "c".toList]] := by
  have ht : (fillTables (length runeCount ["aaa".toList, "bb".toList, "c".toList] 1) 5 100000
      3).nbrk = [1, 3, 3] := by decide
  show collect _ (fillTables (length runeCount ["aaa".toList, "bb".toList, "c".toList] 1) 5
    100000 3).nbrk (fuel + 2) 0 [] = _
  rw [ht]
  simp only [collect, slice]
  unfold collect
  simp

/-! ## Claims -/

/-- C1 (fails in the code): with the single word "aaa" of width 3 and `lim = 2`,
the last word is wider than the limit, `nbrk[0]` keeps its initial 0 and the
loop `for i < n` never advances: no amount of fuel makes `WrapWords` return. -/
theorem WrapWords_wide_last_word_never_returns :
    ∀ fuel : Nat,
      WrapWords runeCount fuel ["aaa".toList] 1 2 100000 = Outcome.outOfFuel := by
  intro fuel
  have ht : (fillTables (length runeCount ["aaa".toList] 1) 2 100000 1).nbrk.getD 0 0 = 0 := by
    decide
  unfold WrapWords
  exact collect_stuck _ _ (by decide) ht fuel []

/-- C2 (fails in the code): with words of widths 8, 1, 1, `spc = 1`, `lim = 10` and
`pen = 100000`, `WrapWords` returns the lines of widths 10 and 1, whose total
error over all lines is 0 + 81 = 81, while the partition into the lines of widths
8 and 3 has the total error 4 + 49 = 53: the raggedness over all lines, which the
doc comment of `WrapWords` says is minimised, is not minimal. -/
theorem raggedness_over_all_lines_not_minimal :
    (∀ fuel : Nat,
      WrapWords runeCount (fuel + 2) ["aaaaaaaa".toList, "b".toList, "c".toList] 1 10 100000 =
        Outcome.done [["aaaaaaaa".toList, "b".toList], ["c".toList]]) ∧
      raggedness runeCount 1 10 100000 [["aaaaaaaa".toList, "b".toList], ["c".toList]] = 81 ∧
      IsPartition ["aaaaaaaa".toList, "b".toList, "c".toList]
        [["aaaaaaaa".toList], ["b".toList, "c".toList]] ∧
      raggedness runeCount 1 10 100000 [["aaaaaaaa".toList], ["b".toList, "c".toList]] = 53 ∧
      raggedness runeCount 1 10 100000 [["aaaaaaaa".toList], ["b".toList, "c".toList]] <
        raggedness runeCount 1 10 100000 [["aaaaaaaa".toList, "b".toList], ["c".toList]] := by
  refine ⟨?_, by decide, ⟨by decide, by decide⟩, by decide, by decide⟩
  intro fuel
  have ht : (fillTables (length runeCount ["aaaaaaaa".toList, "b".toList, "c".toList] 1) 10
      100000 3).nbrk = [2, 3, 3] := by decide
  show collect _ (fillTables (length runeCount ["aaaaaaaa".toList, "b".toList, "c".toList] 1) 10
    100000 3).nbrk (fuel + 2) 0 [] = _
  rw [ht]
  simp only [collect, slice]
  unfold collect
  simp

/-- C3 (fails as stated): `WrapWords(["aaa","bb","c"], 1, 5, 100000)` does not
return `[["aaa","bb"],["c"]]`, whatever the fuel: the line "aaa bb" has width 6,
one more than the limit, and costs 1 + 100000. -/
theorem WrapWords_aaa_bb_c_not_as_claimed :
    ¬ ∃ fuel, WrapWords runeCount fuel ["aaa".toList, "bb".toList, "c".toList] 1 5 100000 =
      Outcome.done [["aaa".toList, "bb".toList], ["c".toList]] := by
  rintro ⟨fuel, h⟩
  rcases fuel with _ | _ | fuel
  · revert h
    decide
  · revert h
    decide
  · rw [example_run_aaa_bb_c fuel] at h
    revert h
    decide

/-- C3 (amended): `WrapWords(["aaa","bb","c"], 1, 5, 100000)`, each word as wide
as its number of characters, returns `[["aaa"],["bb","c"]]` as soon as the fuel
allows the two passes of its final loop. -/
theorem WrapWords_aaa_bb_c (fuel : Nat) :
    WrapWords runeCount (fuel + 2) ["aaa".toList, "bb".toList, "c".toList] 1 5 100000 =
      Outcome.done [["aaa".toList], ["bb".toList, "c".toList]] :=
  example_run_aaa_bb_c fuel

/-- C4 (fails as stated): `WrapString("ab", 2)` returns the one line "ab " with the
limit 2; the line is 3 cells wide, and its only word, 2 cells wide, does not
exceed the limit. -/
theorem line_wider_than_limit :
    WrapString cellWidth hanBlock 1 "ab".toList 2 = Outcome.done (["ab ".toList], 2) ∧
      tokenize hanBlock "ab".toList = ["ab".toList] ∧
      cellWidth "ab ".toList > 2 ∧ ¬ cellWidth "ab".toList > 2 := by
  decide

/-- C4 (amended): let the width be non-negative, additive over concatenation and 1
for the space, let `n` be the number of words of the text and `L` the effective
limit. If `(n - 1) * L^2 < 100000`, `L ≤ 2^30` and the natural width of all the
words on one line is at most `2^30`, then `WrapString` returns (with fuel for one
pass per word) and every line string it returns has a display width of at most
`L + 1`: the words of the line fit within `L`, and the space rendered after its
last word may stick out. -/
theorem WrapString_lines_within_limit_plus_one (width : Str → Int) (isHan : Char → Bool)
    (s : Str) (lim : Int)
    (hadd : ∀ a b, width (a ++ b) = width a + width b) (hnn : ∀ a, 0 ≤ width a)
    (hsp : width [' '] = 1)
    (hL : raiseLimit width (tokenize isHan s) lim ≤ 1073741824)
    (htot : lineWidth width 1 (tokenize isHan s) ≤ 1073741824)
    (hdom : (((tokenize isHan s).length : Int) - 1) *
      (raiseLimit width (tokenize isHan s) lim * raiseLimit width (tokenize isHan s) lim) <
        100000) :
    ∃ lines, (∀ fuel, (tokenize isHan s).length ≤ fuel →
        WrapString width isHan fuel s lim =
          Outcome.done (lines, raiseLimit width (tokenize isHan s) lim)) ∧
      ∀ line ∈ lines, width line ≤ raiseLimit width (tokenize isHan s) lim + 1 := by
  obtain ⟨_, hle, _⟩ := raiseLimit_spec width (tokenize isHan s) lim
  obtain ⟨R, hrun, hpart, hfit⟩ := wrapWords_fit width (tokenize isHan s) 1
    (raiseLimit width (tokenize isHan s) lim) defaultPenalty
    (fun w hw => ⟨hnn w, hle w hw⟩) (by decide) hL htot (by decide) hdom
    (lt_trans hdom (by decide))
  refine ⟨R.map (renderLine isHan), ?_, ?_⟩
  · intro fuel hf
    exact WrapString_done width isHan fuel s lim R (hrun fuel hf)
  · intro line hline
    obtain ⟨l, hl, rfl⟩ := List.mem_map.mp hline
    have h1 := width_renderLine_le width isHan hadd hsp l (hpart.2 l hl)
    have h2 := hfit l hl
    omega

/-- Witness for C4 (amended): the text "ab cde" with the limit 1, in cells of
`cellWidth`. -/
theorem WrapString_lines_within_limit_plus_one_witness :
    (cellWidth [' '] = 1 ∧
      raiseLimit cellWidth (tokenize hanBlock "ab cde".toList) 1 ≤ 1073741824 ∧
      lineWidth cellWidth 1 (tokenize hanBlock "ab cde".toList) ≤ 1073741824 ∧
      (((tokenize hanBlock "ab cde".toList).length : Int) - 1) *
        (raiseLimit cellWidth (tokenize hanBlock "ab cde".toList) 1 *
          raiseLimit cellWidth (tokenize hanBlock "ab cde".toList) 1) < 100000) ∧
    ∃ lines, (∀ fuel, (tokenize hanBlock "ab cde".toList).length ≤ fuel →
        WrapString cellWidth hanBlock fuel "ab cde".toList 1 =
          Outcome.done (lines, raiseLimit cellWidth (tokenize hanBlock "ab cde".toList) 1)) ∧
      ∀ line ∈ lines,
        cellWidth line ≤ raiseLimit cellWidth (tokenize hanBlock "ab cde".toList) 1 + 1 :=
  ⟨⟨by decide, by decide, by decide, by decide⟩,
    WrapString_lines_within_limit_plus_one cellWidth hanBlock "ab cde".toList 1
      cellWidth_append cellWidth_nonneg (by decide) (by decide) (by decide) (by decide)⟩

/-- C5 (fails in the code): with the words "a", a word of 318 times "b" and "c",
`spc = 1`, `lim = 318` and `pen = 100000`, no word is wider than the limit, yet
`WrapWords` returns a first line of two words whose natural width is 320: that
line costs 4 + 100000, less than the 317^2 = 100489 of the line "a" alone. -/
theorem WrapWords_overlong_line_though_words_fit :
    (∀ fuel, WrapWords runeCount (fuel + 2) [['a'], List.replicate 318 'b', ['c']] 1 318
        100000 = Outcome.done [[['a'], List.replicate 318 'b'], [['c']]]) ∧
      lineWidth runeCount 1 [['a'], List.replicate 318 'b'] = 320 ∧
      ∀ w ∈ [['a'], List.replicate 318 'b', ['c']], runeCount w ≤ 318 := by
  have hlen : (List.replicate 318 'b').length = 318 := List.length_replicate _ _
  refine ⟨fun fuel => wide_word_run _ hlen fuel, ?_, ?_⟩
  · simp only [lineWidth, runeCount, hlen, List.map_cons, List.map_nil, List.sum_cons,
      List.sum_nil]
    rfl
  · intro w hw
    simp only [List.mem_cons, List.mem_singleton, List.not_mem_nil, or_false] at hw
    rcases hw with rfl | rfl | rfl
    · decide
    · simp only [runeCount, hlen]
      decide
    · decide

/-- C6: the limit set by `WrapString` before it breaks the lines is the greatest
of `lim` and the widths of the words of the text: it is at least `lim`, at least
the width of every word, and equal to `lim` or to the width of some word, for
every text and every `lim`; whenever `WrapString(s, lim)` returns, this is the
limit it returns; and it does return, with this limit, for every `lim` and every
text of `n` words of non-negative width with `(n - 1) * L^2 < 2^31 - 1`, `L`
being this limit, as soon as the fuel allows one pass per word. -/
theorem WrapString_effective_limit (width : Str → Int) (isHan : Char → Bool) (s : Str)
    (lim : Int) :
    (raiseLimit width (tokenize isHan s) lim = ((tokenize isHan s).map width).foldl max lim ∧
      lim ≤ raiseLimit width (tokenize isHan s) lim ∧
      (∀ w ∈ tokenize isHan s, width w ≤ raiseLimit width (tokenize isHan s) lim) ∧
      (raiseLimit width (tokenize isHan s) lim = lim ∨
        ∃ w ∈ tokenize isHan s, raiseLimit width (tokenize isHan s) lim = width w)) ∧
    (∀ fuel lines L, WrapString width isHan fuel s lim = Outcome.done (lines, L) →
      L = raiseLimit width (tokenize isHan s) lim) ∧
    ((∀ w ∈ tokenize isHan s, 0 ≤ width w) →
      (((tokenize isHan s).length : Int) - 1) *
          (raiseLimit width (tokenize isHan s) lim * raiseLimit width (tokenize isHan s) lim) <
        2147483647 →
      ∃ lines, ∀ fuel, (tokenize isHan s).length ≤ fuel →
        WrapString width isHan fuel s lim =
          Outcome.done (lines, raiseLimit width (tokenize isHan s) lim)) := by
  refine ⟨⟨raiseLimit_eq_max width _ lim, raiseLimit_spec width _ lim⟩, ?_, ?_⟩
  · intro fuel lines L h
    exact (WrapString_done_inv width isHan fuel s lim lines L h).1
  · intro hw0 hb
    obtain ⟨_, h2, _⟩ := raiseLimit_spec width (tokenize isHan s) lim
    obtain ⟨R, hR, _, _⟩ := wrapWords_structure width (tokenize isHan s) 1
      (raiseLimit width (tokenize isHan s) lim) defaultPenalty
      (fun w hw => ⟨hw0 w hw, h2 w hw⟩) hb
    exact ⟨R.map (renderLine isHan), fun fuel hf =>
      WrapString_done width isHan fuel s lim R (hR fuel hf)⟩

/-- Witness for C6: the text "ab cde" with the negative limit `-4`, raised to 3,
the width of "cde"; the call returns the two lines "ab " and "cde " and the
limit 3. -/
theorem WrapString_effective_limit_witness :
    ((∀ w ∈ tokenize hanBlock "ab cde".toList, 0 ≤ cellWidth w) ∧
      (((tokenize hanBlock "ab cde".toList).length : Int) - 1) *
          (raiseLimit cellWidth (tokenize hanBlock "ab cde".toList) (-4) *
            raiseLimit cellWidth (tokenize hanBlock "ab cde".toList) (-4)) < 2147483647 ∧
      WrapString cellWidth hanBlock 2 "ab cde".toList (-4) =
        Outcome.done (["ab ".toList, "cde ".toList], 3)) ∧
    (3 : Int) = raiseLimit cellWidth (tokenize hanBlock "ab cde".toList) (-4) ∧
    raiseLimit cellWidth (tokenize hanBlock "ab cde".toList) (-4) =
      ((tokenize hanBlock "ab cde".toList).map cellWidth).foldl max (-4) ∧
    (∀ w ∈ tokenize hanBlock "ab cde".toList,
      cellWidth w ≤ raiseLimit cellWidth (tokenize hanBlock "ab cde".toList) (-4)) ∧
    ∃ lines, ∀ fuel, (tokenize hanBlock "ab cde".toList).length ≤ fuel →
      WrapString cellWidth hanBlock fuel "ab cde".toList (-4) =
        Outcome.done (lines, raiseLimit cellWidth (tokenize hanBlock "ab cde".toList) (-4)) :=
  ⟨⟨by decide, by decide, by decide⟩,
    (WrapString_effective_limit cellWidth hanBlock "ab cde".toList (-4)).2.1 2
      ["ab ".toList, "cde ".toList] 3 (by decide),
    (WrapString_effective_limit cellWidth hanBlock "ab cde".toList (-4)).1.1,
    (WrapString_effective_limit cellWidth hanBlock "ab cde".toList (-4)).1.2.2.1,
    (WrapString_effective_limit cellWidth hanBlock "ab cde".toList (-4)).2.2
      (by decide) (by decide)⟩

/-- C7 (fails in the code): on the text made of "a", a space and a word of 46342
times "b", with the limit 0, the effective limit is 46342 and the only candidate
break costs (46342 - 1)^2 = 2147488281, which is not below `MaxInt32`; `nbrk[0]`
keeps its initial 0 and the final loop of `WrapWords` never advances: no amount of
fuel makes `WrapString` return. -/
theorem WrapString_long_word_never_returns :
    ∀ fuel : Nat,
      WrapString runeCount hanBlock fuel ('a' :: ' ' :: List.replicate 46342 'b') 0 =
        Outcome.outOfFuel :=
  long_word_run (List.replicate 46342 'b') (fun _ hc => (List.mem_replicate.mp hc).2)
    (List.length_replicate _ _)

/-- C8: provided the space and the newline are not Han runes, in the words that
`WrapString` builds from a text every word holding a Han rune is that rune alone,
the words holding a Han rune are the Han runes of the text in text order, and the
words put end to end are the text without its spaces and newlines. In particular,
when "你" and "好" are Han runes and the letters of "world" are not, "你好world"
yields the words "你", "好", "world"; "你" and "好" are rendered as they are and
"world" with one space after it; and when the three words and the two spaces
between them fit within 20 cells, `WrapString("你好world", 20)` returns the single
line "你好world " with the limit 20. -/
theorem tokenize_han_words (width : Str → Int) (isHan : Char → Bool)
    (hsp : isHan ' ' = false) (hnl : isHan '\n' = false) :
    (∀ s : Str,
      (∀ w ∈ tokenize isHan s, (∃ c ∈ w, isHan c = true) → ∃ c, isHan c = true ∧ w = [c]) ∧
      (tokenize isHan s).filter (fun w => w.any isHan) = (s.filter isHan).map (fun c => [c]) ∧
      (tokenize isHan s).flatten =
        s.filter fun c => decide (c ≠ ' ') && decide (c ≠ '\n')) ∧
    (isHan '你' = true → isHan '好' = true → (∀ c ∈ "world".toList, isHan c = false) →
      tokenize isHan "你好world".toList = ["你".toList, "好".toList, "world".toList] ∧
      renderWord isHan "你".toList = "你".toList ∧
      renderWord isHan "好".toList = "好".toList ∧
      renderWord isHan "world".toList = "world ".toList ∧
      (0 ≤ width "你".toList → 0 ≤ width "好".toList → 0 ≤ width "world".toList →
        width "你".toList + 1 + width "好".toList + 1 + width "world".toList ≤ 20 →
        ∀ fuel, WrapString width isHan (fuel + 1) "你好world".toList 20 =
          Outcome.done (["你好world ".toList], 20))) := by
  refine ⟨?_, ?_⟩
  · intro s
    obtain ⟨f1, f2⟩ := segments_inv isHan s
    have h := words_of_pieces isHan hsp hnl (segments isHan s) f2
    rw [← tokenize_eq, f1] at h
    exact h
  · intro h1 h2 h3
    obtain ⟨t1, r1, r2, r3⟩ := example_han_tokens isHan h1 h2 h3
    exact ⟨t1, r1, r2, r3, fun w1 w2 w3 w4 fuel =>
      example_han_run width isHan h1 h2 h3 w1 w2 w3 w4 fuel⟩

/-- Witness for C8: the Han block U+4E00..U+9FFF with two cells for each of its
runes and one cell for any other rune. -/
theorem tokenize_han_words_witness :
    (hanBlock ' ' = false ∧ hanBlock '\n' = false ∧ hanBlock '你' = true ∧
      hanBlock '好' = true ∧ (∀ c ∈ "world".toList, hanBlock c = false) ∧
      cellWidth "你".toList + 1 + cellWidth "好".toList + 1 + cellWidth "world".toList ≤ 20) ∧
    tokenize hanBlock "你好world".toList = ["你".toList, "好".toList, "world".toList] ∧
    WrapString cellWidth hanBlock 1 "你好world".toList 20 =
      Outcome.done (["你好world ".toList], 20) ∧
    (tokenize hanBlock "a你 好b".toList).filter (fun w => w.any hanBlock) =
      ("a你 好b".toList.filter hanBlock).map (fun c => [c]) :=
  ⟨⟨by decide, by decide, by decide, by decide, by decide, by decide⟩,
    ((tokenize_han_words cellWidth hanBlock (by decide) (by decide)).2 (by decide) (by decide)
      (by decide)).1,
    ((tokenize_han_words cellWidth hanBlock (by decide) (by decide)).2 (by decide) (by decide)
      (by decide)).2.2.2.2 (by decide) (by decide) (by decide) (by decide) 0,
    ((tokenize_han_words cellWidth hanBlock (by decide) (by decide)).1 "a你 好b".toList).2.1⟩

/-- C9: on the empty text, `WrapString` returns no line and the limit it was
given, whatever the limit and the fuel. -/
theorem WrapString_empty (width : Str → Int) (isHan : Char → Bool) (fuel : Nat) (lim : Int) :
    WrapString width isHan fuel [] lim = Outcome.done ([], lim) := by
  have h1 : tokenize isHan [] = [] := rfl
  have h2 : WrapWords width fuel [] 1 lim defaultPenalty = Outcome.done [] := by
    unfold WrapWords collect
    simp
  unfold WrapString
  simp only [h1]
  have h3 : raiseLimit width [] lim = lim := rfl
  rw [h3, h2]
  rfl

/-- C10 (fails as stated): the text "a  b", with two spaces, yields the three
words "a", "" and "b", not the two words that "a b" yields. -/
theorem double_space_yields_empty_word :
    tokenize hanBlock "a  b".toList = ["a".toList, [], "b".toList] ∧
      tokenize hanBlock "a b".toList = ["a".toList, "b".toList] ∧
      tokenize hanBlock "a  b".toList ≠ tokenize hanBlock "a b".toList := by
  decide

/-- C10 (amended): separators do not collapse. In any text, a run of `k ≥ 1` spaces
and newlines standing between two stretches `u` and `v` free of spaces, newlines
and Han runes, where `u` starts a word (it follows the start of the text, a
separator or a Han rune) and `v` ends one (it precedes the end of the text, a
separator or a Han rune), yields the words of the text before `u`, then the word
`u`, then `k - 1` empty words, then the word `v`, then the words of the text after
`v`: only a single separator leaves no empty word. -/
theorem tokenize_separator_run (isHan : Char → Bool) (hsp : isHan ' ' = false)
    (hnl : isHan '\n' = false) (a u seps v b : Str)
    (ha : ∀ c ∈ a.getLast?, c = ' ' ∨ c = '\n' ∨ isHan c = true)
    (hb : ∀ c ∈ b.head?, c = ' ' ∨ c = '\n' ∨ isHan c = true)
    (hu : ∀ c ∈ u, isHan c = false ∧ c ≠ ' ' ∧ c ≠ '\n')
    (hv : ∀ c ∈ v, isHan c = false ∧ c ≠ ' ' ∧ c ≠ '\n')
    (hseps : ∀ c ∈ seps, c = ' ' ∨ c = '\n') (hne : seps ≠ []) :
    tokenize isHan (a ++ u ++ seps ++ v ++ b) =
      wordsBefore isHan a ++
        u :: (List.replicate (seps.length - 1) [] ++ v :: wordsAfter isHan b) :=
  tokenize_around_run isHan hsp hnl a u seps v b ha hb hu hv hseps hne

/-- Witness for C10 (amended): in the text "你a b \n c d", the run of a space, a
newline and a space between "b" and "c" yields two empty words: the words are
"你", "a", "b", "", "", "c" and "d". -/
theorem tokenize_separator_run_witness :
    ((∀ c ∈ "你a ".toList.getLast?, c = ' ' ∨ c = '\n' ∨ hanBlock c = true) ∧
      (∀ c ∈ " d".toList.head?, c = ' ' ∨ c = '\n' ∨ hanBlock c = true) ∧
      (∀ c ∈ "b".toList, hanBlock c = false ∧ c ≠ ' ' ∧ c ≠ '\n') ∧
      (∀ c ∈ "c".toList, hanBlock c = false ∧ c ≠ ' ' ∧ c ≠ '\n') ∧
      (∀ c ∈ " \n ".toList, c = ' ' ∨ c = '\n') ∧ " \n ".toList ≠ []) ∧
    tokenize hanBlock ("你a ".toList ++ "b".toList ++ " \n ".toList ++ "c".toList ++ " d".toList) =
      wordsBefore hanBlock "你a ".toList ++
        "b".toList :: (List.replicate (" \n ".toList.length - 1) [] ++
          "c".toList :: wordsAfter hanBlock " d".toList) ∧
    wordsBefore hanBlock "你a ".toList = ["你".toList, "a".toList] ∧
    wordsAfter hanBlock " d".toList = ["d".toList] ∧
    tokenize hanBlock "你a b \n c d".toList =
      ["你".toList, "a".toList, "b".toList, [], [], "c".toList, "d".toList] :=
  ⟨⟨by decide, by decide, by decide, by decide, by decide, by decide⟩,
    tokenize_separator_run hanBlock (by decide) (by decide) "你a ".toList "b".toList
      " \n ".toList "c".toList " d".toList (by decide) (by decide) (by decide) (by decide)
      (by decide) (by decide),
    by decide, by decide, by decide⟩

/-- C11 (fails as stated): `nbrk[i]` is the first break whose cost as the code
computes it is the least, and an overflowing square makes that differ from the
cost as the claim writes it. With the words "a", "b", "c", `spc = 2^32`,
`lim = 2^32 + 1` and `pen = 100000`, the three words do not fit on one line, the
break after "a" costs `(lim - 1)^2 + cost[1] = 2^64` and the break after "b"
costs `1 + cost[2] + pen = 100001`, below `2^31 - 1`, so the least `j` attaining
the minimum is 2; yet `nbrk[0] = 1` and the first line returned is "a" alone.
With the words "a", a word of 4294967292 times "b", "cccc" and "d", `spc = 1`,
`lim = 2^32 + 1` and `pen = 5`, the breaks after the second and after the third
word tie at the minimal cost 9 and the break after "a" costs `2^64`; yet
`nbrk[0] = 1`, not the earlier of the two tied breaks, and the first line
returned is "a" alone. -/
theorem first_cheapest_break_missed_on_overflow :
    (¬ length runeCount [['a'], ['b'], ['c']] 4294967296 0 2 ≤ 4294967297 ∧
      breakCostBySpec (length runeCount [['a'], ['b'], ['c']] 4294967296) 4294967297 100000
        (costAt (fillTables (length runeCount [['a'], ['b'], ['c']] 4294967296)
          4294967297 100000 3)) 0 1 = 18446744073709551616 ∧
      breakCostBySpec (length runeCount [['a'], ['b'], ['c']] 4294967296) 4294967297 100000
        (costAt (fillTables (length runeCount [['a'], ['b'], ['c']] 4294967296)
          4294967297 100000 3)) 0 2 = 100001 ∧
      nbrkAt (fillTables (length runeCount [['a'], ['b'], ['c']] 4294967296)
        4294967297 100000 3) 0 = 1 ∧
      ∀ fuel : Nat,
        WrapWords runeCount (fuel + 3) [['a'], ['b'], ['c']] 4294967296 4294967297 100000 =
          Outcome.done [[['a']], [['b']], [['c']]]) ∧
    (¬ length runeCount [['a'], List.replicate 4294967292 'b', "cccc".toList, ['d']] 1 0 3 ≤
        4294967297 ∧
      breakCostBySpec
        (length runeCount [['a'], List.replicate 4294967292 'b', "cccc".toList, ['d']] 1)
        4294967297 5
        (costAt (fillTables
          (length runeCount [['a'], List.replicate 4294967292 'b', "cccc".toList, ['d']] 1)
          4294967297 5 4)) 0 1 = 18446744073709551616 ∧
      breakCostBySpec
        (length runeCount [['a'], List.replicate 4294967292 'b', "cccc".toList, ['d']] 1)
        4294967297 5
        (costAt (fillTables
          (length runeCount [['a'], List.replicate 4294967292 'b', "cccc".toList, ['d']] 1)
          4294967297 5 4)) 0 2 = 9 ∧
      breakCostBySpec
        (length runeCount [['a'], List.replicate 4294967292 'b', "cccc".toList, ['d']] 1)
        4294967297 5
        (costAt (fillTables
          (length runeCount [['a'], List.replicate 4294967292 'b', "cccc".toList, ['d']] 1)
          4294967297 5 4)) 0 3 = 9 ∧
      nbrkAt (fillTables
        (length runeCount [['a'], List.replicate 4294967292 'b', "cccc".toList, ['d']] 1)
        4294967297 5 4) 0 = 1 ∧
      ∀ fuel : Nat,
        WrapWords runeCount (fuel + 3)
            [['a'], List.replicate 4294967292 'b', "cccc".toList, ['d']] 1 4294967297 5 =
          Outcome.done [[['a']], [List.replicate 4294967292 'b', "cccc".toList], [['d']]]) := by
  refine ⟨⟨by decide, by decide, by decide, by decide, ?_⟩, ?_⟩
  · intro fuel
    have ht : (fillTables (length runeCount [['a'], ['b'], ['c']] 4294967296) 4294967297
        100000 3).nbrk = [1, 2, 3] := by decide
    show collect _ (fillTables (length runeCount [['a'], ['b'], ['c']] 4294967296) 4294967297
      100000 3).nbrk (fuel + 3) 0 [] = _
    rw [ht]
    simp only [collect, slice]
    unfold collect
    simp
  · obtain ⟨h1, h2, h3, h4, h5⟩ := tie_overflow_costs _ (List.length_replicate 4294967292 'b')
    exact ⟨h1, h2, h3, h4, h5,
      fun fuel => tie_overflow_run _ (List.length_replicate 4294967292 'b') fuel⟩

/-- C11 (amended): let `0 ≤ pen < 2^62` and let every entry `length[i][j-1]` of a
candidate line lie within `2^30` of `lim`, so that no operation on the costs
overflows. When the words from index `i` on do not fit on one line and some
break `j1` in `(i, n)` costs less than `2^31 - 1`, the cost of a break `j` being
`(lim - length[i][j-1])^2 + cost[j]`, plus `pen` when `length[i][j-1] > lim`, then
`nbrk[i]` is a break in `(i, n)` whose cost is the least of all and strictly less
than that of every earlier break, so it is at most every break of least cost: of
two breaks with the same least cost the earlier one is taken; `cost[i]` is that
least cost; in every grouping that `WrapWords` returns, a line that stands after
lines holding `i` words is `words[i:nbrk[i]]` and the next line starts at
`nbrk[i]`; and when moreover no word is wider than `lim`, no width is negative and
`(n - 1) * lim^2 < 2^31 - 1`, `WrapWords` does return (with fuel for one pass per
word), its first line being `words[0:nbrk[0]]`. -/
theorem nbrk_is_first_cheapest_break (width : Str → Int) (words : List Str)
    (spc lim pen : Int) (i j1 : Nat)
    (ht : Tame (length width words spc) lim pen words.length)
    (hnofit : ¬ length width words spc i (words.length - 1) ≤ lim)
    (hij : i < j1) (hjn : j1 < words.length)
    (hc : breakCostBySpec (length width words spc) lim pen
      (costAt (fillTables (length width words spc) lim pen words.length)) i j1 < 2147483647) :
    (i < nbrkAt (fillTables (length width words spc) lim pen words.length) i ∧
      nbrkAt (fillTables (length width words spc) lim pen words.length) i < words.length) ∧
    (∀ j, i < j → j < words.length →
      breakCostBySpec (length width words spc) lim pen
          (costAt (fillTables (length width words spc) lim pen words.length)) i
          (nbrkAt (fillTables (length width words spc) lim pen words.length) i) ≤
        breakCostBySpec (length width words spc) lim pen
          (costAt (fillTables (length width words spc) lim pen words.length)) i j) ∧
    (∀ j, i < j → j < nbrkAt (fillTables (length width words spc) lim pen words.length) i →
      breakCostBySpec (length width words spc) lim pen
          (costAt (fillTables (length width words spc) lim pen words.length)) i
          (nbrkAt (fillTables (length width words spc) lim pen words.length) i) <
        breakCostBySpec (length width words spc) lim pen
          (costAt (fillTables (length width words spc) lim pen words.length)) i j) ∧
    (∀ j0, i < j0 → j0 < words.length →
      (∀ j, i < j → j < words.length →
        breakCostBySpec (length width words spc) lim pen
            (costAt (fillTables (length width words spc) lim pen words.length)) i j0 ≤
          breakCostBySpec (length width words spc) lim pen
            (costAt (fillTables (length width words spc) lim pen words.length)) i j) →
      nbrkAt (fillTables (length width words spc) lim pen words.length) i ≤ j0) ∧
    costAt (fillTables (length width words spc) lim pen words.length) i =
      breakCostBySpec (length width words spc) lim pen
        (costAt (fillTables (length width words spc) lim pen words.length)) i
        (nbrkAt (fillTables (length width words spc) lim pen words.length) i) ∧
    (∀ fuel R A l B, WrapWords width fuel words spc lim pen = Outcome.done R →
      R = A ++ l :: B → A.flatten.length = i →
      l = slice words i (nbrkAt (fillTables (length width words spc) lim pen words.length) i) ∧
        (A ++ [l]).flatten.length =
          nbrkAt (fillTables (length width words spc) lim pen words.length) i) ∧
    ((∀ w ∈ words, 0 ≤ width w ∧ width w ≤ lim) →
      ((words.length : Int) - 1) * (lim * lim) < 2147483647 →
      ∃ R, (∀ fuel, words.length ≤ fuel →
          WrapWords width fuel words spc lim pen = Outcome.done R) ∧
        ∃ B, R = slice words 0
          (nbrkAt (fillTables (length width words spc) lim pen words.length) 0) :: B) := by
  have hspec := candidate_eq_spec (length width words spc) lim pen words.length ht
  have hc2 : candidate (length width words spc) lim pen i j1
      (costAt (fillTables (length width words spc) lim pen words.length) j1) < MaxInt32 := by
    rw [hspec i j1 hij hjn]
    exact hc
  obtain ⟨b1, b2, b3, b4, b5⟩ := earliest_break (length width words spc) lim pen words.length
    i j1 hnofit hij hjn hc2
  rw [hspec i _ b1 b2] at b3
  refine ⟨⟨b1, b2⟩, ?_, ?_, ?_, b3, ?_, ?_⟩
  · intro j h1 h2
    rw [← b3, ← hspec i j h1 h2]
    exact b4 j h1 h2
  · intro j h1 h2
    rw [← b3, ← hspec i j h1 (by omega)]
    exact b5 j h1 h2
  · intro j0 h1 h2 hmin
    by_contra hlt
    have hb := b5 j0 h1 (by omega)
    rw [hspec i j0 h1 h2, b3] at hb
    exact absurd hb (not_lt.mpr (hmin _ b1 b2))
  · intro fuel R A l B hrun e hA
    obtain ⟨r1, r2⟩ := wrapWords_line_at width fuel words spc lim pen R A l B hrun e
    rw [hA] at r1 r2
    exact ⟨r1, r2.symm⟩
  · intro hw hb
    obtain ⟨R, hR, hchain, _⟩ := wrapWords_structure width words spc lim pen hw hb
    refine ⟨R, hR, ?_⟩
    cases hchain with
    | stop _ h => omega
    | line _ R1 _ _ _ _ => exact ⟨R1, rfl⟩

/-- Witness for C11 (amended): the words "a", "bb", "c", "dddd" with `spc = 1`,
`lim = 5` and `pen = 100000`; the breaks after "a" and after "bb" both cost 17,
the break after "c" costs 100001, `nbrk[0] = 1`, and the first of the three lines
returned is "a" alone. -/
theorem nbrk_is_first_cheapest_break_witness :
    (Tame (length runeCount ["a".toList, "bb".toList, "c".toList, "dddd".toList] 1) 5 100000
        ["a".toList, "bb".toList, "c".toList, "dddd".toList].length ∧
      ¬ length runeCount ["a".toList, "bb".toList, "c".toList, "dddd".toList] 1 0
        (["a".toList, "bb".toList, "c".toList, "dddd".toList].length - 1) ≤ 5 ∧
      breakCostBySpec (length runeCount ["a".toList, "bb".toList, "c".toList, "dddd".toList] 1)
        5 100000 (costAt (fillTables (length runeCount
          ["a".toList, "bb".toList, "c".toList, "dddd".toList] 1) 5 100000 4)) 0 1 = 17 ∧
      breakCostBySpec (length runeCount ["a".toList, "bb".toList, "c".toList, "dddd".toList] 1)
        5 100000 (costAt (fillTables (length runeCount
          ["a".toList, "bb".toList, "c".toList, "dddd".toList] 1) 5 100000 4)) 0 2 = 17 ∧
      breakCostBySpec (length runeCount ["a".toList, "bb".toList, "c".toList, "dddd".toList] 1)
        5 100000 (costAt (fillTables (length runeCount
          ["a".toList, "bb".toList, "c".toList, "dddd".toList] 1) 5 100000 4)) 0 3 = 100001 ∧
      nbrkAt (fillTables (length runeCount
        ["a".toList, "bb".toList, "c".toList, "dddd".toList] 1) 5 100000 4) 0 = 1 ∧
      WrapWords runeCount 4 ["a".toList, "bb".toList, "c".toList, "dddd".toList] 1 5 100000 =
        Outcome.done [["a".toList], ["bb".toList, "c".toList], ["dddd".toList]]) ∧
    (∀ j0, 0 < j0 → j0 < ["a".toList, "bb".toList, "c".toList, "dddd".toList].length →
      (∀ j, 0 < j → j < ["a".toList, "bb".toList, "c".toList, "dddd".toList].length →
        breakCostBySpec
            (length runeCount ["a".toList, "bb".toList, "c".toList, "dddd".toList] 1) 5 100000
            (costAt (fillTables (length runeCount
              ["a".toList, "bb".toList, "c".toList, "dddd".toList] 1) 5 100000
              ["a".toList, "bb".toList, "c".toList, "dddd".toList].length)) 0 j0 ≤
          breakCostBySpec
            (length runeCount ["a".toList, "bb".toList, "c".toList, "dddd".toList] 1) 5 100000
            (costAt (fillTables (length runeCount
              ["a".toList, "bb".toList, "c".toList, "dddd".toList] 1) 5 100000
              ["a".toList, "bb".toList, "c".toList, "dddd".toList].length)) 0 j) →
      nbrkAt (fillTables (length runeCount
        ["a".toList, "bb".toList, "c".toList, "dddd".toList] 1) 5 100000
        ["a".toList, "bb".toList, "c".toList, "dddd".toList].length) 0 ≤ j0) ∧
    (["a".toList] = slice ["a".toList, "bb".toList, "c".toList, "dddd".toList] 0
        (nbrkAt (fillTables (length runeCount
          ["a".toList, "bb".toList, "c".toList, "dddd".toList] 1) 5 100000
          ["a".toList, "bb".toList, "c".toList, "dddd".toList].length) 0) ∧
      (([] : List (List Str)) ++ [["a".toList]]).flatten.length =
        nbrkAt (fillTables (length runeCount
          ["a".toList, "bb".toList, "c".toList, "dddd".toList] 1) 5 100000
          ["a".toList, "bb".toList, "c".toList, "dddd".toList].length) 0) :=
  ⟨⟨(ranges_of_nonneg runeCount ["a".toList, "bb".toList, "c".toList, "dddd".toList] 1 5
        100000 (by decide) (by decide) (by decide) (by decide) (by decide) (by decide)
        (by decide)).2,
      by decide, by decide, by decide, by decide, by decide, by decide⟩,
    (nbrk_is_first_cheapest_break runeCount
      ["a".toList, "bb".toList, "c".toList, "dddd".toList] 1 5 100000 0 1
      (ranges_of_nonneg runeCount ["a".toList, "bb".toList, "c".toList, "dddd".toList] 1 5
        100000 (by decide) (by decide) (by decide) (by decide) (by decide) (by decide)
        (by decide)).2
      (by decide) (by decide) (by decide) (by decide)).2.2.2.1,
    (nbrk_is_first_cheapest_break runeCount
      ["a".toList, "bb".toList, "c".toList, "dddd".toList] 1 5 100000 0 1
      (ranges_of_nonneg runeCount ["a".toList, "bb".toList, "c".toList, "dddd".toList] 1 5
        100000 (by decide) (by decide) (by decide) (by decide) (by decide) (by decide)
        (by decide)).2
      (by decide) (by decide) (by decide) (by decide)).2.2.2.2.2.1 4
      [["a".toList], ["bb".toList, "c".toList], ["dddd".toList]] [] ["a".toList]
      [["bb".toList, "c".toList], ["dddd".toList]] (by decide) (by decide) (by decide)⟩

/-- C12: every line string returned by `WrapString` is the renderings of the words
of the corresponding line of `WrapWords`, put end to end in order with nothing in
between, where an empty word is rendered as a single space, a word whose last rune
is Han as itself, and any other word as itself followed by one space. -/
theorem WrapString_lines_are_rendered_words (width : Str → Int) (isHan : Char → Bool)
    (fuel : Nat) (s : Str) (lim : Int) (lines : List Str) (L : Int)
    (h : WrapString width isHan fuel s lim = Outcome.done (lines, L)) :
    ∃ R, WrapWords width fuel (tokenize isHan s) 1 L defaultPenalty = Outcome.done R ∧
      lines = R.map (fun line => (line.map (renderBySpec isHan)).flatten) := by
  obtain ⟨hL, R, hR, hlines⟩ := WrapString_done_inv width isHan fuel s lim lines L h
  refine ⟨R, by rw [hL]; exact hR, ?_⟩
  rw [hlines]
  apply List.map_congr_left
  intro line _
  unfold renderLine
  congr 1
  apply List.map_congr_left
  intro w _
  exact renderWord_eq_spec isHan w

/-- Witness for C12: the text "你好 a  b" with the limit 4, in cells of `cellWidth`,
wrapped into the lines "你", "好 " and "a  b " (the words "你", then "好" and "",
then "a", "" and "b"). -/
theorem WrapString_lines_are_rendered_words_witness :
    WrapString cellWidth hanBlock 3 "你好 a  b".toList 4 =
        Outcome.done (["你".toList, "好 ".toList, "a  b ".toList], 4) ∧
    ∃ R, WrapWords cellWidth 3 (tokenize hanBlock "你好 a  b".toList) 1 4 defaultPenalty =
        Outcome.done R ∧
      ["你".toList, "好 ".toList, "a  b ".toList] =
        R.map (fun line => (line.map (renderBySpec hanBlock)).flatten) :=
  ⟨by decide,
    WrapString_lines_are_rendered_words cellWidth hanBlock 3 "你好 a  b".toList 4
      ["你".toList, "好 ".toList, "a  b ".toList] 4 (by decide)⟩

/-- C13 (fails as stated): with the words "a", a word of 4294967294 times "b" and
"c", `spc = 1`, `lim = 4294967297` and `pen = 100000`, the partition "a b" / "c"
has its final line within the limit and costs `(lim - 4294967296)^2 = 1`, yet
`WrapWords` returns "a" / "b c", which costs `(lim - 1)^2 = 2^64`: in the 64-bit
`int` that square is 0, and the break after "a" is taken for the cheapest. Reading
the squares as the `int` values of `d*d` does not help: with the words "a", "b"
and `lim = 3037000501`, `WrapWords` returns the single line "a b", of cost 0,
while the `int` square of the slack of the line "a" in the partition "a" / "b" is
negative. -/
theorem dp_not_optimal_when_square_overflows :
    ((∀ fuel, WrapWords runeCount (fuel + 2) [['a'], List.replicate 4294967294 'b', ['c']] 1
        4294967297 100000 =
          Outcome.done [[['a']], [List.replicate 4294967294 'b', ['c']]]) ∧
      ((∀ w ∈ [['a'], List.replicate 4294967294 'b', ['c']], 0 ≤ runeCount w) ∧
        IsPartition [['a'], List.replicate 4294967294 'b', ['c']]
          [[['a'], List.replicate 4294967294 'b'], [['c']]] ∧
        LastFits runeCount 1 4294967297 [[['a'], List.replicate 4294967294 'b'], [['c']]] ∧
        raggedness runeCount 1 4294967297 100000
          [[['a'], List.replicate 4294967294 'b'], [['c']]].dropLast = 1 ∧
        raggedness runeCount 1 4294967297 100000
          [[['a']], [List.replicate 4294967294 'b', ['c']]].dropLast =
            18446744073709551616)) ∧
    ((∀ fuel, WrapWords runeCount (fuel + 1) [['a'], ['b']] 1 3037000501 100000 =
        Outcome.done [[['a'], ['b']]]) ∧
      IsPartition [['a'], ['b']] [[['a']], [['b']]] ∧
      LastFits runeCount 1 3037000501 [[['a']], [['b']]] ∧
      wrapInt ((3037000501 - lineWidth runeCount 1 [['a']]) *
        (3037000501 - lineWidth runeCount 1 [['a']])) < 0) :=
  ⟨⟨fun fuel => square_overflow_run _ (List.length_replicate _ _) fuel,
      square_overflow_costs _ (List.length_replicate _ _)⟩,
    fun fuel => wrapWords_one_line runeCount [['a'], ['b']] 1 3037000501 100000 (by decide)
      (by decide) fuel,
    ⟨by decide, by decide⟩, by unfold LastFits; decide, by decide⟩

/-- C13 (amended): take as the cost of a partition of the words into non-empty
contiguous lines whose final line fits within `lim` the sum, over every line but
the final one, of `(lim - line width)^2`, plus `pen` once if that line is wider
than `lim`. For non-negative widths and `0 ≤ pen < 2^62`, when the natural width
of every candidate line is within `2^61` of zero and within `2^30` of `lim` (so
that no `int` operation overflows), if some such partition costs less than
`2^31 - 1`, then `WrapWords` returns such a partition (with fuel for one pass per
word) and its cost is the least over all of them; and for every `i < n`, `cost[i]`
is 0 when the words from `i` on fit on one line, is at most the cost of any such
partition of the words from `i` on that costs less than `2^31 - 1`, and is the cost
of one of them when it is itself below `2^31 - 1`. -/
theorem WrapWords_dp_optimal_in_range (width : Str → Int) (words : List Str)
    (spc lim pen : Int) (hw : ∀ w ∈ words, 0 ≤ width w)
    (hpen0 : 0 ≤ pen) (hpen : pen < 4611686018427387904)
    (hr : WidthsInRange width words spc)
    (hd : ∀ i j, i ≤ j → j < words.length →
      -1073741824 ≤ lim - lineWidth width spc (slice words i (j + 1)) ∧
        lim - lineWidth width spc (slice words i (j + 1)) ≤ 1073741824)
    (P0 : List (List Str)) (hP0 : IsPartition words P0) (hfit0 : LastFits width spc lim P0)
    (hcost0 : raggedness width spc lim pen P0.dropLast < 2147483647) :
    (∃ R, (∀ fuel, words.length ≤ fuel →
        WrapWords width fuel words spc lim pen = Outcome.done R) ∧
      IsPartition words R ∧ LastFits width spc lim R ∧
      ∀ P, IsPartition words P → LastFits width spc lim P →
        raggedness width spc lim pen R.dropLast ≤ raggedness width spc lim pen P.dropLast) ∧
    ∀ i, i < words.length →
      (lineWidth width spc (words.drop i) ≤ lim →
        costAt (fillTables (length width words spc) lim pen words.length) i = 0) ∧
      (∀ P, IsPartition (words.drop i) P → LastFits width spc lim P →
        raggedness width spc lim pen P.dropLast < 2147483647 →
        costAt (fillTables (length width words spc) lim pen words.length) i ≤
          raggedness width spc lim pen P.dropLast) ∧
      (costAt (fillTables (length width words spc) lim pen words.length) i < 2147483647 →
        ∃ P, IsPartition (words.drop i) P ∧ LastFits width spc lim P ∧
          raggedness width spc lim pen P.dropLast =
            costAt (fillTables (length width words spc) lim pen words.length) i) := by
  have _ := hw
  have ht := tame_of_widths width words spc lim pen hr hd hpen0 hpen
  exact ⟨wrapWords_optimal width words spc lim pen hr ht P0 hP0 hfit0 hcost0,
    fun i hi => cost_is_minimum width words spc lim pen hr ht i hi⟩

/-- Witness for C13 (amended): the words "a", "bb", "c", "dddd" with `spc = 1`,
`lim = 5`, `pen = 100000` and the partition "a" / "bb c" / "dddd", of cost 17. -/
theorem WrapWords_dp_optimal_in_range_witness :
    ((∀ w ∈ ["a".toList, "bb".toList, "c".toList, "dddd".toList], 0 ≤ runeCount w) ∧
      lineWidth runeCount 1 ["a".toList, "bb".toList, "c".toList, "dddd".toList] ≤ 1073741824 ∧
      IsPartition ["a".toList, "bb".toList, "c".toList, "dddd".toList]
        [["a".toList], ["bb".toList, "c".toList], ["dddd".toList]] ∧
      raggedness runeCount 1 5 100000
        [["a".toList], ["bb".toList, "c".toList], ["dddd".toList]].dropLast = 17) ∧
    ∃ R, (∀ fuel, ["a".toList, "bb".toList, "c".toList, "dddd".toList].length ≤ fuel →
        WrapWords runeCount fuel ["a".toList, "bb".toList, "c".toList, "dddd".toList] 1 5
          100000 = Outcome.done R) ∧
      IsPartition ["a".toList, "bb".toList, "c".toList, "dddd".toList] R ∧
      LastFits runeCount 1 5 R ∧
      ∀ P, IsPartition ["a".toList, "bb".toList, "c".toList, "dddd".toList] P →
        LastFits runeCount 1 5 P →
        raggedness runeCount 1 5 100000 R.dropLast ≤ raggedness runeCount 1 5 100000 P.dropLast :=
  ⟨⟨by decide, by decide, ⟨by decide, by decide⟩, by decide⟩,
    (WrapWords_dp_optimal_in_range runeCount
      ["a".toList, "bb".toList, "c".toList, "dddd".toList] 1 5 100000 (by decide) (by decide)
      (by decide)
      (ranges_of_nonneg runeCount ["a".toList, "bb".toList, "c".toList, "dddd".toList] 1 5
        100000 (by decide) (by decide) (by decide) (by decide) (by decide) (by decide)
        (by decide)).1
      (gaps_of_nonneg runeCount ["a".toList, "bb".toList, "c".toList, "dddd".toList] 1 5
        (by decide) (by decide) (by decide) (by decide) (by decide))
      [["a".toList], ["bb".toList, "c".toList], ["dddd".toList]] ⟨by decide, by decide⟩
      (by unfold LastFits; decide) (by decide)).1⟩


/-- C14: for non-negative widths, if no word is wider than `lim` and
`(n - 1) * lim^2 < 2^31 - 1`, then for every spacing and penalty `WrapWords`
returns (with fuel for one pass per word) the lines found by following `nbrk` from
the first word: each line is the non-empty slice `words[i:nbrk[i]]` with
`i < nbrk[i] ≤ n`, the next line starts at `nbrk[i]`, the last one ends at `n`, and
the lines put end to end are the words. -/
theorem WrapWords_lines_are_adjacent_slices (width : Str → Int) (words : List Str)
    (spc lim pen : Int) (hw : ∀ w ∈ words, 0 ≤ width w ∧ width w ≤ lim)
    (hb : ((words.length : Int) - 1) * (lim * lim) < 2147483647) :
    ∃ R, (∀ fuel, words.length ≤ fuel →
        WrapWords width fuel words spc lim pen = Outcome.done R) ∧
      Chain words (nbrkAt (fillTables (length width words spc) lim pen words.length)) 0 R ∧
      R.flatten = words ∧ ∀ l ∈ R, l ≠ [] := by
  obtain ⟨R, h1, h2, h3⟩ := wrapWords_structure width words spc lim pen hw hb
  exact ⟨R, h1, h2, h3.1, h3.2⟩

/-- Witness for C14: the words "a", "bb", "c", "dddd" with `spc = 1`, `lim = 5` and
`pen = 100000` are returned on the three lines `words[0:1]`, `words[1:3]` and
`words[3:4]`, with `nbrk[0] = 1`, `nbrk[1] = 3` and `nbrk[3] = 4`. -/
theorem WrapWords_lines_are_adjacent_slices_witness :
    ((∀ w ∈ ["a".toList, "bb".toList, "c".toList, "dddd".toList],
        0 ≤ runeCount w ∧ runeCount w ≤ 5) ∧
      ((["a".toList, "bb".toList, "c".toList, "dddd".toList].length : Int) - 1) * (5 * 5) <
        2147483647) ∧
    (∀ fuel, ["a".toList, "bb".toList, "c".toList, "dddd".toList].length ≤ fuel →
      WrapWords runeCount fuel ["a".toList, "bb".toList, "c".toList, "dddd".toList] 1 5 100000 =
        Outcome.done [["a".toList], ["bb".toList, "c".toList], ["dddd".toList]]) ∧
    Chain ["a".toList, "bb".toList, "c".toList, "dddd".toList]
      (nbrkAt (fillTables (length runeCount ["a".toList, "bb".toList, "c".toList, "dddd".toList]
        1) 5 100000 ["a".toList, "bb".toList, "c".toList, "dddd".toList].length)) 0
      [["a".toList], ["bb".toList, "c".toList], ["dddd".toList]] ∧
    (nbrkAt (fillTables (length runeCount ["a".toList, "bb".toList, "c".toList, "dddd".toList]
        1) 5 100000 4) 0 = 1 ∧
      nbrkAt (fillTables (length runeCount ["a".toList, "bb".toList, "c".toList, "dddd".toList]
        1) 5 100000 4) 1 = 3 ∧
      nbrkAt (fillTables (length runeCount ["a".toList, "bb".toList, "c".toList, "dddd".toList]
        1) 5 100000 4) 3 = 4) ∧
    [["a".toList], ["bb".toList, "c".toList], ["dddd".toList]].flatten =
      ["a".toList, "bb".toList, "c".toList, "dddd".toList] ∧
    ∀ l ∈ [["a".toList], ["bb".toList, "c".toList], ["dddd".toList]], l ≠ [] := by
  obtain ⟨R, h1, h2, h3, h4⟩ :=
    WrapWords_lines_are_adjacent_slices runeCount
      ["a".toList, "bb".toList, "c".toList, "dddd".toList] 1 5 100000 (by decide) (by decide)
  have e : WrapWords runeCount 4 ["a".toList, "bb".toList, "c".toList, "dddd".toList] 1 5
      100000 = Outcome.done [["a".toList], ["bb".toList, "c".toList], ["dddd".toList]] := by
    decide
  have hR : R = [["a".toList], ["bb".toList, "c".toList], ["dddd".toList]] := by
    have h := h1 4 (by decide)
    rw [e] at h
    injection h with h
    exact h.symm
  subst hR
  exact ⟨⟨by decide, by decide⟩, h1, h2, ⟨by decide, by decide, by decide⟩, h3, h4⟩

/-- C15 (fails as stated): for the words "a", "b", "c" with the spacing
`-2^63` and `lim = 1`, the total natural width, the sum `3 - 2^64` of the widths
and of the spacing between neighbours, is below `lim`, yet the `int` the code
holds in `length[0][2]` has wrapped to `3`, above `lim`, and `WrapWords` returns
the two lines "a" and "b", "c" instead of the whole word list on one line. -/
theorem WrapWords_two_lines_though_sum_fits :
    ["a".toList, "b".toList, "c".toList] ≠ [] ∧
      lineWidth runeCount (-9223372036854775808) ["a".toList, "b".toList, "c".toList] =
        3 - 18446744073709551616 ∧
      lineWidth runeCount (-9223372036854775808) ["a".toList, "b".toList, "c".toList] ≤ 1 ∧
      length runeCount ["a".toList, "b".toList, "c".toList] (-9223372036854775808) 0 2 = 3 ∧
      (∀ fuel : Nat,
        WrapWords runeCount (fuel + 2) ["a".toList, "b".toList, "c".toList]
            (-9223372036854775808) 1 100000 =
          Outcome.done [["a".toList], ["b".toList, "c".toList]]) ∧
      ∀ fuel : Nat,
        WrapWords runeCount fuel ["a".toList, "b".toList, "c".toList]
            (-9223372036854775808) 1 100000 ≠
          Outcome.done [["a".toList, "b".toList, "c".toList]] := by
  have ht : (fillTables (length runeCount ["a".toList, "b".toList, "c".toList]
      (-9223372036854775808)) 1 100000 3).nbrk = [1, 3, 3] := by decide
  have hrun : ∀ fuel : Nat,
      WrapWords runeCount (fuel + 2) ["a".toList, "b".toList, "c".toList]
          (-9223372036854775808) 1 100000 =
        Outcome.done [["a".toList], ["b".toList, "c".toList]] := by
    intro fuel
    show collect _ (fillTables (length runeCount ["a".toList, "b".toList, "c".toList]
      (-9223372036854775808)) 1 100000 3).nbrk (fuel + 2) 0 [] = _
    rw [ht]
    simp only [collect, slice]
    unfold collect
    simp
  refine ⟨by decide, by decide, by decide, by decide, hrun, ?_⟩
  intro fuel
  match fuel with
  | 0 => decide
  | 1 => decide
  | k + 2 =>
    rw [hrun k]
    decide

/-- C15 (amended): for a non-empty word list whose total natural width is at most
`lim`, `WrapWords` returns exactly one line, the whole word list, for every penalty
and as soon as the fuel allows one pass of the final loop, where the total natural
width is the sum of the widths and of `spc` between neighbours either as the `int`
the code holds in `length[0][n-1]`, or as the sum over the integers `lineWidth`
when that sum cannot overflow, be it that the widths of all candidate lines are
within `2^61` of zero or that widths and spacing are non-negative and `lim` is an
`int`. -/
theorem WrapWords_single_line (width : Str → Int) (words : List Str) (spc lim pen : Int)
    (hne : words ≠ [])
    (hfit : length width words spc 0 (words.length - 1) ≤ lim ∨
      (WidthsInRange width words spc ∧ lineWidth width spc words ≤ lim) ∨
      ((∀ w ∈ words, 0 ≤ width w) ∧ 0 ≤ spc ∧ lim < 9223372036854775808 ∧
        lineWidth width spc words ≤ lim))
    (fuel : Nat) :
    WrapWords width (fuel + 1) words spc lim pen = Outcome.done [words] := by
  apply wrapWords_one_line width words spc lim pen hne
  rcases hfit with h | ⟨hr, h⟩ | ⟨hw, hspc, hlim, h⟩
  · exact h
  · rw [length_total width words spc hr hne]
    exact h
  · rw [length_total_of_nonneg width words spc hw hspc (by omega) hne]
    exact h

/-- Witness for C15 (amended): the words "aa", "bbb", "c" with `spc = 1`, total width 8, and
`lim = 8`. -/
theorem WrapWords_single_line_witness :
    (["aa".toList, "bbb".toList, "c".toList] ≠ [] ∧
      (∀ w ∈ ["aa".toList, "bbb".toList, "c".toList], 0 ≤ runeCount w) ∧
      lineWidth runeCount 1 ["aa".toList, "bbb".toList, "c".toList] ≤ 8) ∧
    WrapWords runeCount (0 + 1) ["aa".toList, "bbb".toList, "c".toList] 1 8 100000 =
      Outcome.done [["aa".toList, "bbb".toList, "c".toList]] :=
  ⟨⟨by decide, by decide, by decide⟩,
    WrapWords_single_line runeCount ["aa".toList, "bbb".toList, "c".toList] 1 8 100000
      (by decide) (Or.inr (Or.inr ⟨by decide, by decide, by decide, by decide⟩)) 0⟩

/-- C16: for a non-empty text without Han runes and a non-negative width, with `n`
the number of words and `L` the effective limit, if `(n - 1) * L^2 < 2^31 - 1` then
`WrapString` returns (with fuel for one pass per word) and the line strings it
returns, put end to end in order, are the text with a space for each newline,
followed by one more space. -/
theorem WrapString_round_trip (width : Str → Int) (isHan : Char → Bool) (s : Str) (lim : Int)
    (hnn : ∀ a, 0 ≤ width a) (hs : s ≠ []) (hplain : ∀ c ∈ s, isHan c = false)
    (hb : (((tokenize isHan s).length : Int) - 1) *
      (raiseLimit width (tokenize isHan s) lim * raiseLimit width (tokenize isHan s) lim) <
        2147483647) :
    ∃ lines, (∀ fuel, (tokenize isHan s).length ≤ fuel →
        WrapString width isHan fuel s lim =
          Outcome.done (lines, raiseLimit width (tokenize isHan s) lim)) ∧
      lines.flatten = (s.map fun c => if c = '\n' then ' ' else c) ++ [' '] := by
  obtain ⟨_, hle, _⟩ := raiseLimit_spec width (tokenize isHan s) lim
  obtain ⟨R, hrun, _, hpart⟩ := wrapWords_structure width (tokenize isHan s) 1
    (raiseLimit width (tokenize isHan s) lim) defaultPenalty
    (fun w hw => ⟨hnn w, hle w hw⟩) hb
  refine ⟨R.map (renderLine isHan), ?_, ?_⟩
  · intro fuel hf
    exact WrapString_done width isHan fuel s lim R (hrun fuel hf)
  · exact rendered_partition isHan s hs hplain R hpart

/-- Witness for C16: the text " ab  c" and a newline, then "de " (leading, doubled
and trailing spaces, one newline) with the limit 3, in cells of `cellWidth`. -/
theorem WrapString_round_trip_witness :
    (" ab  c\nde ".toList ≠ [] ∧ (∀ c ∈ " ab  c\nde ".toList, hanBlock c = false) ∧
      (((tokenize hanBlock " ab  c\nde ".toList).length : Int) - 1) *
        (raiseLimit cellWidth (tokenize hanBlock " ab  c\nde ".toList) 3 *
          raiseLimit cellWidth (tokenize hanBlock " ab  c\nde ".toList) 3) < 2147483647) ∧
    ∃ lines, (∀ fuel, (tokenize hanBlock " ab  c\nde ".toList).length ≤ fuel →
        WrapString cellWidth hanBlock fuel " ab  c\nde ".toList 3 =
          Outcome.done (lines, raiseLimit cellWidth (tokenize hanBlock " ab  c\nde ".toList) 3)) ∧
      lines.flatten =
        (" ab  c\nde ".toList.map fun c => if c = '\n' then ' ' else c) ++ [' '] :=
  ⟨⟨by decide, by decide, by decide⟩,
    WrapString_round_trip cellWidth hanBlock " ab  c\nde ".toList 3 cellWidth_nonneg
      (by decide) (by decide) (by decide)⟩


/-- C17: on the empty word list `WrapWords` returns no line, whatever the spacing,
the limit, the penalty and the fuel. -/
theorem WrapWords_empty (width : Str → Int) (fuel : Nat) (spc lim pen : Int) :
    WrapWords width fuel [] spc lim pen = Outcome.done [] := by
  unfold WrapWords collect
  simp

/-- C18: no word that `WrapString` passes to `WrapWords` holds a space or a
newline. -/
theorem tokenize_words_without_separator (isHan : Char → Bool) (s : Str) :
    ∀ w ∈ tokenize isHan s, ' ' ∉ w ∧ '\n' ∉ w := by
  intro w hw
  obtain ⟨g, _, hwg⟩ := mem_tokenize isHan s w hw
  refine ⟨splitSp_no_space _ w hwg, ?_⟩
  intro hn
  exact replaceNl_no_newline g (mem_splitSp _ w hwg _ hn)


/-- Witness for C18: the word "ab" of the text " ab", newline, "你c ". -/
theorem tokenize_words_without_separator_witness :
    "ab".toList ∈ tokenize hanBlock " ab\n你c ".toList ∧
      (' ' ∉ "ab".toList ∧ '\n' ∉ "ab".toList) :=
  ⟨by decide,
    tokenize_words_without_separator hanBlock " ab\n你c ".toList "ab".toList (by decide)⟩

end Wrap
